import Mathlib

/-!
The gitbrowser plugin: path tree, flat index and incremental quick-open filter.

A shallow embedding of the algorithmic core of `src/gitbrowser.c`:

* the tokenizers `tok_tokenize_next` and `tok_tokenize_next_line`;
* the `GNode` tree built by `get_child` / `tree_model_build_populate` and its
  transfer into the tree model by `tree_model_build_traverse`;
* the flattener `recurse_repository_to_list`;
* the idle-time filter `cb_open_quick_filter_idle` and the query handler
  `evt_open_quick_entry_changed`;
* the sorted list of `repository_to_list` (`cb_array_sort`), the lookups
  `tree_model_find_repository` and `repository_find_by_path`, the path
  building of `tree_model_open_document` / `tree_model_get_document_path`,
  and `tree_model_build_repository`.

Conventions of the embedding.

* A C string is the list of its bytes before the terminating NUL (`CStr`);
  a `gchar` is a `Char`, and the order on bytes is the order on code points.
  A pointer into a string is the list of the bytes from that position on;
  `NULL` is `none`.
* A `GNode *` is a value of type `GNode`: `null`, or a node together with
  what its `children` and `next` links reach. A sibling list is therefore
  the chain obtained by following `next`.
* The rows of a `GtkTreeStore` have the same first-child / next-sibling
  shape (`TreeRow`), with the two string columns of `tree_model_new`.
* A function that stores a byte past the end of a fixed-size array has no
  result (`none`): the behaviour of the program is undefined from there on.
* The file name encoding is UTF-8, GLib's default, so that
  `g_filename_display_name` keeps a name that is valid UTF-8 and replaces
  each byte that begins no well-formed sequence by U+FFFD.
* The comparison of two `gdouble` values in the budget test of the idle
  callback is not computed: its outcome at each evaluation is given from
  outside, except for a budget of zero, where it is known.
* Library functions are given by what their documentation says: `strcmp`,
  `strstr`, `g_strlcpy`, `g_array_sort`, `g_spawn_sync`, and the iterators of
  the tree and list stores. The collation `g_utf8_collate` depends on the
  locale and is a parameter.
-/

namespace GitBrowser

/-! ## Strings -/

/-- A C string, as the list of its bytes before the terminating NUL. -/
abbrev CStr := List Char

/-- The terminating NUL byte. -/
def NUL : Char := Char.ofNat 0

/-- The directory separator `G_DIR_SEPARATOR` (a POSIX build). -/
def G_DIR_SEPARATOR : Char := '/'

/-- The line-feed character. -/
def LF : Char := '\n'

/-- Byte-wise comparison `strcmp`: negative, zero or positive. The
terminator compares below every byte of a string. -/
def strcmp : CStr → CStr → Int
  | [], [] => 0
  | [], _ :: _ => -1
  | _ :: _, [] => 1
  | a :: s, b :: t =>
    if a.toNat < b.toNat then -1
    else if b.toNat < a.toNat then 1
    else strcmp s t

/-- Substring search `strstr`: the position of the first occurrence of
`needle` in `haystack`, or `none` (NULL). An empty needle is found at the
start. -/
def strstr : CStr → CStr → Option CStr
  | [], needle => if needle = [] then some [] else none
  | c :: rest, needle =>
    if needle.isPrefixOf (c :: rest) then some (c :: rest) else strstr rest needle

/-- Bounded copy `g_strlcpy` into a destination of `dest_size` bytes, one at
least: the string left in the destination (at most `dest_size - 1` bytes,
then NUL). -/
def g_strlcpy (src : CStr) (dest_size : Nat) : CStr :=
  src.take (dest_size - 1)

/-- The state of a scan for well-formed UTF-8: the number of bytes that the
sequence begun still needs, and the least and the greatest value allowed
for the next byte. -/
abbrev Utf8State := Nat × Nat × Nat

/-- The state between two sequences. -/
def utf8_start : Utf8State := (0, 0x80, 0xBF)

/-- One byte of the scan: the next state, or `none` when the byte cannot
stand here. Over-long forms, surrogates and values above U+10FFFF are
refused, as `g_utf8_validate` does. -/
def utf8_step (st : Utf8State) (c : Char) : Option Utf8State :=
  match st with
  | (0, _, _) =>
    if c.toNat < 0x80 then some utf8_start
    else if 0xC2 ≤ c.toNat ∧ c.toNat ≤ 0xDF then some (1, 0x80, 0xBF)
    else if c.toNat = 0xE0 then some (2, 0xA0, 0xBF)
    else if c.toNat = 0xED then some (2, 0x80, 0x9F)
    else if 0xE1 ≤ c.toNat ∧ c.toNat ≤ 0xEF then some (2, 0x80, 0xBF)
    else if c.toNat = 0xF0 then some (3, 0x90, 0xBF)
    else if c.toNat = 0xF4 then some (3, 0x80, 0x8F)
    else if 0xF1 ≤ c.toNat ∧ c.toNat ≤ 0xF3 then some (3, 0x80, 0xBF)
    else none
  | (n + 1, lo, hi) =>
    if lo ≤ c.toNat ∧ c.toNat ≤ hi then some (n, 0x80, 0xBF) else none

/-- The scan over a whole string, from the state `st`. -/
def utf8_run : Utf8State → CStr → Option Utf8State
  | st, [] => some st
  | st, c :: rest =>
    match utf8_step st c with
    | none => none
    | some st2 => utf8_run st2 rest

/-- The GLib function `g_utf8_validate` on a NUL-terminated string: whether
the string is well-formed UTF-8. -/
def g_utf8_validate (str : CStr) : Bool :=
  utf8_run utf8_start str == some utf8_start

/-- Whether the first bytes of the text complete the sequence begun in the
state `st`. -/
def utf8_completes : Utf8State → CStr → Bool
  | _, [] => false
  | st, c :: rest =>
    match utf8_step st c with
    | none => false
    | some (0, _, _) => true
    | some (n + 1, lo, hi) => utf8_completes (n + 1, lo, hi) rest

/-- The bytes of U+FFFD, the replacement character. -/
def REPLACEMENT_CHARACTER : CStr := [Char.ofNat 0xEF, Char.ofNat 0xBF, Char.ofNat 0xBD]

/-- The loop of `g_utf8_make_valid`: a well-formed sequence is copied (`copy`
counts the bytes of it that are still to be copied), and a byte that begins
none is replaced by U+FFFD. -/
def make_valid_scan : Nat → CStr → CStr
  | _, [] => []
  | copy + 1, c :: rest => c :: make_valid_scan copy rest
  | 0, c :: rest =>
    if utf8_completes utf8_start (c :: rest) then
      c :: make_valid_scan ((utf8_step utf8_start c).getD utf8_start).1 rest
    else REPLACEMENT_CHARACTER ++ make_valid_scan 0 rest

/-- The GLib function `g_utf8_make_valid`. -/
def g_utf8_make_valid (str : CStr) : CStr := make_valid_scan 0 str

/-- The GLib function `g_filename_display_name` when the file name encoding
is UTF-8: a valid name is returned as it is, and in any other the bytes that
are not valid are replaced by U+FFFD. -/
def g_filename_display_name (filename : CStr) : CStr :=
  if g_utf8_validate filename then filename else g_utf8_make_valid filename

/-! ## Tokenizers -/

/-- One call of `tok_tokenize_next(text, &endptr, separator)`.
Returns `none` for NULL, else the token (the string at `anchor` once the
separator has been overwritten by NUL) and the value stored in `*endptr`. -/
def tok_tokenize_next (text : Option CStr) (separator : Char) :
    Option (CStr × Option CStr) :=
  match text with
  | none => none
  | some [] => none
  | some (c :: cs) =>
    -- while(*text == separator) text++;
    let anchor := (c :: cs).dropWhile (fun x => x == separator)
    -- while(*text && *text != separator) text++;
    match anchor.dropWhile (fun x => x != separator) with
    | _ :: rest => some (anchor.takeWhile (fun x => x != separator), some rest)
    | [] => some (anchor.takeWhile (fun x => x != separator), none)

/-- The caller's loop `while((tk = tok_tokenize_next(text, &end, sep)) != NULL)
{ ...; text = end; }`, collecting the tokens; `fuel` bounds the number of
calls. -/
def tok_iterate (separator : Char) : Nat → Option CStr → List CStr
  | 0, _ => []
  | fuel + 1, text =>
    match tok_tokenize_next text separator with
    | none => []
    | some (tk, endptr) => tk :: tok_iterate separator fuel endptr

/-- All tokens of `text`: every call but the last consumes at least one
byte, so `length + 1` calls are enough (`segments_fuel`). -/
def segments (text : CStr) (separator : Char) : List CStr :=
  tok_iterate separator (text.length + 1) (some text)

/-- The copying loop of `tok_tokenize_next_line`, after `buf_size--`:
`room` is the remaining `buf_size`, `written` the bytes stored through
`buffer` so far. Returns the returned pointer and the bytes written, a NUL
included when the code writes one. -/
def next_line_scan : CStr → Nat → List Char → CStr × List Char
  | [], _, written => ([], written)
  | c :: rest, room, written =>
    if c = LF then (rest.dropWhile (fun x => x == LF), written ++ [NUL])
    else if 0 < room then next_line_scan rest (room - 1) (written ++ [c])
    else next_line_scan rest room written

/-- One call of `tok_tokenize_next_line(lines, buffer, buf_size)` with a
non-NULL buffer: `none` for NULL, else the returned pointer and the bytes
written from the start of `buffer`. `buf_size` is a `size_t`, so the
decrement wraps around at zero. -/
def tok_tokenize_next_line (lines : Option CStr) (buf_size : Nat) :
    Option (CStr × List Char) :=
  match lines with
  | none => none
  | some [] => none
  | some (c :: cs) => some (next_line_scan (c :: cs) ((buf_size + (2 ^ 64 - 1)) % 2 ^ 64) [])

/-- The memory of `buffer` after `written` has been stored from its start. -/
def store_bytes (buffer written : List Char) : List Char :=
  written ++ buffer.drop written.length

/-- The C string that starts at the beginning of a byte array. -/
def c_string (memory : List Char) : CStr :=
  memory.takeWhile (fun x => x != NUL)

/-- The lines seen by a caller that calls `tok_tokenize_next_line` again on
the returned pointer until it returns NULL, reading `buffer` as a string
after each call. -/
def lines_iterate (buf_size : Nat) : Nat → Option CStr → List Char → List CStr
  | 0, _, _ => []
  | fuel + 1, lines, buffer =>
    match tok_tokenize_next_line lines buf_size with
    | none => []
    | some (next, written) =>
      c_string (store_bytes buffer written) ::
        lines_iterate buf_size fuel (some next) (store_bytes buffer written)

/-! ## The GNode tree -/

/-- A `GNode *`: NULL, or a node with its data, first child and next
sibling. -/
inductive GNode where
  | null : GNode
  | node (data : CStr) (children : GNode) (next : GNode) : GNode
deriving DecidableEq, Repr

/-- The loop of `get_child`, started at `here`: the sibling chain from
`here` on after the call, and the position in it of the node returned. -/
def get_child : GNode → CStr → GNode × Nat
  | GNode.null, text => (GNode.node text GNode.null GNode.null, 0)
  | GNode.node d ch nx, text =>
    if strcmp text d = 0 then (GNode.node d ch nx, 0)
    else if strcmp text d < 0 then (GNode.node text GNode.null (GNode.node d ch nx), 0)
    else ((GNode.node d ch (get_child nx text).1), (get_child nx text).2 + 1)

/-- Apply `f` to the children of the node at position `i` of a sibling
chain: what the program does through the pointer `prev`. -/
def update_children : Nat → (GNode → GNode) → GNode → GNode
  | _, _, GNode.null => GNode.null
  | 0, f, GNode.node d ch nx => GNode.node d (f ch) nx
  | i + 1, f, GNode.node d ch nx => GNode.node d ch (update_children i f nx)

/-- The inner loop of `tree_model_build_populate` on the children of `prev`:
`prev = get_child(prev, dir)` for each segment in turn. -/
def populate_dirs : List CStr → GNode → GNode
  | [], children => children
  | dir :: rest, children =>
    update_children (get_child children dir).2 (populate_dirs rest) (get_child children dir).1

/-- The body of the outer loop of `tree_model_build_populate` for one line,
on the children of `root`: when no segment was found `prev == root` and the
line itself is looked up under the root. -/
def populate_line (root_children : GNode) (line : CStr) : GNode :=
  match segments line G_DIR_SEPARATOR with
  | [] => (get_child root_children line).1
  | dir :: rest => populate_dirs (dir :: rest) root_children

/-- The children of `root` after the outer loop has handled `paths`. -/
def populate_paths (paths : List CStr) : GNode :=
  paths.foldl populate_line GNode.null

/-- The children of the `GNode` root built by `tree_model_build_populate`
from the listing `lines`. -/
def populate_tree (lines : CStr) : GNode :=
  populate_paths (segments lines LF)

/-! ## The tree model -/

/-- A row of the tree store (columns 0 and 1) with its first child and next
sibling; `null` is the end of a sibling chain. -/
inductive TreeRow where
  | null : TreeRow
  | row (col0 col1 : CStr) (children : TreeRow) (next : TreeRow) : TreeRow
deriving DecidableEq, Repr

/-- Sibling chain `a` followed by sibling chain `b`: rows appended later by
`gtk_tree_store_append` come after the earlier ones. -/
def TreeRow.append : TreeRow → TreeRow → TreeRow
  | TreeRow.null, b => b
  | TreeRow.row c0 c1 ch nx, b => TreeRow.row c0 c1 ch (TreeRow.append nx b)

/-- The second loop of `tree_model_build_traverse` ("Leaves"), from `child`
on: the rows appended and their number. -/
def traverse_leaves : GNode → TreeRow × Nat
  | GNode.null => (TreeRow.null, 0)
  | GNode.node d ch nx =>
    if ch ≠ GNode.null then traverse_leaves nx
    else (TreeRow.row (g_filename_display_name d) d TreeRow.null (traverse_leaves nx).1,
          1 + (traverse_leaves nx).2)

/-- The first loop of `tree_model_build_traverse` ("Inner nodes"), from
`child` on; the recursive call on an inner node runs both loops on its
children. -/
def traverse_inner : GNode → TreeRow × Nat
  | GNode.null => (TreeRow.null, 0)
  | GNode.node d ch nx =>
    if ch = GNode.null then traverse_inner nx
    else (TreeRow.row (g_filename_display_name d) d
            (TreeRow.append (traverse_inner ch).1 (traverse_leaves ch).1) (traverse_inner nx).1,
          ((traverse_inner ch).2 + (traverse_leaves ch).2) + (traverse_inner nx).2)

/-- The call `tree_model_build_traverse(model, root, parent)`, given the
first child of `root`: the rows appended under `parent` and the count
returned. -/
def tree_model_build_traverse (first_child : GNode) : TreeRow × Nat :=
  (TreeRow.append (traverse_inner first_child).1 (traverse_leaves first_child).1,
   (traverse_inner first_child).2 + (traverse_leaves first_child).2)

/-- The call `tree_model_build_populate(model, lines, parent)`: the rows
appended under `parent` and the count returned. -/
def tree_model_build_populate (lines : CStr) : TreeRow × Nat :=
  tree_model_build_traverse (populate_tree lines)

/-- The order in which `tree_model_build_traverse` appends rows: the data
of each node, in the order of the `gtk_tree_store_append` calls. -/
def emitted : TreeRow → List CStr
  | TreeRow.null => []
  | TreeRow.row _ c1 ch nx => c1 :: (emitted ch ++ emitted nx)

/-! ## The flat index -/

/-- A compiled `GRegex`, as the set of strings it matches. -/
abbrev GRegex := CStr → Bool

/-- One element of `qoi->array`. -/
structure QuickOpenPair where
  name : CStr
  path : CStr
deriving DecidableEq, Repr

/-- The string left of the last occurrence of `c`, or the whole string when
`c` does not occur: `if((slash = g_utf8_strrchr(dpath, -1, c)) != NULL)
*slash = 0`. -/
def cut_at_last (s : CStr) (c : Char) : CStr :=
  match s.reverse.dropWhile (fun x => x != c) with
  | [] => s
  | _ :: r => r.reverse

/-- The call `recurse_repository_to_list(model, iter, path, path_length, qoi)`
on the rows from `iter` on, `path` being the buffer up to `path_length` and
`path_size` the size of the array that `path` points into (`buf[2048]` of
`repository_to_list`, the only caller): the pairs appended to `qoi->array`,
in order, or `none` when a byte is stored past the end of that array, which
the function does not test for. The call walks all the siblings from `iter`
on, which leaves the iterator exhausted, so the caller's own loop over the
children runs once. -/
def recurse_repository_to_list (quick_open_hide : Option GRegex) (path_size : Nat) :
    TreeRow → CStr → Option (List QuickOpenPair)
  | TreeRow.null, _ => some []
  | TreeRow.row dname fname children next, path =>
    -- for(...; *get != 0; ...) *put = *get; *put = 0;
    if path.length + fname.length < path_size then
      let here : Option (List QuickOpenPair) :=
        if children ≠ TreeRow.null then
          -- strcpy(put, G_DIR_SEPARATOR_S);
          if path.length + fname.length + 1 < path_size then
            recurse_repository_to_list quick_open_hide path_size children
              (path ++ fname ++ [G_DIR_SEPARATOR])
          else none
        else
          match quick_open_hide with
          | none =>
            some [⟨dname, cut_at_last (g_filename_display_name (path ++ fname))
              G_DIR_SEPARATOR⟩]
          | some re =>
            if !re dname then
              some [⟨dname, cut_at_last (g_filename_display_name (path ++ fname))
                G_DIR_SEPARATOR⟩]
            else some []
      -- } while(gtk_tree_model_iter_next(model, iter));
      match here, recurse_repository_to_list quick_open_hide path_size next path with
      | some entries, some rest => some (entries ++ rest)
      | _, _ => none
    else none

/-- The array filled by `repository_to_list` before sorting, for the rows
under the repository node: the walk starts with `buf` holding the root path
and a separator, and is not made when these do not fit (`len < sizeof buf`). -/
def flat_entries (quick_open_hide : Option GRegex) (root_path : CStr) (rows : TreeRow) :
    Option (List QuickOpenPair) :=
  if root_path.length + 1 < 2048 then
    recurse_repository_to_list quick_open_hide 2048 rows (root_path ++ [G_DIR_SEPARATOR])
  else some []

/-! ## The quick-open filter -/

/-- A row of the quick-open list store: name, location, visible flag. -/
structure StoreRow where
  name : CStr
  path : CStr
  visible : Bool
deriving DecidableEq, Repr

/-- The fields of `QuickOpenInfo` that the filter uses. `filter_iter` is
the position of a valid iterator in the store, or `none` for an invalid
one. -/
structure QuickOpenInfo where
  store : List StoreRow
  filter_text : CStr
  filter_idle : Nat
  filter_iter : Option Nat
deriving DecidableEq, Repr

/-- The source id returned by `g_idle_add`: never zero. -/
def g_idle_add : Nat := 1

/-- The iterator set by `gtk_tree_model_get_iter_first` on the list store:
invalid (the call returns FALSE) when the store is empty. -/
def gtk_tree_model_get_iter_first (store : List StoreRow) : Option Nat :=
  match store with
  | [] => none
  | _ :: _ => some 0

/-- The iterator after `gtk_tree_model_iter_next`: invalid (the call returns
FALSE) when there is no next row. -/
def gtk_tree_model_iter_next (store : List StoreRow) (iter : Nat) : Option Nat :=
  if iter + 1 < store.length then some (iter + 1) else none

/-- The body of the loop of `cb_open_quick_filter_idle` on the row at
`iter`: the store afterwards. -/
def filter_row (filter_text : CStr) (store : List StoreRow) (iter : Nat) (r : StoreRow) :
    List StoreRow :=
  if (strstr r.name filter_text).isSome != r.visible then
    store.set iter { r with visible := (strstr r.name filter_text).isSome }
  else store

/-- The test `g_timer_elapsed(tmr, NULL) < max_time` of the loop condition,
where `max_time` is the `gdouble` product `1e-3 * quick_open_filter_max_time`.
For a budget of zero (or less) the product is not above 0.0 and the timer
never reads below it, so the test fails; for a positive budget `below` is
the outcome of the comparison of the two `gdouble` values. -/
def budget_test (quick_open_filter_max_time : Int) (below : Bool) : Bool :=
  if quick_open_filter_max_time ≤ 0 then false else below

/-- The loop of `cb_open_quick_filter_idle`. `max_time` is
`quick_open_filter_max_time`, in milliseconds, and `below i` is the outcome
of the comparison of the timer with the budget at the `i`-th evaluation of
the loop condition. Returns the store, the iterator and `valid`; `none` when
the loop reads through an invalid iterator or the fuel is used up. -/
def filter_loop (max_time : Int) (below : Nat → Bool) (filter_text : CStr) :
    Nat → Nat → List StoreRow → Option Nat → Option (List StoreRow × Option Nat × Bool)
  | 0, _, _, _ => none
  | fuel + 1, i, store, iter =>
    if budget_test max_time (below i) then
      match iter with
      | none => none
      | some cur =>
        match store[cur]? with
        | none => none
        | some r =>
          match gtk_tree_model_iter_next (filter_row filter_text store cur r) cur with
          | some next =>
            filter_loop max_time below filter_text fuel (i + 1)
              (filter_row filter_text store cur r) (some next)
          | none => some (filter_row filter_text store cur r, none, false)
    else some (store, iter, true)

/-- The idle callback `cb_open_quick_filter_idle`: the state afterwards and
the value returned (FALSE once the end of the store is reached). Every turn
of the loop moves the iterator forward, so `length + 1` turns are enough. -/
def cb_open_quick_filter_idle (max_time : Int) (below : Nat → Bool) (qoi : QuickOpenInfo) :
    Option (QuickOpenInfo × Bool) :=
  match filter_loop max_time below qoi.filter_text (qoi.store.length + 1) 0
      qoi.store qoi.filter_iter with
  | none => none
  | some (store, iter, true) => some ({ qoi with store := store, filter_iter := iter }, true)
  | some (store, iter, false) =>
    some ({ qoi with store := store, filter_iter := iter, filter_idle := 0 }, false)

/-- The handler `evt_open_quick_entry_changed`, `entry_text` being the text
of the entry. -/
def evt_open_quick_entry_changed (entry_text : CStr) (qoi : QuickOpenInfo) : QuickOpenInfo :=
  match gtk_tree_model_get_iter_first qoi.store with
  | some first =>
    { qoi with
      filter_text := g_strlcpy entry_text 128
      filter_iter := some first
      filter_idle := if qoi.filter_idle = 0 then g_idle_add else qoi.filter_idle }
  | none => { qoi with filter_text := g_strlcpy entry_text 128, filter_iter := none }

/-- The states of a quick-open dialog: it starts with no idle callback
registered; the entry may change at any time; the main loop runs the idle
callback only while it is registered, which is while `filter_idle` is
non-zero. -/
inductive Reachable : QuickOpenInfo → Prop where
  | start (store : List StoreRow) (text : CStr) (iter : Option Nat) :
      Reachable ⟨store, text, 0, iter⟩
  | changed (entry_text : CStr) (s : QuickOpenInfo) :
      Reachable s → Reachable (evt_open_quick_entry_changed entry_text s)
  | tick (max_time : Int) (below : Nat → Bool) (s t : QuickOpenInfo) (again : Bool) :
      Reachable s → s.filter_idle ≠ 0 →
      cb_open_quick_filter_idle max_time below s = some (t, again) → Reachable t

/-- The states of a quick-open dialog together with the text that its entry
holds: the dialog starts with an empty entry, an empty `filter_text` and no
idle callback registered; a change of the entry runs the handler with the new
text; the main loop runs the idle callback only while it is registered. -/
inductive Typed : CStr → QuickOpenInfo → Prop where
  | start (store : List StoreRow) (iter : Option Nat) : Typed [] ⟨store, [], 0, iter⟩
  | changed (entry_text query : CStr) (s : QuickOpenInfo) :
      Typed query s → Typed entry_text (evt_open_quick_entry_changed entry_text s)
  | tick (max_time : Int) (below : Nat → Bool) (query : CStr) (s t : QuickOpenInfo)
      (again : Bool) :
      Typed query s → s.filter_idle ≠ 0 →
      cb_open_quick_filter_idle max_time below s = some (t, again) → Typed query t

/-- Successive runs of the idle callback, at most `n` of them, the `k`-th
with the outcomes `below k` of the budget tests: the state when the callback returns
FALSE, and the number of runs it took. -/
def run_ticks (max_time : Int) : Nat → (Nat → Nat → Bool) → QuickOpenInfo →
    Option (QuickOpenInfo × Nat)
  | 0, _, _ => none
  | n + 1, below, qoi =>
    match cb_open_quick_filter_idle max_time (below 0) qoi with
    | none => none
    | some (t, false) => some (t, 1)
    | some (t, true) =>
      match run_ticks max_time n (fun k => below (k + 1)) t with
      | none => none
      | some (u, k) => some (u, k + 1)

/-! ## Notions used to state the properties -/

/-- The names of the nodes of a sibling chain, in order. -/
def sibling_names : GNode → List CStr
  | GNode.null => []
  | GNode.node d _ nx => d :: sibling_names nx

/-- The nodes of a sibling chain in order, each as its name and its first
child. -/
def siblings : GNode → List (CStr × GNode)
  | GNode.null => []
  | GNode.node d ch nx => (d, ch) :: siblings nx

/-- A list of names is in strictly ascending `strcmp` order. -/
def StrictlyAscending (names : List CStr) : Prop :=
  names.Pairwise (fun a b => strcmp a b < 0)

/-- The invariant of the build: the children of every node (every sibling
chain of the tree) have pairwise distinct names in strictly ascending
`strcmp` order. -/
def Ordered : GNode → Prop
  | GNode.null => True
  | GNode.node d ch nx =>
    (StrictlyAscending (d :: sibling_names nx) ∧ (d :: sibling_names nx).Nodup) ∧
      Ordered ch ∧ Ordered nx

/-- The files of a tree: for every childless node, the names on the way from
the top of the tree down to it. -/
def leaf_paths : GNode → List (List CStr)
  | GNode.null => []
  | GNode.node d ch nx =>
    (if ch = GNode.null then [[d]] else (leaf_paths ch).map (fun q => d :: q)) ++ leaf_paths nx

/-- The paths of a listing, each as its list of segments. -/
def listing_paths (lines : CStr) : List (List CStr) :=
  (segments lines LF).map (fun line => segments line G_DIR_SEPARATOR)

/-- No structural conflict: no path of the listing is a proper initial part
of another one, so no name is both a file and a directory. -/
def NoConflict (paths : List (List CStr)) : Prop :=
  ∀ p ∈ paths, ∀ q ∈ paths, p.isPrefixOf q = true → p = q

/-- The entry expected for a file given by its segments: the last segment
as name, the root path joined with the segments before it as location. -/
def entry_of (root_path : CStr) (p : List CStr) : QuickOpenPair :=
  ⟨p.getLastD [], root_path ++ (p.dropLast.map (fun d => G_DIR_SEPARATOR :: d)).flatten⟩

/-- Whether the exclusion pattern is set and matches `name`. -/
def excluded (quick_open_hide : Option GRegex) (name : CStr) : Bool :=
  match quick_open_hide with
  | none => false
  | some re => re name

/-- The strings matched by the pattern `\.tmp$`: those that end in `.tmp`. -/
def re_dot_tmp : GRegex := fun name => (".tmp".toList).isSuffixOf name

instance (paths : List (List CStr)) : Decidable (NoConflict paths) := by
  unfold NoConflict
  infer_instance

/-- The visible flag of a row is the one the filter computes for
`filter_text`. -/
def Filtered (filter_text : CStr) (r : StoreRow) : Prop :=
  r.visible = (strstr r.name filter_text).isSome

/-- The rows at the positions from `lo` up to `c`, `c` excluded, carry the
flag computed for `filter_text`. -/
def Scanned (filter_text : CStr) (store : List StoreRow) (lo c : Nat) : Prop :=
  ∀ j r, lo ≤ j → j < c → store[j]? = some r → Filtered filter_text r

/-- The budget test `g_timer_elapsed(tmr, NULL) < max_time` succeeds. -/
def within_budget (max_time : Int) (below : Bool) : Prop :=
  budget_test max_time below = true

/-- What a run of the loop guarantees about its result. -/
def LoopOk (max_time : Int) (us : Bool) (text : CStr) (store : List StoreRow) (lo cur : Nat)
    (res : List StoreRow × Option Nat × Bool) : Prop :=
  res.1.length = store.length ∧
    (res.2.2 = false → res.2.1 = none ∧ within_budget max_time us ∧
      Scanned text res.1 lo res.1.length) ∧
    (res.2.2 = true → ∃ c, res.2.1 = some c ∧ cur ≤ c ∧ c < store.length ∧
      Scanned text res.1 lo c ∧ (within_budget max_time us → cur < c) ∧
      (¬ within_budget max_time us → res.1 = store ∧ c = cur))

/-- The index of the example: `b.txt` and `c.txt` in `root/a`, `d.txt` in
`root`, all visible. -/
def example_index : List StoreRow :=
  [⟨"b.txt".toList, "root/a".toList, true⟩, ⟨"c.txt".toList, "root/a".toList, true⟩,
    ⟨"d.txt".toList, "root".toList, true⟩]

/-- The state of the example once the query `c` has been typed. -/
def example_scanning : QuickOpenInfo :=
  evt_open_quick_entry_changed "c".toList ⟨example_index, [], 0, none⟩

/-- The state of the example after the scan for `c`: only `c.txt` visible. -/
def example_done : QuickOpenInfo :=
  ⟨[⟨"b.txt".toList, "root/a".toList, false⟩, ⟨"c.txt".toList, "root/a".toList, true⟩,
    ⟨"d.txt".toList, "root".toList, false⟩], "c".toList, 0, none⟩

/-- The names (column 0) of the childless rows, in the order of the walk of
`recurse_repository_to_list`. -/
def row_leaf_names : TreeRow → List CStr
  | TreeRow.null => []
  | TreeRow.row c0 _ ch nx =>
    (if ch ≠ TreeRow.null then row_leaf_names ch else [c0]) ++ row_leaf_names nx

/-- The pairs that the walk of `recurse_repository_to_list` appends when no
byte is stored outside the buffer. -/
def recurse_entries (quick_open_hide : Option GRegex) : TreeRow → CStr → List QuickOpenPair
  | TreeRow.null, _ => []
  | TreeRow.row dname fname children next, path =>
    (if children ≠ TreeRow.null then
        recurse_entries quick_open_hide children (path ++ fname ++ [G_DIR_SEPARATOR])
      else if excluded quick_open_hide dname then []
      else [⟨dname, cut_at_last (g_filename_display_name (path ++ fname)) G_DIR_SEPARATOR⟩])
    ++ recurse_entries quick_open_hide next path

/-- Whether the walk of `recurse_repository_to_list` over `rows`, entered
with `path_length` bytes in the buffer, stores every byte inside an array of
`path_size` bytes. -/
def rows_fit (path_size : Nat) : TreeRow → Nat → Bool
  | TreeRow.null, _ => true
  | TreeRow.row _ fname children next, path_length =>
    decide (path_length + fname.length < path_size) &&
      (if children ≠ TreeRow.null then
        decide (path_length + fname.length + 1 < path_size) &&
          rows_fit path_size children (path_length + fname.length + 1)
      else true) &&
      rows_fit path_size next path_length

/-- The entry that the walk makes for a file given by its segments: the
display name of the last segment, and the display form of the whole path cut
at its last separator. -/
def display_entry (root_path : CStr) (p : List CStr) : QuickOpenPair :=
  ⟨g_filename_display_name (p.getLastD []),
    cut_at_last (g_filename_display_name
      (root_path ++ (p.map (fun d => G_DIR_SEPARATOR :: d)).flatten)) G_DIR_SEPARATOR⟩

/-- The lines read from a zeroed buffer of `buf_size` bytes by calling
`tok_tokenize_next_line` until it returns NULL; a call that returns a
pointer moves past at least one byte, so `length + 1` calls are enough
(`buffered_lines_fuel`). -/
def buffered_lines (text : CStr) (buf_size : Nat) : List CStr :=
  lines_iterate buf_size (text.length + 1) (some text) (List.replicate buf_size NUL)

/-! ## Sorting the flat index -/

/-- The comparison function `cb_array_sort`, `g_utf8_collate` being the
collation of the current locale. -/
def cb_array_sort (g_utf8_collate : CStr → CStr → Int) (a b : QuickOpenPair) : Int :=
  if g_utf8_collate a.path b.path = 0 then g_utf8_collate a.name b.name
  else g_utf8_collate a.path b.path

/-- The GLib function `g_array_sort`: the array sorted by `compare_func`.
GLib documents the sort as stable; it is taken to be an insertion sort, which
puts each element before the first one that it does not follow. -/
def g_array_sort {α : Type} (compare_func : α → α → Int) (array : List α) : List α :=
  array.insertionSort (fun a b => compare_func a b ≤ 0)

/-! ## The tree model as a whole -/

/-- A row immediately under the top-level row of the tree model: a
repository, with its two columns and the rows below it. -/
structure RepositoryRow where
  col0 : CStr
  col1 : Option CStr
  children : TreeRow
deriving DecidableEq, Repr

/-- The tree model made by `tree_model_new`: a single top-level row, whose
column 1 is NULL; the model is given by the rows immediately under it. -/
abbrev TreeModel := List RepositoryRow

/-- The search loop of `repository_to_list` over the rows under the
top-level row: the row found, if any; `none` when `strcmp` is handed a NULL
column. -/
def find_repository_row (root_path : CStr) : List RepositoryRow → Option (Option RepositoryRow)
  | [] => some none
  | r :: rest =>
    match r.col1 with
    | none => none
    | some path =>
      if strcmp path root_path = 0 then some (some r) else find_repository_row root_path rest

/-- The array filled by `repository_to_list` before it is sorted: empty when
the function returns early or the root path does not fit the buffer, and
`none` when the walk stores a byte past the end of the buffer. -/
def repository_array (quick_open_hide : Option GRegex) (root_path : CStr) (model : TreeModel) :
    Option (List QuickOpenPair) :=
  match find_repository_row root_path model with
  | none => none
  | some none => some []
  | some (some repo) => flat_entries quick_open_hide root_path repo.children

/-- The rows that `repository_to_list` puts into the list store, which is
empty before the call. -/
def repository_to_list (g_utf8_collate : CStr → CStr → Int) (quick_open_hide : Option GRegex)
    (root_path : CStr) (model : TreeModel) : Option (List StoreRow) :=
  (repository_array quick_open_hide root_path model).map
    (fun array => (g_array_sort (cb_array_sort g_utf8_collate) array).map
      (fun pair => ⟨pair.name, pair.path, true⟩))

/-- The file name that `repository_open_quick` builds for a selected row,
`g_snprintf("%s%s%s", dpath, G_DIR_SEPARATOR_S, dname)`. -/
def quick_open_filename (dname dpath : CStr) : CStr :=
  dpath ++ [G_DIR_SEPARATOR] ++ dname

/-- The row at position `i` of a sibling chain: its columns and first
child. -/
def TreeRow.nth : TreeRow → Nat → Option (CStr × CStr × TreeRow)
  | TreeRow.null, _ => none
  | TreeRow.row c0 c1 ch _, 0 => some (c0, c1, ch)
  | TreeRow.row _ _ _ nx, i + 1 => TreeRow.nth nx i

/-- Follow the indices of a `GtkTreePath` down from a sibling chain: the
column-1 values of the rows passed, and the children of the last one. -/
def lookup_below : TreeRow → List Nat → Option (List (Option CStr) × TreeRow)
  | rows, [] => some ([], rows)
  | rows, i :: rest =>
    match TreeRow.nth rows i with
    | none => none
    | some (_, c1, ch) =>
      match lookup_below ch rest with
      | none => none
      | some (components, below) => some (some c1 :: components, below)

/-- The row that `gtk_tree_model_get_iter` finds for a `GtkTreePath`: the
column-1 values from the top-level row down to it, and whether it has
children; `none` when the path names no row. -/
def model_lookup (model : TreeModel) (path : List Nat) : Option (List (Option CStr) × Bool) :=
  match path with
  | [] => none
  | 0 :: [] => some ([none], !model.isEmpty)
  | 0 :: r :: rest =>
    match model[r]? with
    | none => none
    | some repo =>
      match lookup_below repo.children rest with
      | none => none
      | some (components, below) =>
        some (none :: repo.col1 :: components, decide (below ≠ TreeRow.null))
  | (_ + 1) :: _ => none

/-- One turn of the loop "walk towards the root": the `GString` after the
component of the current row has been handled. -/
def prepend_component (path : CStr) (component : Option CStr) : CStr :=
  match component with
  | none => path
  | some c => if 0 < path.length then c ++ ([G_DIR_SEPARATOR] ++ path) else c ++ path

/-- The file name built by the walk from a row towards the root, given the
column-1 values from the top-level row down to the row. -/
def walk_to_root (components : List (Option CStr)) : CStr :=
  components.reverse.foldl prepend_component []

/-- The function `tree_model_open_document`: the value returned and the file
name handed to `document_open_file`. -/
def tree_model_open_document (model : TreeModel) (path : List Nat) : Bool × Option CStr :=
  match model_lookup model path with
  | none => (false, none)
  | some (components, _) => (true, some (walk_to_root components))

/-- The function `tree_model_get_document_path` for the row at `path`: the
value returned and the string stored in `buf`, if any (with `buf_max` zero
`g_strlcpy` stores nothing); `none` when `path` names no row. -/
def tree_model_get_document_path (model : TreeModel) (path : List Nat) (buf_max : Nat) :
    Option (Bool × Option CStr) :=
  match model_lookup model path with
  | none => none
  | some (components, has_child) =>
    if has_child then some (false, none)
    else some (decide ((walk_to_root components).length < buf_max),
      if buf_max = 0 then none else some (g_strlcpy (walk_to_root components) buf_max))

/-- The function `tree_model_find_repository`: the value returned. The loop
runs until `gtk_tree_model_iter_next` fails, which leaves `iter` invalid. -/
def tree_model_find_repository (root_path : CStr) : List RepositoryRow → Bool → Bool
  | [], found => found
  | r :: rest, found =>
    match r.col1 with
    | none => tree_model_find_repository root_path rest found
    | some data => tree_model_find_repository root_path rest (decide (strcmp data root_path = 0))

/-- The outcome of running `git ls-files` in the root path: whether the
process could be spawned, its exit status, and what it wrote to its standard
output. -/
structure ListerResult where
  spawned : Bool
  exit_status : Int
  output : CStr
deriving DecidableEq, Repr

/-- The wrapper `subprocess_run`: `g_spawn_sync` is called without a place
for the exit status and returns TRUE when the child was spawned; `none` is
FALSE, else the output. -/
def subprocess_run (lister : ListerResult) : Option CStr :=
  if lister.spawned then some lister.output else none

/-- The string after the last occurrence of `c`, or the whole string when
`c` does not occur: `slash = strrchr(s, c)`, then `slash + 1` or `s`. -/
def after_last (s : CStr) (c : Char) : CStr :=
  (s.reverse.takeWhile (fun x => x != c)).reverse

/-- The function `tree_model_build_repository` called with `repo == NULL`:
a row for the repository is appended under the top-level row and, when the
lister could be run, filled from its output. -/
def tree_model_build_repository (model : TreeModel) (root_path : CStr) (lister : ListerResult) :
    TreeModel :=
  model ++ [⟨after_last root_path G_DIR_SEPARATOR, some root_path,
    match subprocess_run lister with
    | some git_stdout => (tree_model_build_populate git_stdout).1
    | none => TreeRow.null⟩]

/-- The function `repository_find_by_path`, `repositories` being the root
paths of the hash table in the order of its iteration: the root path of the
repository returned, or `none` for NULL. -/
def repository_find_by_path (path : CStr) : List CStr → Option CStr
  | [] => none
  | root_path :: rest =>
    if strstr path root_path = some path then some root_path
    else repository_find_by_path path rest

/-! ## More notions used to state the properties -/

/-- A collation is consistent: exchanging the arguments exchanges the sign,
and "not after" is transitive. -/
def Collation (collate : CStr → CStr → Int) : Prop :=
  (∀ a b, collate a b < 0 ↔ 0 < collate b a) ∧
    ∀ a b c, collate a b ≤ 0 → collate b c ≤ 0 → collate a c ≤ 0

/-- The components joined with one separator between consecutive ones. -/
def join_path : List CStr → CStr
  | [] => []
  | [c] => c
  | c :: d :: rest => c ++ G_DIR_SEPARATOR :: join_path (d :: rest)

/-- The nodes of a tree: for every node, the names on the way from the top
of the tree down to it. -/
def node_paths : GNode → List (List CStr)
  | GNode.null => []
  | GNode.node d ch nx => [d] :: ((node_paths ch).map (fun q => d :: q) ++ node_paths nx)

/-- The names that the build looks up for a line, from the root down: its
segments, or the line itself when it has none. -/
def line_names (line : CStr) : List CStr :=
  match segments line G_DIR_SEPARATOR with
  | [] => [line]
  | dir :: rest => dir :: rest

/-- The chains of names that the build looks up for a listing. -/
def inserted_paths (lines : CStr) : List (List CStr) :=
  (segments lines LF).map line_names

/-- The model of the examples: the repositories `/r/a` and `/r/b`, in this
order, each with the file `f`. -/
def example_model : TreeModel :=
  tree_model_build_repository
    (tree_model_build_repository [] "/r/a".toList ⟨true, 0, "f\n".toList⟩)
    "/r/b".toList ⟨true, 0, "f\n".toList⟩

/-- The array of the example: the repository `root` with the listing
`z.txt`, `a/b.txt`, `d.txt`. -/
def example_array : List QuickOpenPair :=
  [⟨"b.txt".toList, "root/a".toList⟩, ⟨"d.txt".toList, "root".toList⟩,
    ⟨"z.txt".toList, "root".toList⟩]

/-- The model of the example for sorting: the repository `root` with the
listing `z.txt`, `a/b.txt`, `d.txt`. -/
def example_sort_model : TreeModel :=
  tree_model_build_repository [] "root".toList ⟨true, 0, "z.txt\na/b.txt\nd.txt\n".toList⟩

/-- The model of the example for paths: the repository `/r/root` with the
listing `a/b` followed by an empty line. -/
def example_path_model : TreeModel :=
  tree_model_build_repository [] "/r/root".toList ⟨true, 0, "a/b\n\n".toList⟩

/-! ## Counting rows -/

/-- The number of rows of a sibling chain and below that have no child. -/
def childless_rows : TreeRow → Nat
  | TreeRow.null => 0
  | TreeRow.row _ _ ch nx =>
    (if ch ≠ TreeRow.null then childless_rows ch else 1) + childless_rows nx

/-- The number of rows of a sibling chain and below that have a child. -/
def rows_with_children : TreeRow → Nat
  | TreeRow.null => 0
  | TreeRow.row _ _ ch nx =>
    (if ch ≠ TreeRow.null then 1 + rows_with_children ch else 0) + rows_with_children nx

/-- A query of 128 bytes `a`. -/
def example_long_query : CStr := List.replicate 128 'a'

/-- A quick-open state with one hidden row whose name is 127 bytes `a`. -/
def example_long_state : QuickOpenInfo :=
  ⟨[⟨List.replicate 127 'a', "root".toList, false⟩], "b".toList, 0, none⟩

/-! ## More examples -/

/-- A directory name of 250 bytes `d`. -/
def example_dir : CStr := List.replicate 250 'd'

/-- The file `f` under nine directories of that name. -/
def example_long_path : List CStr :=
  List.replicate 9 example_dir ++ ["f".toList]

/-- The listing of that file and of the file `g`: two lines, the first of
2260 bytes. -/
def example_long_listing : CStr :=
  join_path example_long_path ++ [LF] ++ "g".toList ++ [LF]

/-- A listing of two files whose names are the single bytes 0xFE and 0xFF,
neither of which is valid UTF-8. -/
def example_invalid_listing : CStr := [Char.ofNat 0xFE, LF, Char.ofNat 0xFF, LF]

/-- A listing of the file `f` in a directory whose name is the byte 0xFF. -/
def example_invalid_dir_listing : CStr := [Char.ofNat 0xFF, G_DIR_SEPARATOR, 'f', LF]

/-- The quick-open dialog at its start, with one row whose name is 127 bytes
`a`. -/
def example_long_start : QuickOpenInfo :=
  ⟨[⟨List.replicate 127 'a', "root".toList, true⟩], [], 0, none⟩

/-! ## Strings: properties -/

theorem strcmp_self (a : CStr) : strcmp a a = 0 := by
  induction a with
  | nil => rfl
  | cons c s ih => simp [strcmp, ih]

theorem strcmp_eq_zero {a b : CStr} : strcmp a b = 0 ↔ a = b := by
  constructor
  · intro h
    induction a generalizing b with
    | nil => cases b with
      | nil => rfl
      | cons d t => simp [strcmp] at h
    | cons c s ih => cases b with
      | nil => simp [strcmp] at h
      | cons d t =>
        simp only [strcmp] at h
        by_cases h1 : c.toNat < d.toNat
        · simp [h1] at h
        · by_cases h2 : d.toNat < c.toNat
          · simp [h1, h2] at h
          · simp only [h1, h2, if_false] at h
            have hcd : c = d := Char.ext (UInt32.ext (by
              have e1 : c.toNat = c.val.toNat := rfl
              have e2 : d.toNat = d.val.toNat := rfl
              have : c.val.toNat = d.val.toNat := by omega
              exact this))
            rw [hcd, ih h]
  · rintro rfl
    exact strcmp_self a

theorem strcmp_lt_trans {a b c : CStr} (h1 : strcmp a b < 0) (h2 : strcmp b c < 0) :
    strcmp a c < 0 := by
  induction a generalizing b c with
  | nil =>
    cases c with
    | nil => cases b <;> simp [strcmp] at h1 h2
    | cons z c => simp [strcmp]
  | cons x a ih =>
    cases b with
    | nil => simp [strcmp] at h1
    | cons y b =>
      cases c with
      | nil => simp [strcmp] at h2
      | cons z c =>
        simp only [strcmp] at h1 h2 ⊢
        split_ifs at h1 h2 ⊢ <;> first | omega | exact ih h1 h2

theorem strcmp_lt_of_gt {a b : CStr} (h0 : strcmp a b ≠ 0) (h1 : ¬ strcmp a b < 0) :
    strcmp b a < 0 := by
  induction a generalizing b with
  | nil => cases b <;> simp [strcmp] at h0 h1
  | cons x a ih =>
    cases b with
    | nil => simp [strcmp]
    | cons y b =>
      simp only [strcmp] at h0 h1 ⊢
      split_ifs at h0 h1 ⊢ <;> first | omega | exact ih h0 h1

theorem strcmp_lt_ne {a b : CStr} (h : strcmp a b < 0) : a ≠ b := by
  rintro rfl
  rw [strcmp_self] at h
  exact absurd h (by decide)

/-! ## Tokenizers: the loops end before the fuel does -/

theorem length_dropWhile_le {α : Type} (p : α → Bool) (l : List α) :
    (l.dropWhile p).length ≤ l.length := by
  induction l with
  | nil => simp
  | cons a l ih =>
    simp only [List.dropWhile_cons]
    split_ifs
    · simp only [List.length_cons]; omega
    · simp

theorem tok_tokenize_next_shorter {text : CStr} {sep : Char} {tk rest : CStr}
    (h : tok_tokenize_next (some text) sep = some (tk, some rest)) :
    rest.length < text.length := by
  unfold tok_tokenize_next at h
  split at h
  · exact absurd h (by simp)
  · exact absurd h (by simp)
  · rename_i text0 c cs heq
    dsimp only at h
    split at h
    · rename_i x rest0 hd
      simp only [Option.some.injEq, Prod.mk.injEq] at h
      have h1 := length_dropWhile_le (fun x => x != sep)
        ((c :: cs).dropWhile (fun x => x == sep))
      have h2 := length_dropWhile_le (fun x => x == sep) (c :: cs)
      rw [hd] at h1
      simp only [Option.some.injEq] at heq
      rw [← h.2, heq]
      simp only [List.length_cons] at h1 h2 ⊢
      omega
    · simp at h

theorem tok_iterate_null (sep : Char) (fuel : Nat) : tok_iterate sep fuel none = [] := by
  cases fuel <;> simp [tok_iterate, tok_tokenize_next]

theorem tok_iterate_fuel (sep : Char) (fuel1 : Nat) :
    ∀ (fuel2 : Nat) (text : CStr), text.length < fuel1 → text.length < fuel2 →
      tok_iterate sep fuel1 (some text) = tok_iterate sep fuel2 (some text) := by
  induction fuel1 with
  | zero => intro fuel2 text h; omega
  | succ n ih =>
    intro fuel2 text h1 h2
    cases fuel2 with
    | zero => omega
    | succ m =>
      unfold tok_iterate
      cases hcall : tok_tokenize_next (some text) sep with
      | none => rfl
      | some r =>
        obtain ⟨tk, e⟩ := r
        cases e with
        | none => simp only [tok_iterate_null]
        | some rest =>
          have := tok_tokenize_next_shorter hcall
          simp only
          rw [ih m rest (by omega) (by omega)]

theorem segments_fuel (text : CStr) (sep : Char) (fuel : Nat) (h : text.length < fuel) :
    tok_iterate sep fuel (some text) = segments text sep :=
  tok_iterate_fuel sep fuel (text.length + 1) text h (by omega)

theorem next_line_scan_shorter (text : CStr) :
    ∀ (room : Nat) (written : List Char),
      (next_line_scan text room written).1.length ≤ text.length - 1 := by
  induction text with
  | nil => intro room written; simp [next_line_scan]
  | cons c rest ih =>
    intro room written
    unfold next_line_scan
    split_ifs
    · simpa using length_dropWhile_le (fun x => x == LF) rest
    · have := ih (room - 1) (written ++ [c])
      simp only [List.length_cons, Nat.add_sub_cancel]
      omega
    · have := ih room written
      simp only [List.length_cons, Nat.add_sub_cancel]
      omega

theorem lines_iterate_fuel (buf_size : Nat) (fuel1 : Nat) :
    ∀ (fuel2 : Nat) (text : CStr) (buffer : List Char), text.length < fuel1 →
      text.length < fuel2 →
      lines_iterate buf_size fuel1 (some text) buffer =
        lines_iterate buf_size fuel2 (some text) buffer := by
  induction fuel1 with
  | zero => intro fuel2 text buffer h; omega
  | succ n ih =>
    intro fuel2 text buffer h1 h2
    cases fuel2 with
    | zero => omega
    | succ m =>
      cases text with
      | nil => simp [lines_iterate, tok_tokenize_next_line]
      | cons c cs =>
        have hlen := next_line_scan_shorter (c :: cs)
          ((buf_size + (2 ^ 64 - 1)) % 2 ^ 64) []
        simp only [lines_iterate, tok_tokenize_next_line]
        simp only [List.length_cons, Nat.add_sub_cancel] at hlen h1 h2
        rw [ih m _ _ (by omega) (by omega)]

theorem buffered_lines_fuel (text : CStr) (buf_size fuel : Nat) (h : text.length < fuel) :
    lines_iterate buf_size fuel (some text) (List.replicate buf_size NUL) =
      buffered_lines text buf_size :=
  lines_iterate_fuel buf_size fuel (text.length + 1) text _ h (by omega)

/-! ## The order of siblings -/

theorem ordered_names {t : GNode} (h : Ordered t) :
    StrictlyAscending (sibling_names t) ∧ (sibling_names t).Nodup := by
  cases t with
  | null => exact ⟨List.Pairwise.nil, List.nodup_nil⟩
  | node d ch nx => exact h.1

theorem ordered_node {d : CStr} {ch nx : GNode} :
    Ordered (GNode.node d ch nx) ↔
      (∀ e ∈ sibling_names nx, strcmp d e < 0) ∧ Ordered ch ∧ Ordered nx := by
  constructor
  · intro h
    exact ⟨(List.pairwise_cons.mp h.1.1).1, h.2.1, h.2.2⟩
  · rintro ⟨h1, h2, h3⟩
    refine ⟨⟨List.pairwise_cons.mpr ⟨h1, (ordered_names h3).1⟩, ?_⟩, h2, h3⟩
    refine List.nodup_cons.mpr ⟨fun hmem => strcmp_lt_ne (h1 d hmem) rfl, (ordered_names h3).2⟩

theorem get_child_names (t : GNode) (text : CStr) :
    ∀ e ∈ sibling_names (get_child t text).1, e = text ∨ e ∈ sibling_names t := by
  induction t with
  | null => intro e he; simpa [get_child, sibling_names] using he
  | node d ch nx _ ih =>
    intro e he
    unfold get_child at he
    split_ifs at he with h1 h2
    · exact Or.inr he
    · simp only [sibling_names, List.mem_cons] at he ⊢
      exact he
    · simp only [sibling_names, List.mem_cons] at he ⊢
      rcases he with he | he
      · exact Or.inr (Or.inl he)
      · rcases ih e he with h | h
        · exact Or.inl h
        · exact Or.inr (Or.inr h)

theorem get_child_ordered (t : GNode) (text : CStr) (h : Ordered t) :
    Ordered (get_child t text).1 := by
  induction t with
  | null =>
    simp only [get_child]
    exact ordered_node.mpr ⟨by simp [sibling_names], trivial, trivial⟩
  | node d ch nx _ ih =>
    obtain ⟨hd, hch, hnx⟩ := ordered_node.mp h
    unfold get_child
    split_ifs with h1 h2
    · exact h
    · refine ordered_node.mpr ⟨?_, trivial, h⟩
      intro e he
      simp only [sibling_names, List.mem_cons] at he
      rcases he with rfl | he
      · exact h2
      · exact strcmp_lt_trans h2 (hd e he)
    · refine ordered_node.mpr ⟨?_, hch, ih hnx⟩
      intro e he
      rcases get_child_names nx text e he with rfl | he
      · exact strcmp_lt_of_gt h1 h2
      · exact hd e he

theorem update_children_names (i : Nat) (f : GNode → GNode) (t : GNode) :
    sibling_names (update_children i f t) = sibling_names t := by
  induction t generalizing i with
  | null => cases i <;> rfl
  | node d ch nx _ ih =>
    cases i with
    | zero => rfl
    | succ i => simp [update_children, sibling_names, ih]

theorem update_children_ordered (i : Nat) (f : GNode → GNode) (t : GNode)
    (hf : ∀ c, Ordered c → Ordered (f c)) (h : Ordered t) :
    Ordered (update_children i f t) := by
  induction t generalizing i with
  | null => cases i <;> exact h
  | node d ch nx _ ih =>
    obtain ⟨hd, hch, hnx⟩ := ordered_node.mp h
    cases i with
    | zero => exact ordered_node.mpr ⟨hd, hf ch hch, hnx⟩
    | succ i =>
      refine ordered_node.mpr ⟨?_, hch, ih i hnx⟩
      rw [update_children_names]
      exact hd

theorem populate_dirs_ordered (dirs : List CStr) (t : GNode) (h : Ordered t) :
    Ordered (populate_dirs dirs t) := by
  induction dirs generalizing t with
  | nil => exact h
  | cons dir rest ih =>
    exact update_children_ordered _ _ _ (fun c hc => ih c hc) (get_child_ordered t dir h)

theorem populate_line_ordered (t : GNode) (line : CStr) (h : Ordered t) :
    Ordered (populate_line t line) := by
  unfold populate_line
  split
  · exact get_child_ordered t line h
  · exact populate_dirs_ordered _ t h

theorem foldl_populate_line_ordered (paths : List CStr) (t : GNode) (h : Ordered t) :
    Ordered (paths.foldl populate_line t) := by
  induction paths generalizing t with
  | nil => exact h
  | cons line rest ih => exact ih _ (populate_line_ordered t line h)

theorem populate_paths_ordered (paths : List CStr) : Ordered (populate_paths paths) :=
  foldl_populate_line_ordered paths GNode.null trivial

/-! ## The traversal -/

theorem emitted_append (a b : TreeRow) :
    emitted (TreeRow.append a b) = emitted a ++ emitted b := by
  induction a with
  | null => rfl
  | row c0 c1 ch nx _ ih => simp [TreeRow.append, emitted, ih]

theorem emitted_inner (t : GNode) :
    emitted (traverse_inner t).1 =
      ((siblings t).filter (fun c => decide (c.2 ≠ GNode.null))).flatMap
        (fun c => c.1 :: emitted (tree_model_build_traverse c.2).1) := by
  induction t with
  | null => rfl
  | node d ch nx _ ih =>
    unfold traverse_inner
    by_cases hch : ch = GNode.null
    · simp [hch, siblings, ih]
    · simp [hch, siblings, ih, emitted, tree_model_build_traverse]

theorem emitted_leaves (t : GNode) :
    emitted (traverse_leaves t).1 =
      ((siblings t).filter (fun c => decide (c.2 = GNode.null))).map Prod.fst := by
  induction t with
  | null => rfl
  | node d ch nx _ ih =>
    unfold traverse_leaves
    by_cases hch : ch = GNode.null
    · simp [hch, siblings, ih, emitted, g_filename_display_name]
    · simp [hch, siblings, ih]

/-! ## The exclusion pattern -/

theorem recurse_excluded (quick_open_hide : Option GRegex) (rows : TreeRow) (path : CStr) :
    recurse_entries quick_open_hide rows path =
      (recurse_entries none rows path).filter
        (fun e => !excluded quick_open_hide e.name) := by
  induction rows generalizing path with
  | null => rfl
  | row dname fname ch nx ih1 ih2 =>
    unfold recurse_entries
    rw [List.filter_append, ← ih2 path]
    congr 1
    by_cases hch : ch = TreeRow.null
    · cases quick_open_hide with
      | none => simp [hch, excluded]
      | some re =>
        by_cases hre : re dname = true
        · simp [hch, excluded, hre]
        · simp [hch, excluded, hre]
    · simp only [hch, ne_eq, not_false_eq_true, if_true]
      exact ih1 _

/-! ## Leaf paths, flat entries and the filter -/

theorem populate_dirs_null (s : CStr) (rest : List CStr) :
    populate_dirs (s :: rest) GNode.null =
      GNode.node s (populate_dirs rest GNode.null) GNode.null := by
  simp [populate_dirs, get_child, update_children]

theorem populate_dirs_node (s : CStr) (rest : List CStr) (d : CStr) (ch nx : GNode) :
    populate_dirs (s :: rest) (GNode.node d ch nx) =
      if strcmp s d = 0 then GNode.node d (populate_dirs rest ch) nx
      else if strcmp s d < 0 then
        GNode.node s (populate_dirs rest GNode.null) (GNode.node d ch nx)
      else GNode.node d ch (populate_dirs (s :: rest) nx) := by
  simp only [populate_dirs, get_child]
  split_ifs <;> simp [update_children, populate_dirs]

theorem populate_dirs_ne_null (s : CStr) (rest : List CStr) (t : GNode) :
    populate_dirs (s :: rest) t ≠ GNode.null := by
  cases t with
  | null => rw [populate_dirs_null]; exact fun h => GNode.noConfusion h
  | node d ch nx =>
    rw [populate_dirs_node]
    split_ifs <;> exact fun h => GNode.noConfusion h

theorem leaf_paths_ne_nil {t : GNode} {q : List CStr} (h : q ∈ leaf_paths t) : q ≠ [] := by
  induction t with
  | null => simp [leaf_paths] at h
  | node d ch nx _ ih =>
    simp only [leaf_paths, List.mem_append] at h
    rcases h with h | h
    · split_ifs at h
      · simp at h; simp [h]
      · simp only [List.mem_map] at h
        obtain ⟨a, _, rfl⟩ := h
        simp
    · exact ih h

theorem leaf_paths_nonempty {t : GNode} (h : t ≠ GNode.null) : ∃ q, q ∈ leaf_paths t := by
  induction t with
  | null => exact absurd rfl h
  | node d ch nx ih _ =>
    by_cases hch : ch = GNode.null
    · exact ⟨[d], by simp [leaf_paths, hch]⟩
    · obtain ⟨q, hq⟩ := ih hch
      exact ⟨d :: q, by simp [leaf_paths, hch, hq]⟩

theorem leaf_paths_head {t : GNode} {q : List CStr} (h : q ∈ leaf_paths t) :
    ∃ a r, q = a :: r ∧ a ∈ sibling_names t := by
  induction t with
  | null => simp [leaf_paths] at h
  | node d ch nx _ ih =>
    simp only [leaf_paths, List.mem_append] at h
    rcases h with h | h
    · split_ifs at h
      · simp at h; exact ⟨d, [], h, by simp [sibling_names]⟩
      · simp only [List.mem_map] at h
        obtain ⟨a, _, rfl⟩ := h
        exact ⟨d, a, rfl, by simp [sibling_names]⟩
    · obtain ⟨a, r, rfl, ha⟩ := ih h
      exact ⟨a, r, rfl, by simp [sibling_names, ha]⟩

theorem leaf_paths_node_of_ne (d : CStr) {ch : GNode} (nx : GNode) (h : ch ≠ GNode.null) :
    leaf_paths (GNode.node d ch nx) =
      (leaf_paths ch).map (fun q => d :: q) ++ leaf_paths nx := by
  simp [leaf_paths, h]

theorem leaf_paths_single (p : List CStr) (hp : p ≠ []) :
    leaf_paths (populate_dirs p GNode.null) = [p] := by
  induction p with
  | nil => exact absurd rfl hp
  | cons s rest ih =>
    rw [populate_dirs_null]
    cases rest with
    | nil => simp [populate_dirs, leaf_paths]
    | cons s2 rest2 =>
      rw [leaf_paths_node_of_ne s GNode.null (populate_dirs_ne_null s2 rest2 GNode.null),
        ih (by simp)]
      rfl

theorem leaf_mem_next {q : List CStr} (d : CStr) (ch : GNode) {nx : GNode}
    (h : q ∈ leaf_paths nx) : q ∈ leaf_paths (GNode.node d ch nx) := by
  simp only [leaf_paths]
  exact List.mem_append_right _ h

theorem leaf_mem_child {q : List CStr} (d : CStr) {ch : GNode} (nx : GNode)
    (hch : ch ≠ GNode.null) (h : q ∈ leaf_paths ch) :
    d :: q ∈ leaf_paths (GNode.node d ch nx) := by
  simp only [leaf_paths]
  rw [if_neg hch]
  exact List.mem_append_left _ (List.mem_map.mpr ⟨q, h, rfl⟩)

theorem leaf_mem_self (d : CStr) (nx : GNode) :
    [d] ∈ leaf_paths (GNode.node d GNode.null nx) := by
  simp [leaf_paths]

theorem leaf_paths_new (s : CStr) (rest : List CStr) (nx : GNode) :
    leaf_paths (GNode.node s (populate_dirs rest GNode.null) nx) =
      (s :: rest) :: leaf_paths nx := by
  cases rest with
  | nil => simp [populate_dirs, leaf_paths]
  | cons s2 rest2 =>
    rw [leaf_paths_node_of_ne s nx (populate_dirs_ne_null s2 rest2 GNode.null),
      leaf_paths_single _ (by simp)]
    rfl

theorem leaf_paths_populate_dirs (p : List CStr) (hp : p ≠ []) (t : GNode)
    (h1 : ∀ r, p ++ r ∈ leaf_paths t → r = [])
    (h2 : ∀ q ∈ leaf_paths t, ∀ r, q ++ r = p → r = []) :
    ∀ q, q ∈ leaf_paths (populate_dirs p t) ↔ q ∈ leaf_paths t ∨ q = p := by
  induction p generalizing t with
  | nil => exact absurd rfl hp
  | cons s rest ihp =>
    induction t with
    | null =>
      intro q
      rw [leaf_paths_single (s :: rest) (by simp)]
      simp [leaf_paths]
    | node d ch nx _ ihnx =>
      intro q
      rw [populate_dirs_node]
      split_ifs with e1 e2
      · have hsd : s = d := strcmp_eq_zero.mp e1
        subst hsd
        by_cases hrest : rest = []
        · subst hrest
          have hmem : [s] ∈ leaf_paths (GNode.node s ch nx) := by
            by_cases hch : ch = GNode.null
            · subst hch
              exact leaf_mem_self s nx
            · obtain ⟨q1, hq1⟩ := leaf_paths_nonempty hch
              have := h1 q1 (leaf_mem_child s nx hch hq1)
              exact absurd this (leaf_paths_ne_nil hq1)
          simp only [populate_dirs]
          constructor
          · exact fun h => Or.inl h
          · rintro (h | rfl)
            · exact h
            · exact hmem
        · have hch : ch ≠ GNode.null := by
            intro hch
            subst hch
            exact hrest (h2 [s] (leaf_mem_self s nx) rest rfl)
          have hne : populate_dirs rest ch ≠ GNode.null := by
            cases rest with
            | nil => exact absurd rfl hrest
            | cons s2 r2 => exact populate_dirs_ne_null s2 r2 ch
          have ih := ihp hrest ch
            (fun r hr => h1 r (leaf_mem_child s nx hch hr))
            (fun q1 hq1 r hr => h2 (s :: q1) (leaf_mem_child s nx hch hq1) r (by simp [hr]))
          simp only [leaf_paths, hch, hne, if_false, List.mem_append, List.mem_map]
          constructor
          · rintro (⟨a, ha, rfl⟩ | h)
            · rcases (ih a).mp ha with h | rfl
              · exact Or.inl (Or.inl ⟨a, h, rfl⟩)
              · exact Or.inr rfl
            · exact Or.inl (Or.inr h)
          · rintro ((⟨a, ha, rfl⟩ | h) | rfl)
            · exact Or.inl ⟨a, (ih a).mpr (Or.inl ha), rfl⟩
            · exact Or.inr h
            · exact Or.inl ⟨rest, (ih rest).mpr (Or.inr rfl), rfl⟩
      · rw [leaf_paths_new]
        simp only [List.mem_cons]
        tauto
      · have ih := ihnx
          (fun r hr => h1 r (leaf_mem_next d ch hr))
          (fun q1 hq1 r hr => h2 q1 (leaf_mem_next d ch hq1) r hr) q
        simp only [leaf_paths, List.mem_append] at ih ⊢
        rw [ih]
        exact or_assoc.symm

theorem leaf_paths_nodup (t : GNode) (h : Ordered t) : (leaf_paths t).Nodup := by
  induction t with
  | null => simp [leaf_paths]
  | node d ch nx ihch ihnx =>
    obtain ⟨hd, hch, hnx⟩ := ordered_node.mp h
    simp only [leaf_paths]
    refine List.nodup_append.mpr ⟨?_, ihnx hnx, ?_⟩
    · split_ifs
      · simp
      · exact (ihch hch).map (fun a b hab => by simpa using hab)
    · intro q hq1 hq2
      obtain ⟨a, r, rfl, ha⟩ := leaf_paths_head hq2
      have had : a = d := by
        split_ifs at hq1
        · simp at hq1; exact hq1.1
        · simp only [List.mem_map] at hq1
          obtain ⟨b, _, hb⟩ := hq1
          simp at hb; exact hb.1.symm
      subst had
      exact strcmp_lt_ne (hd a ha) rfl

theorem dropWhile_append_of_all {α : Type} (p : α → Bool) (l r : List α)
    (h : ∀ x ∈ l, p x = true) : (l ++ r).dropWhile p = r.dropWhile p := by
  induction l with
  | nil => rfl
  | cons a l ih =>
    have ha : p a = true := h a (List.mem_cons_self a l)
    simp only [List.cons_append, List.dropWhile_cons, ha, if_true]
    exact ih (fun x hx => h x (List.mem_cons_of_mem a hx))

theorem cut_at_last_append (p0 d : CStr) (c : Char) (h : c ∉ d) :
    cut_at_last (p0 ++ c :: d) c = p0 := by
  unfold cut_at_last
  have e : (p0 ++ c :: d).reverse = d.reverse ++ c :: p0.reverse := by simp
  rw [e, dropWhile_append_of_all]
  · simp
  · intro x hx
    have hx1 : x ∈ d := List.mem_reverse.mp hx
    have : x ≠ c := fun hxc => h (hxc ▸ hx1)
    simpa using this

theorem entry_of_single (p0 d : CStr) : entry_of p0 [d] = ⟨d, p0⟩ := by
  simp [entry_of]

theorem entry_of_cons (p0 d : CStr) (q : List CStr) (hq : q ≠ []) :
    entry_of p0 (d :: q) = entry_of (p0 ++ G_DIR_SEPARATOR :: d) q := by
  cases q with
  | nil => exact absurd rfl hq
  | cons a q => simp [entry_of, List.getLastD]

theorem getLastD_cons_of_ne (d : CStr) (q : List CStr) (hq : q ≠ []) :
    (d :: q).getLastD [] = q.getLastD [] := by
  cases q with
  | nil => exact absurd rfl hq
  | cons a q => simp [List.getLastD]

theorem recurse_append (hide : Option GRegex) (a b : TreeRow) (path : CStr) :
    recurse_entries hide (TreeRow.append a b) path =
      recurse_entries hide a path ++ recurse_entries hide b path := by
  induction a generalizing path with
  | null => rfl
  | row c0 c1 ch nx _ ih =>
    simp only [TreeRow.append, recurse_entries, ih, List.append_assoc]

theorem traverse_ne_null {t : GNode} (h : t ≠ GNode.null) :
    (tree_model_build_traverse t).1 ≠ TreeRow.null := by
  cases t with
  | null => exact absurd rfl h
  | node d ch nx =>
    unfold tree_model_build_traverse
    by_cases hch : ch = GNode.null
    · subst hch
      simp only [traverse_inner, traverse_leaves, if_true, ne_eq, not_true_eq_false, if_false]
      cases (traverse_inner nx).1 <;> simp [TreeRow.append]
    · simp [traverse_inner, hch, TreeRow.append]

theorem recurse_leaf (hide : Option GRegex) (dname fname : CStr) (nx : TreeRow) (path : CStr) :
    recurse_entries hide (TreeRow.row dname fname TreeRow.null nx) path =
      (if excluded hide dname then []
        else [⟨dname, cut_at_last (g_filename_display_name (path ++ fname)) G_DIR_SEPARATOR⟩]) ++
        recurse_entries hide nx path := by
  simp [recurse_entries]

theorem recurse_dir (hide : Option GRegex) (dname fname : CStr) {ch : TreeRow} (nx : TreeRow)
    (path : CStr) (hch : ch ≠ TreeRow.null) :
    recurse_entries hide (TreeRow.row dname fname ch nx) path =
      recurse_entries hide ch (path ++ fname ++ [G_DIR_SEPARATOR]) ++
        recurse_entries hide nx path := by
  simp [recurse_entries, hch]

theorem display_entry_single (p0 d : CStr) :
    display_entry p0 [d] =
      ⟨g_filename_display_name d,
        cut_at_last (g_filename_display_name (p0 ++ [G_DIR_SEPARATOR] ++ d)) G_DIR_SEPARATOR⟩ := by
  simp [display_entry]

theorem display_entry_cons (p0 d : CStr) (q : List CStr) (hq : q ≠ []) :
    display_entry p0 (d :: q) = display_entry (p0 ++ G_DIR_SEPARATOR :: d) q := by
  cases q with
  | nil => exact absurd rfl hq
  | cons a q => simp [display_entry, List.getLastD]

theorem entries_perm (hide : Option GRegex) (t : GNode) :
    ∀ p0 : CStr,
      List.Perm
        (recurse_entries hide (tree_model_build_traverse t).1 (p0 ++ [G_DIR_SEPARATOR]))
        (((leaf_paths t).filter
          (fun q => !excluded hide (g_filename_display_name (q.getLastD [])))).map
          (display_entry p0)) := by
  induction t with
  | null =>
    intro p0
    simp [tree_model_build_traverse, traverse_inner, traverse_leaves, TreeRow.append,
      recurse_entries, leaf_paths]
  | node d ch nx ihch ihnx =>
    intro p0
    have hnx := ihnx p0
    simp only [tree_model_build_traverse, recurse_append] at hnx ⊢
    by_cases hch : ch = GNode.null
    · subst hch
      simp only [traverse_inner, traverse_leaves, if_true, ne_eq, not_true_eq_false, if_false,
        recurse_leaf, leaf_paths, List.singleton_append,
        List.filter_cons, List.getLastD_cons, List.getLastD_nil]
      by_cases hex : excluded hide (g_filename_display_name d) = true
      · simpa [hex] using hnx
      · simp only [hex, Bool.false_eq_true, if_false, Bool.not_false, if_true, List.map_cons,
          display_entry_single]
        exact List.perm_middle.trans (List.Perm.cons _ hnx)
    · have hrows := traverse_ne_null hch
      have hih := ihch (p0 ++ G_DIR_SEPARATOR :: d)
      have hmap : ((List.map (fun q => d :: q) (leaf_paths ch)).filter
            (fun q => !excluded hide (g_filename_display_name (q.getLastD [])))).map
              (display_entry p0) =
          ((leaf_paths ch).filter
            (fun q => !excluded hide (g_filename_display_name (q.getLastD [])))).map
            (display_entry (p0 ++ G_DIR_SEPARATOR :: d)) := by
        have hall : ∀ l : List (List CStr), (∀ q ∈ l, q ≠ []) →
            ((List.map (fun q => d :: q) l).filter
              (fun q => !excluded hide (g_filename_display_name (q.getLastD [])))).map
                (display_entry p0) =
            (l.filter (fun q => !excluded hide (g_filename_display_name (q.getLastD [])))).map
              (display_entry (p0 ++ G_DIR_SEPARATOR :: d)) := by
          intro l
          induction l with
          | nil => intro _; rfl
          | cons a l ih =>
            intro hl
            have ha : a ≠ [] := hl a (List.mem_cons_self a l)
            have ih1 := ih (fun q hq => hl q (List.mem_cons_of_mem a hq))
            simp only [List.map_cons, List.filter_cons, getLastD_cons_of_ne d a ha]
            split_ifs
            · simp only [List.map_cons, display_entry_cons p0 d a ha, ih1]
            · exact ih1
        exact hall _ (fun q hq => leaf_paths_ne_nil hq)
      have e1 : (traverse_inner (GNode.node d ch nx)).1 =
          TreeRow.row (g_filename_display_name d) d (tree_model_build_traverse ch).1
            (traverse_inner nx).1 := by
        simp [traverse_inner, hch, tree_model_build_traverse]
      have e2 : (traverse_leaves (GNode.node d ch nx)).1 = (traverse_leaves nx).1 := by
        simp [traverse_leaves, hch]
      rw [e1, e2, recurse_dir hide _ _ _ _ hrows, leaf_paths_node_of_ne d nx hch,
        List.filter_append, List.map_append, hmap, List.append_assoc]
      have e3 : p0 ++ [G_DIR_SEPARATOR] ++ d ++ [G_DIR_SEPARATOR] =
          p0 ++ G_DIR_SEPARATOR :: d ++ [G_DIR_SEPARATOR] := by simp
      rw [e3]
      exact List.Perm.append hih hnx

theorem tok_tokenize_next_sep_free {text : Option CStr} {sep : Char} {tk : CStr}
    {e : Option CStr} (h : tok_tokenize_next text sep = some (tk, e)) : sep ∉ tk := by
  unfold tok_tokenize_next at h
  have key : ∀ l : CStr, sep ∉ l.takeWhile (fun x => x != sep) := by
    intro l hmem
    have := List.mem_takeWhile_imp hmem
    simp at this
  split at h
  · exact absurd h (by simp)
  · exact absurd h (by simp)
  · dsimp only at h
    split at h
    · simp only [Option.some.injEq, Prod.mk.injEq] at h
      rw [← h.1]; exact key _
    · simp only [Option.some.injEq, Prod.mk.injEq] at h
      rw [← h.1]; exact key _

theorem tok_iterate_sep_free (sep : Char) (fuel : Nat) (text : Option CStr) :
    ∀ tk ∈ tok_iterate sep fuel text, sep ∉ tk := by
  induction fuel generalizing text with
  | zero => intro tk h; simp [tok_iterate] at h
  | succ n ih =>
    intro tk h
    unfold tok_iterate at h
    split at h
    · simp at h
    · rename_i tk0 e heq
      simp only [List.mem_cons] at h
      rcases h with rfl | h
      · exact tok_tokenize_next_sep_free heq
      · exact ih e tk h

theorem segments_sep_free (text : CStr) (sep : Char) : ∀ tk ∈ segments text sep, sep ∉ tk :=
  tok_iterate_sep_free sep _ _

theorem split_unique (sep : Char) (x y u v : CStr) (hx : sep ∉ x) (hy : sep ∉ y)
    (hu : u = [] ∨ ∃ w, u = sep :: w) (hv : v = [] ∨ ∃ w, v = sep :: w)
    (h : x ++ u = y ++ v) : x = y ∧ u = v := by
  induction x generalizing y with
  | nil =>
    cases y with
    | nil => exact ⟨rfl, by simpa using h⟩
    | cons c y =>
      exfalso
      simp only [List.nil_append, List.cons_append] at h
      rcases hu with rfl | ⟨w, rfl⟩
      · simp at h
      · simp only [List.cons.injEq] at h
        exact hy (h.1 ▸ List.mem_cons_self _ _)
  | cons c x ih =>
    cases y with
    | nil =>
      exfalso
      simp only [List.nil_append, List.cons_append] at h
      rcases hv with rfl | ⟨w, rfl⟩
      · simp at h
      · simp only [List.cons.injEq] at h
        exact hx (h.1 ▸ List.mem_cons_self _ _)
    | cons c2 y =>
      simp only [List.cons_append, List.cons.injEq] at h
      obtain ⟨e1, e2⟩ := ih y (fun hm => hx (List.mem_cons_of_mem _ hm))
        (fun hm => hy (List.mem_cons_of_mem _ hm)) h.2
      exact ⟨by rw [h.1, e1], e2⟩

theorem joined_head (sep : Char) (a : List CStr) :
    (a.map (fun d => sep :: d)).flatten = [] ∨
      ∃ w, (a.map (fun d => sep :: d)).flatten = sep :: w := by
  cases a with
  | nil => exact Or.inl rfl
  | cons x a => exact Or.inr ⟨_, rfl⟩

theorem joined_inj (sep : Char) (a b : List CStr) (ha : ∀ x ∈ a, sep ∉ x)
    (hb : ∀ x ∈ b, sep ∉ x)
    (h : (a.map (fun d => sep :: d)).flatten = (b.map (fun d => sep :: d)).flatten) :
    a = b := by
  induction a generalizing b with
  | nil =>
    cases b with
    | nil => rfl
    | cons y b => simp at h
  | cons x a ih =>
    cases b with
    | nil => simp at h
    | cons y b =>
      simp only [List.map_cons, List.flatten_cons, List.cons_append, List.cons.injEq,
        true_and] at h
      obtain ⟨e1, e2⟩ := split_unique sep x y _ _ (ha x (List.mem_cons_self _ _))
        (hb y (List.mem_cons_self _ _)) (joined_head sep a) (joined_head sep b) h
      rw [e1, ih b (fun z hz => ha z (List.mem_cons_of_mem _ hz))
        (fun z hz => hb z (List.mem_cons_of_mem _ hz)) e2]

theorem dropLast_append_getLastD (p : List CStr) (hp : p ≠ []) :
    p = p.dropLast ++ [p.getLastD []] := by
  induction p with
  | nil => exact absurd rfl hp
  | cons a p ih =>
    cases p with
    | nil => simp
    | cons b p =>
      have := ih (by simp)
      simp only [List.dropLast_cons₂, List.cons_append, List.cons.injEq, true_and]
      rw [getLastD_cons_of_ne a (b :: p) (by simp)]
      exact this

theorem entry_of_inj (root_path : CStr) (p q : List CStr) (hp : p ≠ []) (hq : q ≠ [])
    (hps : ∀ x ∈ p, G_DIR_SEPARATOR ∉ x) (hqs : ∀ x ∈ q, G_DIR_SEPARATOR ∉ x)
    (h : entry_of root_path p = entry_of root_path q) : p = q := by
  simp only [entry_of, QuickOpenPair.mk.injEq, List.append_cancel_left_eq] at h
  have hd := joined_inj G_DIR_SEPARATOR p.dropLast q.dropLast
    (fun x hx => hps x (List.mem_of_mem_dropLast hx))
    (fun x hx => hqs x (List.mem_of_mem_dropLast hx)) h.2
  rw [dropLast_append_getLastD p hp, dropLast_append_getLastD q hq, hd, h.1]

theorem leaf_paths_fold (Q : List (List CStr)) (t : GNode) (hQ : ∀ p ∈ Q, p ≠ [])
    (hconf : ∀ a b, (a ∈ leaf_paths t ∨ a ∈ Q) → (b ∈ leaf_paths t ∨ b ∈ Q) →
      ∀ r, a ++ r = b → r = []) :
    ∀ q, q ∈ leaf_paths (Q.foldl (fun t p => populate_dirs p t) t) ↔
      q ∈ leaf_paths t ∨ q ∈ Q := by
  induction Q generalizing t with
  | nil => intro q; simp
  | cons p Q ih =>
    intro q
    have hstep := leaf_paths_populate_dirs p (hQ p (List.mem_cons_self _ _)) t
      (fun r hr => hconf p (p ++ r) (Or.inr (List.mem_cons_self _ _)) (Or.inl hr) r rfl)
      (fun a ha r hr => hconf a p (Or.inl ha) (Or.inr (List.mem_cons_self _ _)) r hr)
    have hmem : ∀ a, (a ∈ leaf_paths (populate_dirs p t) ∨ a ∈ Q) →
        (a ∈ leaf_paths t ∨ a ∈ p :: Q) := by
      intro a ha
      rcases ha with ha | ha
      · rcases (hstep a).mp ha with h | rfl
        · exact Or.inl h
        · exact Or.inr (List.mem_cons_self _ _)
      · exact Or.inr (List.mem_cons_of_mem _ ha)
    have := ih (populate_dirs p t) (fun x hx => hQ x (List.mem_cons_of_mem _ hx))
      (fun a b ha hb r hr => hconf a b (hmem a ha) (hmem b hb) r hr) q
    simp only [List.foldl_cons]
    rw [this, hstep q]
    simp only [List.mem_cons]
    tauto

theorem foldl_populate_line_eq (ls : List CStr) (t : GNode)
    (h : ∀ line ∈ ls, segments line G_DIR_SEPARATOR ≠ []) :
    ls.foldl populate_line t =
      (ls.map (fun line => segments line G_DIR_SEPARATOR)).foldl
        (fun t p => populate_dirs p t) t := by
  induction ls generalizing t with
  | nil => rfl
  | cons line ls ih =>
    have h1 : populate_line t line = populate_dirs (segments line G_DIR_SEPARATOR) t := by
      unfold populate_line
      have := h line (List.mem_cons_self _ _)
      split
      · rename_i heq; exact absurd heq this
      · rename_i heq; rw [heq]
    simp only [List.foldl_cons, List.map_cons, h1]
    exact ih _ (fun l hl => h l (List.mem_cons_of_mem _ hl))

theorem leaf_paths_populate_tree (lines : CStr) (hne : [] ∉ listing_paths lines)
    (hconf : NoConflict (listing_paths lines)) :
    ∀ q, q ∈ leaf_paths (populate_tree lines) ↔ q ∈ listing_paths lines := by
  intro q
  have hseg : ∀ line ∈ segments lines LF, segments line G_DIR_SEPARATOR ≠ [] := by
    intro line hl h
    exact hne (h ▸ List.mem_map.mpr ⟨line, hl, rfl⟩)
  unfold populate_tree populate_paths
  rw [foldl_populate_line_eq _ _ hseg]
  have := leaf_paths_fold (listing_paths lines) GNode.null
    (fun p hp h => hne (h ▸ hp))
    (fun a b ha hb r hr => by
      have ha1 : a ∈ listing_paths lines := by simpa [leaf_paths] using ha
      have hb1 : b ∈ listing_paths lines := by simpa [leaf_paths] using hb
      have hpre : a.isPrefixOf b = true := List.isPrefixOf_iff_prefix.mpr ⟨r, hr⟩
      have hab := hconf a ha1 b hb1 hpre
      rw [hab] at hr
      exact List.append_right_eq_self.mp hr) q
  simpa [leaf_paths, listing_paths] using this

theorem getLastD_mem (p : List CStr) (hp : p ≠ []) : p.getLastD [] ∈ p := by
  have h := dropLast_append_getLastD p hp
  rw [h]
  simp

theorem strstr_isSome_iff (haystack needle : CStr) :
    (strstr haystack needle).isSome = true ↔ needle <:+: haystack := by
  induction haystack with
  | nil =>
    unfold strstr
    split_ifs with h
    · simp [h]
    · simp [h]
  | cons c rest ih =>
    unfold strstr
    split_ifs with h
    · simp only [Option.isSome_some, true_iff]
      exact (List.isPrefixOf_iff_prefix.mp h).isInfix
    · rw [ih, List.infix_cons_iff]
      constructor
      · exact fun h1 => Or.inr h1
      · rintro (h1 | h1)
        · exact absurd (List.isPrefixOf_iff_prefix.mpr h1) h
        · exact h1

theorem filter_row_length (text : CStr) (store : List StoreRow) (cur : Nat) (r : StoreRow) :
    (filter_row text store cur r).length = store.length := by
  unfold filter_row
  split_ifs <;> simp

theorem filter_row_other (text : CStr) (store : List StoreRow) (cur : Nat) (r : StoreRow)
    (j : Nat) (hj : j ≠ cur) : (filter_row text store cur r)[j]? = store[j]? := by
  unfold filter_row
  split_ifs
  · exact List.getElem?_set_ne (Ne.symm hj)
  · rfl

theorem filter_row_here (text : CStr) (store : List StoreRow) (cur : Nat) (r : StoreRow)
    (h : store[cur]? = some r) :
    ∃ r2, (filter_row text store cur r)[cur]? = some r2 ∧ Filtered text r2 := by
  have hlt : cur < store.length := (List.getElem?_eq_some.mp h).1
  unfold filter_row
  split_ifs with hne
  · exact ⟨_, List.getElem?_set_self hlt, rfl⟩
  · refine ⟨r, h, ?_⟩
    unfold Filtered
    cases hv : r.visible <;> cases hs : (strstr r.name text).isSome <;> simp [hv, hs] at hne ⊢

theorem filter_loop_ok (max_time : Int) (below : Nat → Bool) (text : CStr) (fuel : Nat) :
    ∀ (i : Nat) (store : List StoreRow) (lo cur : Nat), cur < store.length →
      store.length - cur ≤ fuel → Scanned text store lo cur →
      ∃ res, filter_loop max_time below text fuel i store (some cur) = some res ∧
        LoopOk max_time (below i) text store lo cur res := by
  induction fuel with
  | zero => intro i store lo cur h1 h2 _; omega
  | succ n ih =>
    intro i store lo cur h1 h2 hsc
    unfold filter_loop
    by_cases hb : budget_test max_time (below i) = true
    · rw [if_pos hb]
      have hget : store[cur]? = some store[cur] := List.getElem?_eq_getElem h1
      simp only [hget]
      obtain ⟨r2, hr2, hgood⟩ := filter_row_here text store cur _ hget
      have hlen := filter_row_length text store cur store[cur]
      have hsc2 : Scanned text (filter_row text store cur store[cur]) lo (cur + 1) := by
        intro j r hlo hj hjr
        by_cases hjc : j = cur
        · subst hjc
          rw [hr2] at hjr
          exact (Option.some.inj hjr) ▸ hgood
        · rw [filter_row_other text store cur _ j hjc] at hjr
          exact hsc j r hlo (by omega) hjr
      unfold gtk_tree_model_iter_next
      by_cases hnext : cur + 1 < (filter_row text store cur store[cur]).length
      · rw [if_pos hnext]
        obtain ⟨res, hres, hok⟩ := ih (i + 1) _ lo (cur + 1) hnext (by omega) hsc2
        refine ⟨res, hres, ?_⟩
        obtain ⟨k1, k2, k3⟩ := hok
        refine ⟨by omega, ?_, ?_⟩
        · intro hv
          exact ⟨(k2 hv).1, hb, (k2 hv).2.2⟩
        · intro hv
          obtain ⟨c, e1, e2, e3, e4, _, _⟩ := k3 hv
          exact ⟨c, e1, by omega, by omega, e4, fun _ => by omega, fun hnb => absurd hb hnb⟩
      · rw [if_neg hnext]
        refine ⟨_, rfl, hlen, ?_, ?_⟩
        · intro _
          refine ⟨rfl, hb, ?_⟩
          intro j r hlo hj hjr
          have hjlt : j < (filter_row text store cur store[cur]).length := hj
          exact hsc2 j r hlo (by omega) hjr
        · intro hv
          exact absurd hv (by simp)
    · rw [if_neg hb]
      refine ⟨_, rfl, rfl, ?_, ?_⟩
      · intro hv
        exact absurd hv (by simp)
      · intro _
        exact ⟨cur, rfl, le_refl _, h1, hsc, fun h => absurd h hb, fun _ => ⟨rfl, rfl⟩⟩

theorem filter_loop_forward (max_time : Int) (below : Nat → Bool) (text : CStr) (fuel : Nat) :
    ∀ (i : Nat) (store : List StoreRow) (cur : Nat) (res : List StoreRow × Option Nat × Bool),
      filter_loop max_time below text fuel i store (some cur) = some res →
      res.2.1 = none ∨ ∃ c, res.2.1 = some c ∧ cur ≤ c := by
  induction fuel with
  | zero => intro i store cur res h; simp [filter_loop] at h
  | succ n ih =>
    intro i store cur res h
    unfold filter_loop at h
    split_ifs at h with hb
    · dsimp only at h
      split at h
      · exact absurd h (by simp)
      · rename_i r _
        unfold gtk_tree_model_iter_next at h
        split_ifs at h with hnext
        · rcases ih _ _ _ _ h with h1 | ⟨c, h1, h2⟩
          · exact Or.inl h1
          · exact Or.inr ⟨c, h1, by omega⟩
        · simp only [Option.some.injEq] at h
          exact Or.inl (h ▸ rfl)
    · simp only [Option.some.injEq] at h
      exact Or.inr ⟨cur, h ▸ rfl, le_refl _⟩

theorem cb_spec (max_time : Int) (below : Nat → Bool) (s : QuickOpenInfo) (lo c : Nat)
    (hc : s.filter_iter = some c) (hlt : c < s.store.length)
    (hsc : Scanned s.filter_text s.store lo c) :
    ∃ t again, cb_open_quick_filter_idle max_time below s = some (t, again) ∧
      t.filter_text = s.filter_text ∧ t.store.length = s.store.length ∧
      (again = false → t.filter_idle = 0 ∧ t.filter_iter = none ∧
        within_budget max_time (below 0) ∧
        Scanned t.filter_text t.store lo t.store.length) ∧
      (again = true → t.filter_idle = s.filter_idle ∧
        ∃ c2, t.filter_iter = some c2 ∧ c ≤ c2 ∧ c2 < t.store.length ∧
          Scanned t.filter_text t.store lo c2 ∧
          (within_budget max_time (below 0) → c < c2) ∧
          (¬ within_budget max_time (below 0) → t = s)) := by
  obtain ⟨res, hres, h1, h2, h3⟩ := filter_loop_ok max_time below s.filter_text
    (s.store.length + 1) 0 s.store lo c hlt (by omega) hsc
  obtain ⟨store2, iter2, valid⟩ := res
  unfold cb_open_quick_filter_idle
  rw [hc, hres]
  cases valid with
  | false =>
    refine ⟨_, false, rfl, rfl, h1, ?_, fun h => absurd h (by simp)⟩
    intro _
    exact ⟨rfl, (h2 rfl).1, (h2 rfl).2.1, (h2 rfl).2.2⟩
  | true =>
    refine ⟨_, true, rfl, rfl, h1, fun h => absurd h (by simp), ?_⟩
    intro _
    obtain ⟨c2, e1, e2, e3, e4, e5, e6⟩ := h3 rfl
    refine ⟨rfl, c2, e1, e2, by simpa [h1] using e3, e4, e5, ?_⟩
    intro hnb
    obtain ⟨k1, k2⟩ := e6 hnb
    simp only at k1 e1
    subst k1
    rw [e1, k2, ← hc]

theorem reachable_scanning {s : QuickOpenInfo} (h : Reachable s) :
    s.filter_idle ≠ 0 →
      ∃ c, s.filter_iter = some c ∧ c < s.store.length ∧ Scanned s.filter_text s.store 0 c := by
  induction h with
  | start store text iter => intro h; exact absurd rfl h
  | changed entry_text s _ ih =>
    intro hidle
    unfold evt_open_quick_entry_changed at hidle ⊢
    cases hst : s.store with
    | nil =>
      simp only [hst, gtk_tree_model_get_iter_first] at hidle
      obtain ⟨c, _, hlt, _⟩ := ih hidle
      rw [hst] at hlt
      exact absurd hlt (by simp)
    | cons r rs =>
      simp only [gtk_tree_model_get_iter_first]
      exact ⟨0, rfl, by simp, fun j r _ hj _ => absurd hj (by omega)⟩
  | tick max_time below s t again _ hidle hcb ih =>
    intro htidle
    obtain ⟨c, hc, hlt, hsc⟩ := ih hidle
    obtain ⟨t2, again2, h1, _, _, h4, h5⟩ := cb_spec max_time below s 0 c hc hlt hsc
    rw [hcb] at h1
    simp only [Option.some.injEq, Prod.mk.injEq] at h1
    obtain ⟨rfl, rfl⟩ := h1
    cases again with
    | false => exact absurd (h4 rfl).1 htidle
    | true =>
      obtain ⟨_, c2, e1, _, e3, e4, _⟩ := h5 rfl
      exact ⟨c2, e1, e3, e4⟩

theorem scanned_empty (text : CStr) (store : List StoreRow) (c : Nat) :
    Scanned text store c c :=
  fun _ _ h1 h2 _ => absurd h2 (by omega)

theorem run_ticks_done (max_time : Int) (n : Nat) :
    ∀ (below : Nat → Nat → Bool) (s : QuickOpenInfo) (c : Nat),
      s.filter_iter = some c → c < s.store.length → s.store.length - c ≤ n →
      (∀ k, within_budget max_time (below k 0)) →
      ∃ t k, run_ticks max_time n below s = some (t, k) ∧ 1 ≤ k ∧
        k ≤ s.store.length - c ∧ t.filter_idle = 0 ∧ t.filter_iter = none := by
  induction n with
  | zero => intro below s c _ h1 h2 _; omega
  | succ n ih =>
    intro below s c hc hlt hn hb
    obtain ⟨t, again, h1, _, h3, h4, h5⟩ :=
      cb_spec max_time (below 0) s c c hc hlt (scanned_empty _ _ _)
    unfold run_ticks
    rw [h1]
    cases again with
    | false =>
      exact ⟨t, 1, rfl, le_refl _, by omega, (h4 rfl).1, (h4 rfl).2.1⟩
    | true =>
      obtain ⟨_, c2, e1, _, e3, _, e5, _⟩ := h5 rfl
      have hlt2 : c < c2 := e5 (hb 0)
      obtain ⟨u, k, k1, k2, k3, k4, k5⟩ := ih (fun k => below (k + 1)) t c2 e1 e3
        (by omega) (fun k => hb (k + 1))
      simp only [k1]
      exact ⟨u, k + 1, rfl, by omega, by omega, k4, k5⟩

theorem recurse_names (quick_open_hide : Option GRegex) (rows : TreeRow) (path : CStr) :
    (recurse_entries quick_open_hide rows path).map QuickOpenPair.name =
      (row_leaf_names rows).filter (fun n => !excluded quick_open_hide n) := by
  induction rows generalizing path with
  | null => rfl
  | row dname fname ch nx ih1 ih2 =>
    by_cases hch : ch = TreeRow.null
    · subst hch
      rw [recurse_leaf]
      simp only [row_leaf_names, ne_eq, not_true_eq_false, if_false, List.map_append,
        List.filter_append, ih2 path, List.filter_cons, List.filter_nil]
      by_cases hex : excluded quick_open_hide dname = true
      · simp [hex]
      · simp [hex]
    · rw [recurse_dir _ _ _ _ _ hch]
      simp only [row_leaf_names, ne_eq, hch, not_false_eq_true, if_true, List.map_append,
        List.filter_append, ih1, ih2]

/-! ## Sorting, node paths, lookups and path building -/

theorem cb_array_sort_le {collate : CStr → CStr → Int} {a b : QuickOpenPair} :
    cb_array_sort collate a b ≤ 0 ↔
      collate a.path b.path < 0 ∨ (collate a.path b.path = 0 ∧ collate a.name b.name ≤ 0) := by
  unfold cb_array_sort
  split_ifs with h
  · simp [h]
  · constructor
    · intro h1; exact Or.inl (by omega)
    · rintro (h1 | ⟨h1, _⟩)
      · omega
      · exact absurd h1 h

theorem collation_zero {collate : CStr → CStr → Int} (hc : Collation collate) {a b : CStr}
    (h : collate a b = 0) : collate b a = 0 := by
  have h1 := (hc.1 a b).not
  have h2 := (hc.1 b a).not
  omega

theorem collation_lt_trans {collate : CStr → CStr → Int} (hc : Collation collate) {a b c : CStr}
    (h1 : collate a b ≤ 0) (h2 : collate b c ≤ 0) (h3 : collate a b < 0 ∨ collate b c < 0) :
    collate a c < 0 := by
  by_contra hn
  have p1 := hc.1 a c
  have hca : collate c a ≤ 0 := by omega
  rcases h3 with h3 | h3
  · have hba := hc.2 b c a h2 hca
    have p2 := hc.1 a b
    omega
  · have hcb := hc.2 c a b hca h1
    have p2 := hc.1 b c
    omega

theorem cb_array_sort_total {collate : CStr → CStr → Int} (hc : Collation collate)
    (a b : QuickOpenPair) :
    cb_array_sort collate a b ≤ 0 ∨ cb_array_sort collate b a ≤ 0 := by
  rw [cb_array_sort_le, cb_array_sort_le]
  have p1 := hc.1 a.path b.path
  have p2 := hc.1 b.path a.path
  have n1 := hc.1 a.name b.name
  have n2 := hc.1 b.name a.name
  by_cases h1 : collate a.path b.path < 0
  · exact Or.inl (Or.inl h1)
  · by_cases h2 : collate b.path a.path < 0
    · exact Or.inr (Or.inl h2)
    · have e1 : collate a.path b.path = 0 := by omega
      have e2 : collate b.path a.path = 0 := by omega
      by_cases h3 : collate a.name b.name ≤ 0
      · exact Or.inl (Or.inr ⟨e1, h3⟩)
      · exact Or.inr (Or.inr ⟨e2, by omega⟩)

theorem cb_array_sort_trans {collate : CStr → CStr → Int} (hc : Collation collate)
    {a b c : QuickOpenPair} (h1 : cb_array_sort collate a b ≤ 0)
    (h2 : cb_array_sort collate b c ≤ 0) : cb_array_sort collate a c ≤ 0 := by
  rw [cb_array_sort_le] at h1 h2 ⊢
  rcases h1 with h1 | ⟨h1, n1⟩
  · rcases h2 with h2 | ⟨h2, _⟩
    · exact Or.inl (collation_lt_trans hc (by omega) (by omega) (Or.inl h1))
    · exact Or.inl (collation_lt_trans hc (by omega) (by omega) (Or.inl h1))
  · rcases h2 with h2 | ⟨h2, n2⟩
    · exact Or.inl (collation_lt_trans hc (by omega) (by omega) (Or.inr h2))
    · refine Or.inr ⟨?_, hc.2 _ _ _ n1 n2⟩
      have h3 := hc.2 _ _ _ (le_of_eq h1) (le_of_eq h2)
      have h4 := hc.2 _ _ _ (le_of_eq (collation_zero hc h2)) (le_of_eq (collation_zero hc h1))
      have h5 := hc.1 a.path c.path
      omega

theorem g_array_sort_perm {α : Type} (compare_func : α → α → Int) (array : List α) :
    (g_array_sort compare_func array).Perm array :=
  List.perm_insertionSort _ array

theorem g_array_sort_sorted {collate : CStr → CStr → Int} (hc : Collation collate)
    (array : List QuickOpenPair) :
    (g_array_sort (cb_array_sort collate) array).Pairwise
      (fun a b => cb_array_sort collate a b ≤ 0) := by
  haveI : IsTotal QuickOpenPair (fun a b => cb_array_sort collate a b ≤ 0) :=
    ⟨cb_array_sort_total hc⟩
  haveI : IsTrans QuickOpenPair (fun a b => cb_array_sort collate a b ≤ 0) :=
    ⟨fun _ _ _ => cb_array_sort_trans hc⟩
  exact List.sorted_insertionSort _ array

theorem strcmp_collation : Collation strcmp := by
  have hswap : ∀ a b, strcmp a b < 0 ↔ 0 < strcmp b a := by
    intro a b
    constructor
    · intro h
      have h0 : strcmp b a ≠ 0 := fun h0 => strcmp_lt_ne h (strcmp_eq_zero.mp h0).symm
      have h1 : ¬ strcmp b a < 0 := fun h1 => strcmp_lt_ne (strcmp_lt_trans h h1) rfl
      omega
    · intro h
      exact strcmp_lt_of_gt (by omega) (by omega)
  refine ⟨hswap, ?_⟩
  intro a b c h1 h2
  by_cases e1 : strcmp a b = 0
  · rw [strcmp_eq_zero.mp e1]; exact h2
  · by_cases e2 : strcmp b c = 0
    · rw [← strcmp_eq_zero.mp e2]; exact h1
    · have l1 : strcmp a b < 0 := by omega
      have l2 : strcmp b c < 0 := by omega
      exact le_of_lt (strcmp_lt_trans l1 l2)

theorem next_line_scan_terminated (line rest : CStr) (hline : LF ∉ line) :
    ∀ (room : Nat) (written : List Char),
      next_line_scan (line ++ LF :: rest) room written =
        (rest.dropWhile (fun x => x == LF), written ++ line.take room ++ [NUL]) := by
  induction line with
  | nil => intro room written; simp [next_line_scan]
  | cons c line ih =>
    intro room written
    have hc : c ≠ LF := fun h => hline (h ▸ List.mem_cons_self _ _)
    have hl : LF ∉ line := fun h => hline (List.mem_cons_of_mem _ h)
    simp only [List.cons_append, next_line_scan, hc, if_false, List.append_eq]
    by_cases hroom : 0 < room
    · rw [if_pos hroom, ih hl]
      obtain ⟨k, rfl⟩ : ∃ k, room = k + 1 := ⟨room - 1, by omega⟩
      simp
    · rw [if_neg hroom, ih hl]
      have : room = 0 := by omega
      subst this
      simp

theorem next_line_scan_unterminated (line : CStr) (hline : LF ∉ line) :
    ∀ (room : Nat) (written : List Char),
      next_line_scan line room written = ([], written ++ line.take room) := by
  induction line with
  | nil => intro room written; simp [next_line_scan]
  | cons c line ih =>
    intro room written
    have hc : c ≠ LF := fun h => hline (h ▸ List.mem_cons_self _ _)
    have hl : LF ∉ line := fun h => hline (List.mem_cons_of_mem _ h)
    simp only [next_line_scan, hc, if_false]
    by_cases hroom : 0 < room
    · rw [if_pos hroom, ih hl]
      obtain ⟨k, rfl⟩ : ∃ k, room = k + 1 := ⟨room - 1, by omega⟩
      simp
    · rw [if_neg hroom, ih hl]
      have : room = 0 := by omega
      subst this
      simp

theorem find_repository_last (root_path : CStr) (model : List RepositoryRow)
    (r : RepositoryRow) (found : Bool) :
    tree_model_find_repository root_path (model ++ [r]) found =
      match r.col1 with
      | none => tree_model_find_repository root_path model found
      | some data => decide (strcmp data root_path = 0) := by
  induction model generalizing found with
  | nil =>
    cases hr : r.col1 <;> simp [tree_model_find_repository, hr]
  | cons a model ih =>
    cases ha : a.col1 with
    | none =>
      simp only [List.cons_append, tree_model_find_repository, ha, List.append_eq, ih]
    | some d =>
      simp only [List.cons_append, tree_model_find_repository, ha, List.append_eq, ih]

theorem mem_node_paths_node {d : CStr} {ch nx : GNode} {q : List CStr} :
    q ∈ node_paths (GNode.node d ch nx) ↔
      q = [d] ∨ (∃ r, r ∈ node_paths ch ∧ q = d :: r) ∨ q ∈ node_paths nx := by
  simp only [node_paths, List.mem_cons, List.mem_append, List.mem_map]
  constructor
  · rintro (h | ⟨r, hr, rfl⟩ | h)
    · exact Or.inl h
    · exact Or.inr (Or.inl ⟨r, hr, rfl⟩)
    · exact Or.inr (Or.inr h)
  · rintro (h | ⟨r, hr, rfl⟩ | h)
    · exact Or.inl h
    · exact Or.inr (Or.inl ⟨r, hr, rfl⟩)
    · exact Or.inr (Or.inr h)

theorem nonempty_prefix_cons {s : CStr} {rest q : List CStr} :
    (q ≠ [] ∧ q <+: s :: rest) ↔ q = [s] ∨ ∃ r, (r ≠ [] ∧ r <+: rest) ∧ q = s :: r := by
  cases q with
  | nil => simp
  | cons a q =>
    simp only [ne_eq, reduceCtorEq, not_false_eq_true, List.cons_prefix_cons, true_and,
      List.cons.injEq]
    constructor
    · rintro ⟨rfl, h⟩
      by_cases hq : q = []
      · exact Or.inl ⟨rfl, hq⟩
      · exact Or.inr ⟨q, ⟨hq, h⟩, rfl, rfl⟩
    · rintro (⟨rfl, rfl⟩ | ⟨r, ⟨_, h⟩, rfl, rfl⟩)
      · exact ⟨rfl, List.nil_prefix⟩
      · exact ⟨rfl, h⟩

theorem node_paths_populate_dirs (p : List CStr) :
    ∀ (t : GNode) (q : List CStr),
      q ∈ node_paths (populate_dirs p t) ↔ q ∈ node_paths t ∨ (q ≠ [] ∧ q <+: p) := by
  induction p with
  | nil =>
    intro t q
    simp only [populate_dirs, List.prefix_nil]
    constructor
    · exact fun h => Or.inl h
    · rintro (h | ⟨h1, h2⟩)
      · exact h
      · exact absurd h2 h1
  | cons s rest ihp =>
    intro t
    induction t with
    | null =>
      intro q
      rw [populate_dirs_null, mem_node_paths_node, nonempty_prefix_cons]
      simp only [node_paths, List.not_mem_nil, or_false, false_or]
      constructor
      · rintro (h | ⟨r, hr, rfl⟩)
        · exact Or.inl h
        · rcases (ihp GNode.null r).mp hr with h | h
          · simp [node_paths] at h
          · exact Or.inr ⟨r, h, rfl⟩
      · rintro (h | ⟨r, hr, rfl⟩)
        · exact Or.inl h
        · exact Or.inr ⟨r, (ihp GNode.null r).mpr (Or.inr hr), rfl⟩
    | node d ch nx _ ihnx =>
      intro q
      rw [populate_dirs_node]
      split_ifs with e1 e2
      · have hsd : s = d := strcmp_eq_zero.mp e1
        subst hsd
        rw [mem_node_paths_node, mem_node_paths_node, nonempty_prefix_cons]
        constructor
        · rintro (h | ⟨r, hr, rfl⟩ | h)
          · exact Or.inl (Or.inl h)
          · rcases (ihp ch r).mp hr with h | h
            · exact Or.inl (Or.inr (Or.inl ⟨r, h, rfl⟩))
            · exact Or.inr (Or.inr ⟨r, h, rfl⟩)
          · exact Or.inl (Or.inr (Or.inr h))
        · rintro ((h | ⟨r, hr, rfl⟩ | h) | (h | ⟨r, hr, rfl⟩))
          · exact Or.inl h
          · exact Or.inr (Or.inl ⟨r, (ihp ch r).mpr (Or.inl hr), rfl⟩)
          · exact Or.inr (Or.inr h)
          · exact Or.inl h
          · exact Or.inr (Or.inl ⟨r, (ihp ch r).mpr (Or.inr hr), rfl⟩)
      · rw [mem_node_paths_node, nonempty_prefix_cons]
        constructor
        · rintro (h | ⟨r, hr, rfl⟩ | h)
          · exact Or.inr (Or.inl h)
          · rcases (ihp GNode.null r).mp hr with h | h
            · simp [node_paths] at h
            · exact Or.inr (Or.inr ⟨r, h, rfl⟩)
          · exact Or.inl h
        · rintro (h | h | ⟨r, hr, rfl⟩)
          · exact Or.inr (Or.inr h)
          · exact Or.inl h
          · exact Or.inr (Or.inl ⟨r, (ihp GNode.null r).mpr (Or.inr hr), rfl⟩)
      · rw [mem_node_paths_node, mem_node_paths_node, ihnx q]
        constructor
        · rintro (h | h | h | h)
          · exact Or.inl (Or.inl h)
          · exact Or.inl (Or.inr (Or.inl h))
          · exact Or.inl (Or.inr (Or.inr h))
          · exact Or.inr h
        · rintro ((h | h | h) | h)
          · exact Or.inl h
          · exact Or.inr (Or.inl h)
          · exact Or.inr (Or.inr (Or.inl h))
          · exact Or.inr (Or.inr (Or.inr h))

theorem node_paths_fold (Q : List (List CStr)) :
    ∀ (t : GNode) (q : List CStr),
      q ∈ node_paths (Q.foldl (fun t p => populate_dirs p t) t) ↔
        q ∈ node_paths t ∨ (q ≠ [] ∧ ∃ p ∈ Q, q <+: p) := by
  induction Q with
  | nil => intro t q; simp
  | cons p Q ih =>
    intro t q
    simp only [List.foldl_cons]
    rw [ih, node_paths_populate_dirs]
    simp only [List.mem_cons, exists_eq_or_imp]
    tauto

theorem update_children_id (i : Nat) (t : GNode) : update_children i (fun c => c) t = t := by
  induction t generalizing i with
  | null => cases i <;> rfl
  | node d ch nx _ ih =>
    cases i with
    | zero => rfl
    | succ i => simp [update_children, ih]

theorem populate_line_eq (t : GNode) (line : CStr) :
    populate_line t line = populate_dirs (line_names line) t := by
  unfold populate_line line_names
  split
  · rename_i heq
    simp only [populate_dirs]
    exact (update_children_id _ _).symm
  · rfl

theorem foldl_populate_line_names (ls : List CStr) (t : GNode) :
    ls.foldl populate_line t =
      (ls.map line_names).foldl (fun t p => populate_dirs p t) t := by
  induction ls generalizing t with
  | nil => rfl
  | cons line ls ih =>
    simp only [List.foldl_cons, List.map_cons, populate_line_eq]
    exact ih _

theorem populate_tree_eq (lines : CStr) :
    populate_tree lines =
      (inserted_paths lines).foldl (fun t p => populate_dirs p t) GNode.null := by
  unfold populate_tree populate_paths inserted_paths
  exact foldl_populate_line_names _ _

theorem node_paths_populate_tree (lines : CStr) (q : List CStr) :
    q ∈ node_paths (populate_tree lines) ↔
      q ≠ [] ∧ ∃ p ∈ inserted_paths lines, q <+: p := by
  rw [populate_tree_eq, node_paths_fold]
  simp [node_paths]

theorem leaf_subset_node {t : GNode} {q : List CStr} (h : q ∈ leaf_paths t) :
    q ∈ node_paths t := by
  induction t generalizing q with
  | null => simp [leaf_paths] at h
  | node d ch nx ihch ihnx =>
    rw [mem_node_paths_node]
    simp only [leaf_paths, List.mem_append] at h
    rcases h with h | h
    · split_ifs at h
      · exact Or.inl (by simpa using h)
      · obtain ⟨r, hr, rfl⟩ := List.mem_map.mp h
        exact Or.inr (Or.inl ⟨r, ihch hr, rfl⟩)
    · exact Or.inr (Or.inr (ihnx h))

theorem node_paths_head {t : GNode} {q : List CStr} (h : q ∈ node_paths t) :
    ∃ a r, q = a :: r ∧ a ∈ sibling_names t := by
  induction t with
  | null => simp [node_paths] at h
  | node d ch nx _ ih =>
    rcases mem_node_paths_node.mp h with rfl | ⟨r, _, rfl⟩ | h
    · exact ⟨d, [], rfl, by simp [sibling_names]⟩
    · exact ⟨d, r, rfl, by simp [sibling_names]⟩
    · obtain ⟨a, r, rfl, ha⟩ := ih h
      exact ⟨a, r, rfl, by simp [sibling_names, ha]⟩

theorem node_paths_nonempty {t : GNode} (h : t ≠ GNode.null) : ∃ x, [x] ∈ node_paths t := by
  cases t with
  | null => exact absurd rfl h
  | node d ch nx => exact ⟨d, mem_node_paths_node.mpr (Or.inl rfl)⟩

theorem leaf_iff_node_no_child (t : GNode) (ht : Ordered t) (q : List CStr) :
    q ∈ leaf_paths t ↔ q ∈ node_paths t ∧ ∀ x, q ++ [x] ∉ node_paths t := by
  induction t generalizing q with
  | null => simp [leaf_paths, node_paths]
  | node d ch nx ihch ihnx =>
    obtain ⟨hd, hch, hnx⟩ := ordered_node.mp ht
    have hnot : ∀ r, d :: r ∉ node_paths nx := by
      intro r hr
      obtain ⟨a, r2, e, ha⟩ := node_paths_head hr
      simp only [List.cons.injEq] at e
      exact strcmp_lt_ne (hd a ha) e.1
    constructor
    · intro h
      refine ⟨leaf_subset_node h, ?_⟩
      intro x hx
      simp only [leaf_paths, List.mem_append] at h
      rcases h with h | h
      · by_cases hc : ch = GNode.null
        · subst hc
          simp only [if_true, List.mem_singleton] at h
          subst h
          rcases mem_node_paths_node.mp hx with e | ⟨r, hr, _⟩ | h2
          · simp at e
          · simp [node_paths] at hr
          · exact hnot _ h2
        · rw [if_neg hc] at h
          obtain ⟨r, hr, rfl⟩ := List.mem_map.mp h
          rcases mem_node_paths_node.mp hx with e | ⟨r2, hr2, e⟩ | h2
          · simp at e
          · simp only [List.cons_append, List.cons.injEq, true_and] at e
            exact ((ihch hch r).mp hr).2 x (e ▸ hr2)
          · exact hnot _ h2
      · obtain ⟨a, r, rfl, ha⟩ := leaf_paths_head h
        rcases mem_node_paths_node.mp hx with e | ⟨r2, _, e⟩ | h2
        · simp at e
        · simp only [List.cons_append, List.cons.injEq] at e
          exact strcmp_lt_ne (hd a ha) e.1.symm
        · exact ((ihnx hnx _).mp h).2 x h2
    · rintro ⟨h1, h2⟩
      rcases mem_node_paths_node.mp h1 with rfl | ⟨r, hr, rfl⟩ | h
      · by_cases hc : ch = GNode.null
        · subst hc
          exact leaf_mem_self d nx
        · obtain ⟨x, hx⟩ := node_paths_nonempty hc
          exact absurd (mem_node_paths_node.mpr (Or.inr (Or.inl ⟨[x], hx, rfl⟩))) (h2 x)
      · have hc : ch ≠ GNode.null := by
          rintro rfl
          simp [node_paths] at hr
        refine leaf_mem_child d nx hc ((ihch hch r).mpr ⟨hr, ?_⟩)
        intro x hx
        exact h2 x (mem_node_paths_node.mpr (Or.inr (Or.inl ⟨r ++ [x], hx, rfl⟩)))
      · refine leaf_mem_next d ch ((ihnx hnx q).mpr ⟨h, ?_⟩)
        intro x hx
        exact h2 x (mem_node_paths_node.mpr (Or.inr (Or.inr hx)))

theorem prefix_extend {q p : List CStr} (h : q <+: p) (hne : q ≠ p) :
    ∃ x, q ++ [x] <+: p := by
  obtain ⟨r, rfl⟩ := h
  cases r with
  | nil => simp at hne
  | cons x r => exact ⟨x, ⟨r, by simp⟩⟩

theorem line_names_ne_nil (line : CStr) : line_names line ≠ [] := by
  unfold line_names
  split <;> simp

theorem inserted_paths_ne_nil {lines : CStr} {p : List CStr} (h : p ∈ inserted_paths lines) :
    p ≠ [] := by
  obtain ⟨line, _, rfl⟩ := List.mem_map.mp h
  exact line_names_ne_nil line

theorem leaf_paths_populate_tree_iff (lines : CStr) (q : List CStr) :
    q ∈ leaf_paths (populate_tree lines) ↔
      q ∈ inserted_paths lines ∧ ∀ p ∈ inserted_paths lines, q <+: p → q = p := by
  have hord : Ordered (populate_tree lines) := populate_paths_ordered _
  rw [leaf_iff_node_no_child _ hord]
  simp only [node_paths_populate_tree]
  constructor
  · rintro ⟨⟨hne, p, hp, hqp⟩, hno⟩
    have key : ∀ p2 ∈ inserted_paths lines, q <+: p2 → q = p2 := by
      intro p2 hp2 hq2
      by_contra hneq
      obtain ⟨x, hx⟩ := prefix_extend hq2 hneq
      exact hno x ⟨by simp, p2, hp2, hx⟩
    exact ⟨key p hp hqp ▸ hp, key⟩
  · rintro ⟨hq, hmax⟩
    refine ⟨⟨inserted_paths_ne_nil hq, q, hq, List.prefix_refl q⟩, ?_⟩
    rintro x ⟨_, p, hp, hxp⟩
    have hqp : q <+: p := (List.prefix_append q [x]).trans hxp
    have := hmax p hp hqp
    subst this
    have := hxp.length_le
    simp at this

theorem segments_eq_nil {line : CStr} {sep : Char} (h : segments line sep = []) : line = [] := by
  cases line with
  | nil => rfl
  | cons c cs =>
    exfalso
    have hsome : ∃ r, tok_tokenize_next (some (c :: cs)) sep = some r := by
      unfold tok_tokenize_next
      dsimp only
      split <;> exact ⟨_, rfl⟩
    obtain ⟨r, hr⟩ := hsome
    unfold segments at h
    simp only [List.length_cons, tok_iterate, hr] at h
    exact List.cons_ne_nil _ _ h

theorem line_names_sep_free (line : CStr) : ∀ x ∈ line_names line, G_DIR_SEPARATOR ∉ x := by
  intro x hx
  unfold line_names at hx
  split at hx
  · rename_i heq
    simp only [List.mem_singleton] at hx
    rw [hx, segments_eq_nil heq]
    simp
  · rename_i dir rest heq
    rw [← heq] at hx
    exact segments_sep_free line G_DIR_SEPARATOR x hx

theorem line_names_of_segments {line : CStr} (h : segments line G_DIR_SEPARATOR ≠ []) :
    line_names line = segments line G_DIR_SEPARATOR := by
  unfold line_names
  split
  · rename_i heq; exact absurd heq h
  · rename_i heq; exact heq.symm

theorem listing_path_inserted {lines : CStr} {p : List CStr} (hp : p ∈ listing_paths lines)
    (hne : p ≠ []) : p ∈ inserted_paths lines := by
  obtain ⟨line, hl, rfl⟩ := List.mem_map.mp hp
  exact List.mem_map.mpr ⟨line, hl, line_names_of_segments hne⟩

theorem node_names_sep_free (lines : CStr) {q : List CStr}
    (hq : q ∈ node_paths (populate_tree lines)) : ∀ x ∈ q, G_DIR_SEPARATOR ∉ x := by
  obtain ⟨_, p, hp, hqp⟩ := (node_paths_populate_tree lines q).mp hq
  obtain ⟨line, _, rfl⟩ := List.mem_map.mp hp
  intro x hx
  exact line_names_sep_free line x (hqp.subset hx)

theorem leaf_names_sep_free (lines : CStr) {q : List CStr}
    (hq : q ∈ leaf_paths (populate_tree lines)) : ∀ x ∈ q, G_DIR_SEPARATOR ∉ x :=
  node_names_sep_free lines (leaf_subset_node hq)

theorem flat_entries_perm (quick_open_hide : Option GRegex) (root_path lines : CStr) :
    (recurse_entries quick_open_hide (tree_model_build_populate lines).1
        (root_path ++ [G_DIR_SEPARATOR])).Perm
      (((leaf_paths (populate_tree lines)).filter
        (fun q => !excluded quick_open_hide (g_filename_display_name (q.getLastD [])))).map
          (display_entry root_path)) :=
  entries_perm quick_open_hide (populate_tree lines) root_path

theorem join_path_cons (c : CStr) (l : List CStr) :
    join_path (c :: l) = c ++ (l.map (fun d => G_DIR_SEPARATOR :: d)).flatten := by
  induction l generalizing c with
  | nil => simp [join_path]
  | cons d l ih => simp [join_path, ih]

theorem traverse_count (t : GNode) :
    (tree_model_build_traverse t).2 = (leaf_paths t).length := by
  unfold tree_model_build_traverse
  induction t with
  | null => rfl
  | node d ch nx ihch ihnx =>
    simp only at ihch ihnx
    by_cases hc : ch = GNode.null
    · subst hc
      simp only [traverse_inner, traverse_leaves, leaf_paths, if_true, ne_eq,
        not_true_eq_false, if_false, List.length_append, List.length_singleton]
      omega
    · simp only [traverse_inner, traverse_leaves, leaf_paths, hc, if_false, ne_eq,
        not_false_eq_true, if_true, List.length_append, List.length_map]
      omega

theorem sibling_names_eq (c : GNode) : sibling_names c = (siblings c).map Prod.fst := by
  induction c with
  | null => rfl
  | node d ch nx _ ih => simp [sibling_names, siblings, ih]

theorem get_child_returns (c : GNode) (text : CStr) :
    ∃ sub, (siblings (get_child c text).1)[(get_child c text).2]? = some (text, sub) := by
  induction c with
  | null => exact ⟨GNode.null, rfl⟩
  | node d ch nx _ ih =>
    unfold get_child
    split_ifs with h1 h2
    · exact ⟨ch, by simp [siblings, strcmp_eq_zero.mp h1]⟩
    · exact ⟨GNode.null, by simp [siblings]⟩
    · obtain ⟨sub, hsub⟩ := ih
      exact ⟨sub, by simpa [siblings] using hsub⟩

theorem get_child_found (c : GNode) (text : CStr) :
    ∀ (i : Nat) (sub : GNode), StrictlyAscending (sibling_names c) →
      (siblings c)[i]? = some (text, sub) → get_child c text = (c, i) := by
  induction c with
  | null => intro i sub _ h; simp [siblings] at h
  | node d ch nx _ ih =>
    intro i sub hasc h
    have hd := (List.pairwise_cons.mp hasc).1
    have hnx := (List.pairwise_cons.mp hasc).2
    cases i with
    | zero =>
      simp only [siblings, List.getElem?_cons_zero, Option.some.injEq, Prod.mk.injEq] at h
      unfold get_child
      rw [if_pos (by rw [h.1]; exact strcmp_self text)]
    | succ i =>
      simp only [siblings, List.getElem?_cons_succ] at h
      have hmem : text ∈ sibling_names nx := by
        rw [sibling_names_eq]
        exact List.mem_map.mpr ⟨(text, sub), List.mem_iff_getElem?.mpr ⟨i, h⟩, rfl⟩
      have hlt := hd text hmem
      have h0 : ¬ strcmp text d = 0 := fun h0 =>
        strcmp_lt_ne hlt (strcmp_eq_zero.mp h0).symm
      have h1 : ¬ strcmp text d < 0 := fun h1 => strcmp_lt_ne (strcmp_lt_trans hlt h1) rfl
      unfold get_child
      rw [if_neg h0, if_neg h1, ih i sub hnx h]

theorem get_child_new (c : GNode) (text : CStr) (h : text ∉ sibling_names c) :
    siblings (get_child c text).1 =
        (siblings c).take (get_child c text).2 ++
          (text, GNode.null) :: (siblings c).drop (get_child c text).2 ∧
      (get_child c text).2 ≤ (siblings c).length := by
  induction c with
  | null => exact ⟨rfl, le_refl _⟩
  | node d ch nx _ ih =>
    simp only [sibling_names, List.mem_cons, not_or] at h
    have h0 : ¬ strcmp text d = 0 := fun h0 => h.1 (strcmp_eq_zero.mp h0)
    unfold get_child
    rw [if_neg h0]
    split_ifs with h1
    · exact ⟨rfl, Nat.zero_le _⟩
    · obtain ⟨e1, e2⟩ := ih h.2
      constructor
      · simp only [siblings, List.take_succ_cons, List.drop_succ_cons, List.cons_append]
        rw [← e1]
      · simp only [siblings, List.length_cons]
        omega

theorem get_child_ascending (c : GNode) (text : CStr)
    (h : StrictlyAscending (sibling_names c)) :
    StrictlyAscending (sibling_names (get_child c text).1) := by
  induction c with
  | null =>
    simp only [get_child, sibling_names]
    exact List.pairwise_singleton _ _
  | node d ch nx _ ih =>
    have hd := (List.pairwise_cons.mp h).1
    have hnx := (List.pairwise_cons.mp h).2
    unfold get_child
    split_ifs with h1 h2
    · exact h
    · refine List.pairwise_cons.mpr ⟨?_, h⟩
      intro e he
      simp only [sibling_names, List.mem_cons] at he
      rcases he with rfl | he
      · exact h2
      · exact strcmp_lt_trans h2 (hd e he)
    · refine List.pairwise_cons.mpr ⟨?_, ih hnx⟩
      intro e he
      rcases get_child_names nx text e he with rfl | he
      · exact strcmp_lt_of_gt h1 h2
      · exact hd e he

theorem insert_position_lt (names : List CStr) (text : CStr) (i j : Nat) (hij : i < j)
    (hj : j ≤ names.length)
    (hi2 : StrictlyAscending (names.take i ++ text :: names.drop i))
    (hj2 : StrictlyAscending (names.take j ++ text :: names.drop j)) : False := by
  have hlt : i < names.length := by omega
  have hget : names[i]? = some names[i] := List.getElem?_eq_getElem hlt
  have m1 : names[i] ∈ names.take j :=
    List.mem_iff_getElem?.mpr ⟨i, by rw [List.getElem?_take_of_lt hij]; exact hget⟩
  have m2 : names[i] ∈ names.drop i :=
    List.mem_iff_getElem?.mpr ⟨0, by rw [List.getElem?_drop]; exact hget⟩
  have l1 : strcmp names[i] text < 0 :=
    (List.pairwise_append.mp hj2).2.2 _ m1 _ (List.mem_cons_self _ _)
  have l2 : strcmp text names[i] < 0 :=
    (List.pairwise_cons.mp (List.pairwise_append.mp hi2).2.1).1 _ m2
  exact strcmp_lt_ne (strcmp_lt_trans l1 l2) rfl

theorem join_path_merge (xs : List CStr) (c acc : CStr) :
    join_path (xs ++ [c ++ G_DIR_SEPARATOR :: acc]) = join_path (xs ++ [c, acc]) := by
  cases xs with
  | nil => simp [join_path]
  | cons x xs => simp [join_path_cons]

theorem foldl_prepend_nonempty (l : List CStr) :
    ∀ acc : CStr, acc ≠ [] →
      (l.map some).foldl prepend_component acc = join_path (l.reverse ++ [acc]) := by
  induction l with
  | nil => intro acc _; simp [join_path]
  | cons c l ih =>
    intro acc hacc
    have hlen : 0 < acc.length := List.length_pos.mpr hacc
    simp only [List.map_cons, List.foldl_cons, prepend_component, hlen, if_true]
    rw [ih _ (by simp), List.reverse_cons, List.append_assoc]
    have := join_path_merge l.reverse c acc
    simpa using this

theorem foldl_prepend_skip (l : List (Option CStr)) :
    ∀ acc : CStr,
      l.foldl prepend_component acc = ((l.filterMap id).map some).foldl prepend_component acc := by
  induction l with
  | nil => intro acc; rfl
  | cons c l ih =>
    intro acc
    cases c with
    | none => simpa [prepend_component] using ih acc
    | some c => simpa using ih _

theorem walk_to_root_joined (components : List (Option CStr)) (init : List CStr) (last : CStr)
    (hcs : components.filterMap id = init ++ [last]) (hlast : last ≠ [] ∨ init = []) :
    walk_to_root components = join_path (init ++ [last]) := by
  unfold walk_to_root
  rw [foldl_prepend_skip, List.filterMap_reverse, hcs]
  simp only [List.reverse_append, List.reverse_cons, List.reverse_nil, List.nil_append,
    List.singleton_append, List.map_cons, List.foldl_cons, prepend_component,
    List.length_nil, Nat.lt_irrefl, if_false, List.append_nil]
  rcases hlast with h | h
  · rw [foldl_prepend_nonempty _ _ h, List.reverse_reverse]
  · subst h
    simp [join_path]

/-! ## Trees with the same nodes, row counts and buffer bounds -/

theorem ordered_ext (t1 : GNode) :
    ∀ t2 : GNode, Ordered t1 → Ordered t2 →
      (∀ q, q ∈ node_paths t1 ↔ q ∈ node_paths t2) → t1 = t2 := by
  induction t1 with
  | null =>
    intro t2 _ _ h
    cases t2 with
    | null => rfl
    | node d ch nx =>
      have := (h [d]).mpr (mem_node_paths_node.mpr (Or.inl rfl))
      simp [node_paths] at this
  | node d1 ch1 nx1 ihch ihnx =>
    intro t2 h1 h2 h
    cases t2 with
    | null =>
      have := (h [d1]).mp (mem_node_paths_node.mpr (Or.inl rfl))
      simp [node_paths] at this
    | node d2 ch2 nx2 =>
      obtain ⟨hd1, hch1, hnx1⟩ := ordered_node.mp h1
      obtain ⟨hd2, hch2, hnx2⟩ := ordered_node.mp h2
      have hnil : ∀ t : GNode, ([] : List CStr) ∉ node_paths t := by
        intro t ht
        obtain ⟨a, r, e, _⟩ := node_paths_head ht
        simp at e
      have hnot1 : ∀ r, d1 :: r ∉ node_paths nx1 := by
        intro r hr
        obtain ⟨a, r2, e, ha⟩ := node_paths_head hr
        simp only [List.cons.injEq] at e
        exact strcmp_lt_ne (hd1 a ha) e.1
      have hnot2 : ∀ r, d2 :: r ∉ node_paths nx2 := by
        intro r hr
        obtain ⟨a, r2, e, ha⟩ := node_paths_head hr
        simp only [List.cons.injEq] at e
        exact strcmp_lt_ne (hd2 a ha) e.1
      have hd : d1 = d2 := by
        have a1 := (h [d1]).mp (mem_node_paths_node.mpr (Or.inl rfl))
        have a2 := (h [d2]).mpr (mem_node_paths_node.mpr (Or.inl rfl))
        rcases mem_node_paths_node.mp a1 with e | ⟨r, _, e⟩ | m1
        · simpa using e
        · simp only [List.cons.injEq] at e
          exact e.1
        · rcases mem_node_paths_node.mp a2 with e | ⟨r, _, e⟩ | m2
          · simpa using e.symm
          · simp only [List.cons.injEq] at e
            exact e.1.symm
          · obtain ⟨a, r, e, ha⟩ := node_paths_head m1
            obtain ⟨b, s, f, hb⟩ := node_paths_head m2
            simp only [List.cons.injEq] at e f
            have l1 := hd2 a ha
            have l2 := hd1 b hb
            rw [← e.1] at l1
            rw [← f.1] at l2
            have := strcmp_lt_trans l1 l2
            rw [strcmp_self] at this
            omega
      subst hd
      have hc : ch1 = ch2 := by
        apply ihch ch2 hch1 hch2
        intro q
        constructor
        · intro hq
          have := (h (d1 :: q)).mp (mem_node_paths_node.mpr (Or.inr (Or.inl ⟨q, hq, rfl⟩)))
          rcases mem_node_paths_node.mp this with e | ⟨r, hr, e⟩ | m
          · simp only [List.cons.injEq, true_and] at e
            exact absurd (e ▸ hq) (hnil _)
          · simp only [List.cons.injEq, true_and] at e
            exact e ▸ hr
          · exact absurd m (hnot2 _)
        · intro hq
          have := (h (d1 :: q)).mpr (mem_node_paths_node.mpr (Or.inr (Or.inl ⟨q, hq, rfl⟩)))
          rcases mem_node_paths_node.mp this with e | ⟨r, hr, e⟩ | m
          · simp only [List.cons.injEq, true_and] at e
            exact absurd (e ▸ hq) (hnil _)
          · simp only [List.cons.injEq, true_and] at e
            exact e ▸ hr
          · exact absurd m (hnot1 _)
      have hn : nx1 = nx2 := by
        apply ihnx nx2 hnx1 hnx2
        intro q
        constructor
        · intro hq
          have := (h q).mp (mem_node_paths_node.mpr (Or.inr (Or.inr hq)))
          rcases mem_node_paths_node.mp this with e | ⟨r, hr, e⟩ | m
          · exact absurd (e ▸ hq) (hnot1 _)
          · exact absurd (e ▸ hq) (hnot1 _)
          · exact m
        · intro hq
          have := (h q).mpr (mem_node_paths_node.mpr (Or.inr (Or.inr hq)))
          rcases mem_node_paths_node.mp this with e | ⟨r, hr, e⟩ | m
          · exact absurd (e ▸ hq) (hnot2 _)
          · exact absurd (e ▸ hq) (hnot2 _)
          · exact m
      rw [hc, hn]

theorem populate_tree_of_same_lines (lines1 lines2 : CStr)
    (h : ∀ l, l ∈ segments lines1 LF ↔ l ∈ segments lines2 LF) :
    populate_tree lines1 = populate_tree lines2 := by
  refine ordered_ext _ _ (populate_paths_ordered _) (populate_paths_ordered _) ?_
  intro q
  show q ∈ node_paths (populate_tree lines1) ↔ q ∈ node_paths (populate_tree lines2)
  rw [node_paths_populate_tree, node_paths_populate_tree]
  have hi : ∀ p, p ∈ inserted_paths lines1 ↔ p ∈ inserted_paths lines2 := by
    intro p
    simp only [inserted_paths, List.mem_map]
    constructor
    · rintro ⟨l, hl, rfl⟩
      exact ⟨l, (h l).mp hl, rfl⟩
    · rintro ⟨l, hl, rfl⟩
      exact ⟨l, (h l).mpr hl, rfl⟩
  constructor
  · rintro ⟨hne, p, hp, hpre⟩
    exact ⟨hne, p, (hi p).mp hp, hpre⟩
  · rintro ⟨hne, p, hp, hpre⟩
    exact ⟨hne, p, (hi p).mpr hp, hpre⟩

theorem childless_rows_append (a b : TreeRow) :
    childless_rows (TreeRow.append a b) = childless_rows a + childless_rows b := by
  induction a with
  | null => simp [TreeRow.append, childless_rows]
  | row c0 c1 ch nx _ ih => simp only [TreeRow.append, childless_rows, ih]; omega

theorem rows_with_children_append (a b : TreeRow) :
    rows_with_children (TreeRow.append a b) = rows_with_children a + rows_with_children b := by
  induction a with
  | null => simp [TreeRow.append, rows_with_children]
  | row c0 c1 ch nx _ ih => simp only [TreeRow.append, rows_with_children, ih]; omega

theorem childless_rows_names (rows : TreeRow) :
    childless_rows rows = (row_leaf_names rows).length := by
  induction rows with
  | null => rfl
  | row c0 c1 ch nx ih1 ih2 =>
    simp only [childless_rows, row_leaf_names, List.length_append, ih1, ih2]
    split_ifs <;> simp

theorem traverse_childless (t : GNode) :
    childless_rows (traverse_inner t).1 = (traverse_inner t).2 ∧
      childless_rows (traverse_leaves t).1 = (traverse_leaves t).2 ∧
      rows_with_children (traverse_leaves t).1 = 0 := by
  induction t with
  | null => simp [traverse_inner, traverse_leaves, childless_rows, rows_with_children]
  | node d ch nx ihch ihnx =>
    by_cases hc : ch = GNode.null
    · subst hc
      simp only [traverse_inner, traverse_leaves, if_true, ne_eq, not_true_eq_false, if_false,
        childless_rows, rows_with_children]
      omega
    · have hne := traverse_ne_null hc
      unfold tree_model_build_traverse at hne
      simp only [traverse_inner, traverse_leaves, hc, if_false, ne_eq, not_false_eq_true,
        if_true, childless_rows, rows_with_children, hne, childless_rows_append]
      omega

theorem emitted_length (rows : TreeRow) :
    (emitted rows).length = childless_rows rows + rows_with_children rows := by
  induction rows with
  | null => rfl
  | row c0 c1 ch nx ih1 ih2 =>
    simp only [emitted, childless_rows, rows_with_children, List.length_cons,
      List.length_append, ih1, ih2]
    by_cases h : ch = TreeRow.null
    · subst h
      simp [childless_rows, rows_with_children]
      omega
    · simp only [ne_eq, h, not_false_eq_true, if_true]
      omega

theorem recurse_entries_length (path : CStr) (rows : TreeRow) :
    (recurse_entries none rows path).length = childless_rows rows := by
  have h := congrArg List.length (recurse_names none rows path)
  rw [List.length_map] at h
  rw [h, childless_rows_names]
  congr 1
  apply List.filter_eq_self.mpr
  intro a _
  rfl

theorem next_line_scan_length (text : CStr) :
    ∀ (room : Nat) (written : List Char),
      (next_line_scan text room written).2.length ≤ written.length + room + 1 := by
  induction text with
  | nil => intro room written; simp only [next_line_scan]; omega
  | cons c rest ih =>
    intro room written
    unfold next_line_scan
    split_ifs with h1 h2
    · simp
    · have := ih (room - 1) (written ++ [c])
      simp only [List.length_append, List.length_singleton] at this
      omega
    · have := ih room written
      omega

theorem next_line_bound (lines : Option CStr) (buf_size : Nat) (h1 : 1 ≤ buf_size)
    (h2 : buf_size < 2 ^ 64) (res : CStr × List Char)
    (h : tok_tokenize_next_line lines buf_size = some res) : res.2.length ≤ buf_size := by
  have hroom : (buf_size + (2 ^ 64 - 1)) % 2 ^ 64 = buf_size - 1 := by omega
  unfold tok_tokenize_next_line at h
  split at h
  · exact absurd h (by simp)
  · exact absurd h (by simp)
  · rename_i c cs
    rw [hroom] at h
    simp only [Option.some.injEq] at h
    rw [← h]
    have := next_line_scan_length (c :: cs) (buf_size - 1) []
    simp only [List.length_nil] at this
    omega

theorem next_line_zero_size (line rest : CStr) (hline : LF ∉ line)
    (hlen : line.length < 2 ^ 64) :
    tok_tokenize_next_line (some (line ++ LF :: rest)) 0 =
      some (rest.dropWhile (fun x => x == LF), line ++ [NUL]) := by
  have hs := next_line_scan_terminated line rest hline ((0 + (2 ^ 64 - 1)) % 2 ^ 64) []
  rw [List.take_of_length_le (by omega)] at hs
  cases line with
  | nil => simpa [tok_tokenize_next_line] using hs
  | cons c cs => simpa [tok_tokenize_next_line] using hs

theorem run_ticks_spec (max_time : Int) (n : Nat) :
    ∀ (below : Nat → Nat → Bool) (s : QuickOpenInfo) (lo c : Nat),
      s.filter_iter = some c → c < s.store.length → Scanned s.filter_text s.store lo c →
      ∀ t k, run_ticks max_time n below s = some (t, k) →
        t.filter_text = s.filter_text ∧ t.store.length = s.store.length ∧
          t.filter_idle = 0 ∧ Scanned s.filter_text t.store lo t.store.length := by
  induction n with
  | zero => intro below s lo c _ _ _ t k h; simp [run_ticks] at h
  | succ n ih =>
    intro below s lo c hc hlt hsc t k h
    obtain ⟨t1, again, h1, h2, h3, h4, h5⟩ := cb_spec max_time (below 0) s lo c hc hlt hsc
    unfold run_ticks at h
    rw [h1] at h
    cases again with
    | false =>
      simp only [Option.some.injEq, Prod.mk.injEq] at h
      obtain ⟨rfl, _⟩ := h
      obtain ⟨k1, _, _, k4⟩ := h4 rfl
      exact ⟨h2, h3, k1, h2 ▸ k4⟩
    | true =>
      obtain ⟨_, c2, e1, _, e3, e4, _, _⟩ := h5 rfl
      simp only at h
      split at h
      · exact absurd h (by simp)
      · rename_i u k2 hu
        simp only [Option.some.injEq, Prod.mk.injEq] at h
        obtain ⟨rfl, _⟩ := h
        obtain ⟨r1, r2, r3, r4⟩ := ih (fun k => below (k + 1)) t1 lo c2 e1 e3 e4 u k2 hu
        exact ⟨r1.trans h2, r2.trans h3, r3, h2 ▸ r4⟩

theorem run_ticks_invalid (max_time : Int) (n : Nat) :
    ∀ (below : Nat → Nat → Bool) (s : QuickOpenInfo), s.filter_iter = none →
      run_ticks max_time n below s = none := by
  induction n with
  | zero => intro below s _; rfl
  | succ n ih =>
    intro below s hs
    unfold run_ticks cb_open_quick_filter_idle
    rw [hs]
    by_cases hb : budget_test max_time (below 0 0) = true
    · simp [filter_loop, hb]
    · have hb2 : budget_test max_time (below 0 0) = false := by simpa using hb
      simp only [filter_loop, hb2, Bool.false_eq_true, if_false]
      rw [ih]
      rfl

/-! ## The path buffer and display names -/

theorem recurse_eq_entries (hide : Option GRegex) (path_size : Nat) (rows : TreeRow) :
    ∀ path : CStr,
      recurse_repository_to_list hide path_size rows path =
        if rows_fit path_size rows path.length then some (recurse_entries hide rows path)
        else none := by
  induction rows with
  | null => intro path; simp [recurse_repository_to_list, rows_fit, recurse_entries]
  | row dname fname ch nx ih1 ih2 =>
    intro path
    unfold recurse_repository_to_list rows_fit recurse_entries
    rw [ih1, ih2]
    have hlen : (path ++ fname ++ [G_DIR_SEPARATOR]).length =
        path.length + fname.length + 1 := by simp; omega
    rw [hlen]
    by_cases h1 : path.length + fname.length < path_size
    · by_cases hch : ch = TreeRow.null
      · subst hch
        cases hnx : rows_fit path_size nx path.length <;>
          cases hide with
          | none => simp [h1, hnx, excluded]
          | some re => by_cases hre : re dname = true <;> simp [h1, hnx, excluded, hre]
      · by_cases h2 : path.length + fname.length + 1 < path_size
        · cases hc : rows_fit path_size ch (path.length + fname.length + 1) <;>
            cases hnx : rows_fit path_size nx path.length <;>
              simp [h1, h2, hch, hc, hnx]
        · simp [h1, h2, hch]
    · simp [h1]

theorem rows_fit_append (path_size : Nat) (a b : TreeRow) (n : Nat) :
    rows_fit path_size (TreeRow.append a b) n =
      (rows_fit path_size a n && rows_fit path_size b n) := by
  induction a with
  | null => simp [TreeRow.append, rows_fit]
  | row c0 c1 ch nx _ ih => simp only [TreeRow.append, rows_fit, ih, Bool.and_assoc]

theorem join_path_length_cons (d : CStr) (q : List CStr) (hq : q ≠ []) :
    (join_path (d :: q)).length = d.length + 1 + (join_path q).length := by
  cases q with
  | nil => exact absurd rfl hq
  | cons a q => simp [join_path]; omega

theorem rows_fit_traverse (path_size : Nat) (t : GNode) :
    ∀ n : Nat, rows_fit path_size (tree_model_build_traverse t).1 n = true ↔
      ∀ q ∈ leaf_paths t, n + (join_path q).length < path_size := by
  induction t with
  | null =>
    intro n
    simp [tree_model_build_traverse, traverse_inner, traverse_leaves, TreeRow.append, rows_fit,
      leaf_paths]
  | node d ch nx ihch ihnx =>
    intro n
    have hnx := ihnx n
    simp only [tree_model_build_traverse, rows_fit_append, Bool.and_eq_true] at hnx ⊢
    by_cases hch : ch = GNode.null
    · subst hch
      simp only [traverse_inner, traverse_leaves, if_true, ne_eq, not_true_eq_false, if_false,
        rows_fit, leaf_paths, List.singleton_append, List.mem_cons, forall_eq_or_imp, join_path,
        Bool.and_eq_true, decide_eq_true_eq, Bool.and_true]
      rw [← hnx]
      tauto
    · have hrows := traverse_ne_null hch
      have hih := ihch (n + d.length + 1)
      have e1 : (traverse_inner (GNode.node d ch nx)).1 =
          TreeRow.row (g_filename_display_name d) d (tree_model_build_traverse ch).1
            (traverse_inner nx).1 := by
        simp [traverse_inner, hch, tree_model_build_traverse]
      have e2 : (traverse_leaves (GNode.node d ch nx)).1 = (traverse_leaves nx).1 := by
        simp [traverse_leaves, hch]
      rw [e1, e2, leaf_paths_node_of_ne d nx hch]
      simp only [rows_fit, ne_eq, hrows, not_false_eq_true, if_true, Bool.and_eq_true,
        decide_eq_true_eq, hih, List.mem_append, List.mem_map]
      obtain ⟨q0, hq0⟩ := leaf_paths_nonempty hch
      constructor
      · rintro ⟨⟨⟨_, _, hc⟩, hi⟩, hl⟩ q (⟨r, hr, rfl⟩ | hq)
        · rw [join_path_length_cons d r (leaf_paths_ne_nil hr)]
          have := hc r hr
          omega
        · exact (hnx.mp ⟨hi, hl⟩) q hq
      · intro h
        have hc : ∀ q ∈ leaf_paths ch, n + d.length + 1 + (join_path q).length < path_size := by
          intro q hq
          have := h (d :: q) (Or.inl ⟨q, hq, rfl⟩)
          rw [join_path_length_cons d q (leaf_paths_ne_nil hq)] at this
          omega
        have h0 := hc q0 hq0
        have hn := hnx.mpr (fun q hq => h q (Or.inr hq))
        exact ⟨⟨⟨by omega, by omega, hc⟩, hn.1⟩, hn.2⟩

theorem flat_entries_of_fit (hide : Option GRegex) (root_path : CStr) (t : GNode)
    (hfit : ∀ q ∈ leaf_paths t, root_path.length + 1 + (join_path q).length < 2048) :
    flat_entries hide root_path (tree_model_build_traverse t).1 =
      some (recurse_entries hide (tree_model_build_traverse t).1
        (root_path ++ [G_DIR_SEPARATOR])) := by
  unfold flat_entries
  by_cases hroot : root_path.length + 1 < 2048
  · rw [if_pos hroot, recurse_eq_entries]
    have hlen : (root_path ++ [G_DIR_SEPARATOR]).length = root_path.length + 1 := by simp
    rw [hlen, (rows_fit_traverse 2048 t _).mpr hfit]
    rfl
  · rw [if_neg hroot]
    have ht : t = GNode.null := by
      by_contra hne
      obtain ⟨q, hq⟩ := leaf_paths_nonempty hne
      have := hfit q hq
      omega
    subst ht
    rfl

theorem flat_entries_some {hide : Option GRegex} {root_path : CStr} {t : GNode}
    {entries : List QuickOpenPair}
    (h : flat_entries hide root_path (tree_model_build_traverse t).1 = some entries) :
    (root_path.length + 1 < 2048 ∧
        (∀ q ∈ leaf_paths t, root_path.length + 1 + (join_path q).length < 2048) ∧
        entries = recurse_entries hide (tree_model_build_traverse t).1
          (root_path ++ [G_DIR_SEPARATOR])) ∨
      (¬ root_path.length + 1 < 2048 ∧ entries = []) := by
  unfold flat_entries at h
  by_cases hroot : root_path.length + 1 < 2048
  · rw [if_pos hroot, recurse_eq_entries] at h
    have hlen : (root_path ++ [G_DIR_SEPARATOR]).length = root_path.length + 1 := by simp
    rw [hlen] at h
    cases hf : rows_fit 2048 (tree_model_build_traverse t).1 (root_path.length + 1) with
    | false => simp [hf] at h
    | true =>
      simp only [hf, if_true, Option.some.injEq] at h
      exact Or.inl ⟨hroot, (rows_fit_traverse 2048 t _).mp hf, h.symm⟩
  · rw [if_neg hroot] at h
    simp only [Option.some.injEq] at h
    exact Or.inr ⟨hroot, h.symm⟩

theorem utf8_run_append (a b : CStr) : ∀ st : Utf8State,
    utf8_run st (a ++ b) = (utf8_run st a).bind (fun st2 => utf8_run st2 b) := by
  induction a with
  | nil => intro st; rfl
  | cons c a ih =>
    intro st
    simp only [List.cons_append, utf8_run]
    cases utf8_step st c with
    | none => rfl
    | some st2 => exact ih st2

theorem g_utf8_validate_append {a b : CStr} (ha : g_utf8_validate a = true)
    (hb : g_utf8_validate b = true) : g_utf8_validate (a ++ b) = true := by
  unfold g_utf8_validate at *
  simp only [beq_iff_eq] at *
  rw [utf8_run_append, ha]
  exact hb

theorem display_name_of_valid {s : CStr} (h : g_utf8_validate s = true) :
    g_filename_display_name s = s := by
  simp [g_filename_display_name, h]

theorem g_utf8_validate_joined (root_path : CStr) (q : List CStr)
    (hroot : g_utf8_validate root_path = true) (hq : ∀ x ∈ q, g_utf8_validate x = true) :
    g_utf8_validate (root_path ++ (q.map (fun d => G_DIR_SEPARATOR :: d)).flatten) = true := by
  induction q generalizing root_path with
  | nil => simpa using hroot
  | cons d q ih =>
    have hd := hq d (List.mem_cons_self d q)
    have hsep : g_utf8_validate [G_DIR_SEPARATOR] = true := by decide
    have h1 : g_utf8_validate (root_path ++ G_DIR_SEPARATOR :: d) = true :=
      g_utf8_validate_append hroot
        (g_utf8_validate_append (a := [G_DIR_SEPARATOR]) hsep hd)
    have := ih (root_path ++ G_DIR_SEPARATOR :: d) h1
      (fun x hx => hq x (List.mem_cons_of_mem d hx))
    simpa using this

theorem display_entry_of_valid (root_path : CStr) (q : List CStr) (hne : q ≠ [])
    (hroot : g_utf8_validate root_path = true) (hq : ∀ x ∈ q, g_utf8_validate x = true)
    (hsep : G_DIR_SEPARATOR ∉ q.getLastD []) :
    display_entry root_path q = entry_of root_path q := by
  have hlast : g_utf8_validate (q.getLastD []) = true := hq _ (getLastD_mem q hne)
  have hsplit := dropLast_append_getLastD q hne
  unfold display_entry entry_of
  rw [display_name_of_valid hlast, display_name_of_valid (g_utf8_validate_joined _ _ hroot hq)]
  congr 1
  nth_rewrite 1 [hsplit]
  rw [List.map_append, List.flatten_append, ← List.append_assoc]
  simp only [List.map_cons, List.map_nil, List.flatten_cons, List.flatten_nil, List.append_nil]
  exact cut_at_last_append _ _ _ hsep

/-! ## Tokens of a joined text, long paths and the text of the entry -/

theorem takeWhile_append_of_all {α : Type} (p : α → Bool) (l r : List α)
    (h : ∀ x ∈ l, p x = true) : (l ++ r).takeWhile p = l ++ r.takeWhile p := by
  induction l with
  | nil => rfl
  | cons a l ih =>
    have ha : p a = true := h a (List.mem_cons_self a l)
    simp only [List.cons_append, List.takeWhile_cons, ha, if_true]
    rw [ih (fun x hx => h x (List.mem_cons_of_mem a hx))]

theorem tok_tokenize_next_token (sep : Char) (tk rest : CStr) (htk : tk ≠ [])
    (hsep : sep ∉ tk) :
    tok_tokenize_next (some (tk ++ sep :: rest)) sep = some (tk, some rest) := by
  cases tk with
  | nil => exact absurd rfl htk
  | cons c cs =>
    have hc : c ≠ sep := fun h => hsep (h ▸ List.mem_cons_self _ _)
    have hall : ∀ x ∈ c :: cs, (x != sep) = true := by
      intro x hx
      have : x ≠ sep := fun h => hsep (h ▸ hx)
      simpa using this
    have hanchor : (c :: (cs ++ sep :: rest)).dropWhile (fun x => x == sep) =
        (c :: cs) ++ sep :: rest := by
      simp [List.dropWhile_cons, hc]
    simp only [List.cons_append, tok_tokenize_next]
    rw [hanchor, dropWhile_append_of_all _ _ _ hall, takeWhile_append_of_all _ _ _ hall]
    simp

theorem tok_tokenize_next_last (sep : Char) (tk : CStr) (htk : tk ≠ []) (hsep : sep ∉ tk) :
    tok_tokenize_next (some tk) sep = some (tk, none) := by
  cases tk with
  | nil => exact absurd rfl htk
  | cons c cs =>
    have hc : c ≠ sep := fun h => hsep (h ▸ List.mem_cons_self _ _)
    have hall : ∀ x ∈ c :: cs, (x != sep) = true := by
      intro x hx
      have : x ≠ sep := fun h => hsep (h ▸ hx)
      simpa using this
    have hanchor : (c :: cs).dropWhile (fun x => x == sep) = c :: cs := by
      simp [List.dropWhile_cons, hc]
    have h1 := dropWhile_append_of_all (fun x => x != sep) (c :: cs) [] hall
    have h2 := takeWhile_append_of_all (fun x => x != sep) (c :: cs) [] hall
    simp only [List.append_nil, List.dropWhile_nil, List.takeWhile_nil] at h1 h2
    simp only [tok_tokenize_next]
    rw [hanchor, h1, h2]

theorem segments_cons (sep : Char) (tk rest : CStr) (htk : tk ≠ []) (hsep : sep ∉ tk) :
    segments (tk ++ sep :: rest) sep = tk :: segments rest sep := by
  unfold segments
  rw [tok_iterate, tok_tokenize_next_token sep tk rest htk hsep]
  simp only
  rw [segments_fuel rest sep _ (by simp; omega)]
  rfl

theorem segments_last (sep : Char) (tk : CStr) (htk : tk ≠ []) (hsep : sep ∉ tk) :
    segments tk sep = [tk] := by
  unfold segments
  rw [tok_iterate, tok_tokenize_next_last sep tk htk hsep]
  simp only [tok_iterate_null]

theorem segments_join_path (ts : List CStr) (hne : ts ≠ [])
    (h : ∀ t ∈ ts, t ≠ [] ∧ G_DIR_SEPARATOR ∉ t) :
    segments (join_path ts) G_DIR_SEPARATOR = ts := by
  induction ts with
  | nil => exact absurd rfl hne
  | cons t ts ih =>
    obtain ⟨h1, h2⟩ := h t (List.mem_cons_self t ts)
    cases ts with
    | nil => exact segments_last _ t h1 h2
    | cons d rest =>
      simp only [join_path]
      rw [segments_cons _ t _ h1 h2, ih (by simp) (fun x hx => h x (List.mem_cons_of_mem t hx))]

theorem mem_join_path {c : Char} (ts : List CStr) (h : c ∈ join_path ts) :
    c = G_DIR_SEPARATOR ∨ ∃ t ∈ ts, c ∈ t := by
  induction ts with
  | nil => simp [join_path] at h
  | cons t ts ih =>
    cases ts with
    | nil => exact Or.inr ⟨t, by simp, by simpa [join_path] using h⟩
    | cons d rest =>
      simp only [join_path, List.mem_append, List.mem_cons] at h
      rcases h with h | h | h
      · exact Or.inr ⟨t, by simp, h⟩
      · exact Or.inl h
      · rcases ih h with h1 | ⟨x, hx, hc⟩
        · exact Or.inl h1
        · exact Or.inr ⟨x, List.mem_cons_of_mem _ hx, hc⟩

theorem example_dir_length : example_dir.length = 250 := List.length_replicate 250 'd'

theorem example_dir_chars : ∀ c ∈ example_dir, c = 'd' := fun _ hc => List.eq_of_mem_replicate hc

theorem example_dir_ne_nil : example_dir ≠ [] := by
  intro h
  have := example_dir_length
  rw [h] at this
  exact absurd this (by decide)

theorem example_long_path_names :
    ∀ t ∈ example_long_path, t = example_dir ∨ t = "f".toList := by
  intro t ht
  simp only [example_long_path, List.mem_append, List.mem_replicate, List.mem_singleton] at ht
  rcases ht with ⟨_, h⟩ | h
  · exact Or.inl h
  · exact Or.inr h

theorem example_long_path_chars :
    ∀ t ∈ example_long_path, t ≠ [] ∧ ∀ c ∈ t, c = 'd' ∨ c = 'f' := by
  intro t ht
  rcases example_long_path_names t ht with rfl | rfl
  · refine ⟨example_dir_ne_nil, ?_⟩
    intro c hc
    exact Or.inl (example_dir_chars c hc)
  · refine ⟨by decide, ?_⟩
    intro c hc
    simp at hc
    exact Or.inr hc

theorem example_long_path_length : (join_path example_long_path).length = 2260 := by
  have e : example_long_path =
      example_dir :: (List.replicate 8 example_dir ++ ["f".toList]) := rfl
  rw [e, join_path_cons]
  simp [List.length_flatten, List.map_replicate, List.sum_replicate, example_dir_length]

theorem example_long_listing_segments :
    segments example_long_listing LF = [join_path example_long_path, "g".toList] := by
  have h1 : join_path example_long_path ≠ [] := by
    intro h
    have := example_long_path_length
    rw [h] at this
    simp at this
  have h2 : LF ∉ join_path example_long_path := by
    intro h
    rcases mem_join_path _ h with h | ⟨t, ht, hc⟩
    · exact absurd h (by decide)
    · rcases (example_long_path_chars t ht).2 _ hc with h | h <;> exact absurd h (by decide)
  have e : example_long_listing =
      join_path example_long_path ++ LF :: ("g".toList ++ LF :: []) := by
    simp [example_long_listing]
  rw [e, segments_cons LF _ _ h1 h2, segments_cons LF _ _ (by decide) (by decide)]
  rfl

theorem example_long_listing_inserted :
    inserted_paths example_long_listing = [example_long_path, ["g".toList]] := by
  have hseg : segments (join_path example_long_path) G_DIR_SEPARATOR = example_long_path := by
    apply segments_join_path
    · simp [example_long_path]
    · intro t ht
      obtain ⟨h1, h2⟩ := example_long_path_chars t ht
      refine ⟨h1, ?_⟩
      intro hc
      rcases h2 _ hc with h | h <;> exact absurd h (by decide)
  have hl : line_names (join_path example_long_path) = example_long_path := by
    rw [line_names_of_segments (by rw [hseg]; simp [example_long_path]), hseg]
  have hg : line_names "g".toList = ["g".toList] := by decide
  simp only [inserted_paths, example_long_listing_segments, List.map_cons, List.map_nil, hl, hg]

theorem example_long_listing_leaves (q : List CStr) :
    q ∈ leaf_paths (populate_tree example_long_listing) ↔
      q = example_long_path ∨ q = ["g".toList] := by
  have hlen : example_long_path.length = 10 := by simp [example_long_path]
  rw [leaf_paths_populate_tree_iff, example_long_listing_inserted]
  simp only [List.mem_cons, List.mem_singleton, List.not_mem_nil, or_false, forall_eq_or_imp,
    forall_eq]
  constructor
  · exact fun h => h.1
  · rintro (rfl | rfl)
    · refine ⟨Or.inl rfl, fun _ => rfl, ?_⟩
      intro h
      have := h.length_le
      simp [hlen] at this
    · refine ⟨Or.inr rfl, ?_, fun _ => rfl⟩
      intro h
      exfalso
      have h2 := List.prefix_iff_eq_take.mp h
      have e : example_long_path =
          example_dir :: (List.replicate 8 example_dir ++ ["f".toList]) := rfl
      rw [e] at h2
      simp only [List.length_singleton, List.take_succ_cons, List.take_zero, List.cons.injEq,
        and_true] at h2
      have := congrArg List.length h2
      rw [example_dir_length] at this
      exact absurd this (by decide)

theorem leaf_paths_populate_tree_nodup (lines : CStr) :
    (leaf_paths (populate_tree lines)).Nodup :=
  leaf_paths_nodup _ (populate_paths_ordered _)

theorem example_long_listing_count :
    (tree_model_build_populate example_long_listing).2 = 2 := by
  unfold tree_model_build_populate
  rw [traverse_count]
  have hnd := leaf_paths_populate_tree_nodup example_long_listing
  have hne : example_long_path ≠ ["g".toList] := by
    intro h
    have := congrArg List.length h
    simp [example_long_path] at this
  have hperm : (leaf_paths (populate_tree example_long_listing)).Perm
      [example_long_path, ["g".toList]] := by
    refine (List.perm_ext_iff_of_nodup hnd ?_).mpr ?_
    · exact List.nodup_cons.mpr ⟨by simpa using hne, List.nodup_singleton _⟩
    · intro q
      rw [example_long_listing_leaves]
      simp
  rw [hperm.length_eq]
  rfl

theorem example_long_listing_overruns (hide : Option GRegex) :
    flat_entries hide "/r".toList (tree_model_build_populate example_long_listing).1 = none := by
  cases h : flat_entries hide "/r".toList (tree_model_build_populate example_long_listing).1 with
  | none => rfl
  | some entries =>
    exfalso
    unfold tree_model_build_populate at h
    rcases flat_entries_some h with ⟨_, hfit, _⟩ | ⟨hroot, _⟩
    · have := hfit example_long_path ((example_long_listing_leaves _).mpr (Or.inl rfl))
      rw [example_long_path_length] at this
      simp at this
    · exact hroot (by decide)

theorem tok_tokenize_next_empty {text : Option CStr} {sep : Char} {e : Option CStr}
    (h : tok_tokenize_next text sep = some ([], e)) : e = none := by
  unfold tok_tokenize_next at h
  split at h
  · exact absurd h (by simp)
  · exact absurd h (by simp)
  · rename_i c cs
    dsimp only at h
    have hanchor : (c :: cs).dropWhile (fun x => x == sep) = [] := by
      cases ha : (c :: cs).dropWhile (fun x => x == sep) with
      | nil => rfl
      | cons a rest =>
        exfalso
        have hhead : (a == sep) = false := by
          have := List.head_dropWhile_not (fun x => x == sep) (c :: cs) (by rw [ha]; simp)
          simpa [ha] using this
        rw [ha] at h
        have ha2 : (a != sep) = true := by simpa using hhead
        simp only [List.dropWhile_cons, List.takeWhile_cons, ha2, if_true] at h
        split at h <;> simp at h
    rw [hanchor] at h
    simp only [List.dropWhile_nil, List.takeWhile_nil, Option.some.injEq, Prod.mk.injEq,
      true_and] at h
    exact h.symm

theorem tok_iterate_init_ne_nil (sep : Char) (fuel : Nat) :
    ∀ text : Option CStr, ∀ x ∈ (tok_iterate sep fuel text).dropLast, x ≠ [] := by
  induction fuel with
  | zero => intro text x hx; simp [tok_iterate] at hx
  | succ n ih =>
    intro text x hx
    unfold tok_iterate at hx
    cases hcall : tok_tokenize_next text sep with
    | none => simp [hcall] at hx
    | some r =>
      obtain ⟨tk, e⟩ := r
      simp only [hcall] at hx
      cases hrest : tok_iterate sep n e with
      | nil => simp [hrest] at hx
      | cons a rest =>
        rw [hrest, List.dropLast_cons₂] at hx
        rcases List.mem_cons.mp hx with h | h
        · rw [h]
          intro htk
          rw [htk] at hcall
          have := tok_tokenize_next_empty hcall
          rw [this, tok_iterate_null] at hrest
          exact absurd hrest (by simp)
        · exact ih e x (hrest ▸ h)

theorem segments_init_ne_nil (text : CStr) (sep : Char) :
    ∀ x ∈ (segments text sep).dropLast, x ≠ [] :=
  tok_iterate_init_ne_nil sep _ _

theorem leaf_dirs_ne_nil (lines : CStr) {q : List CStr}
    (hq : q ∈ leaf_paths (populate_tree lines)) : ∀ x ∈ q.dropLast, x ≠ [] := by
  have hi := ((leaf_paths_populate_tree_iff lines q).mp hq).1
  obtain ⟨line, _, rfl⟩ := List.mem_map.mp hi
  unfold line_names
  split
  · intro x hx; simp at hx
  · rename_i d rest heq
    rw [← heq]
    exact segments_init_ne_nil line G_DIR_SEPARATOR

theorem leaf_names_valid (lines : CStr)
    (hvalid : ∀ p ∈ listing_paths lines, ∀ x ∈ p, g_utf8_validate x = true) {q : List CStr}
    (hq : q ∈ leaf_paths (populate_tree lines)) : ∀ x ∈ q, g_utf8_validate x = true := by
  have hi := ((leaf_paths_populate_tree_iff lines q).mp hq).1
  obtain ⟨line, hl, rfl⟩ := List.mem_map.mp hi
  unfold line_names
  split
  · rename_i heq
    intro x hx
    simp only [List.mem_singleton] at hx
    rw [hx, segments_eq_nil heq]
    decide
  · rename_i d rest heq
    rw [← heq]
    exact hvalid _ (List.mem_map.mpr ⟨line, hl, rfl⟩)

theorem leaf_entry_of_valid (lines root_path : CStr)
    (hroot : g_utf8_validate root_path = true)
    (hvalid : ∀ p ∈ listing_paths lines, ∀ x ∈ p, g_utf8_validate x = true) {q : List CStr}
    (hq : q ∈ leaf_paths (populate_tree lines)) :
    display_entry root_path q = entry_of root_path q ∧
      g_filename_display_name (q.getLastD []) = q.getLastD [] := by
  have hne := leaf_paths_ne_nil hq
  have hv := leaf_names_valid lines hvalid hq
  exact ⟨display_entry_of_valid root_path q hne hroot hv
      (leaf_names_sep_free lines hq _ (getLastD_mem q hne)),
    display_name_of_valid (hv _ (getLastD_mem q hne))⟩

theorem typed_reachable {query : CStr} {s : QuickOpenInfo} (h : Typed query s) :
    Reachable s := by
  induction h with
  | start store iter => exact Reachable.start store [] iter
  | changed entry_text query s _ ih => exact Reachable.changed entry_text s ih
  | tick max_time below query s t again _ hidle hcb ih =>
    exact Reachable.tick max_time below s t again ih hidle hcb

theorem typed_filter_text {query : CStr} {s : QuickOpenInfo} (h : Typed query s) :
    s.filter_text = query.take 127 := by
  induction h with
  | start store iter => rfl
  | changed entry_text query s _ _ =>
    unfold evt_open_quick_entry_changed
    cases s.store <;> simp [gtk_tree_model_get_iter_first, g_strlcpy]
  | tick max_time below query s t again hs hidle hcb ih =>
    obtain ⟨c, hc, hlt, hsc⟩ := reachable_scanning (typed_reachable hs) hidle
    obtain ⟨t2, again2, h1, h2, _⟩ := cb_spec max_time below s 0 c hc hlt hsc
    rw [hcb] at h1
    simp only [Option.some.injEq, Prod.mk.injEq] at h1
    rw [h1.1, h2, ih]

theorem flat_entries_count_of_fit (root_path : CStr) (t : GNode)
    (hfit : ∀ q ∈ leaf_paths t, root_path.length + 1 + (join_path q).length < 2048) :
    (flat_entries none root_path (tree_model_build_traverse t).1).map List.length =
      some (tree_model_build_traverse t).2 := by
  rw [flat_entries_of_fit none root_path t hfit, Option.map_some', recurse_entries_length]
  obtain ⟨h1, h2, _⟩ := traverse_childless t
  unfold tree_model_build_traverse
  simp only [childless_rows_append, h1, h2]

/-! ## The properties -/

/-- C1, counterexample. In the listing of the two files named by the byte
0xFE and by the byte 0xFF, which has no structural conflict, both entries
carry the display name U+FFFD and the location `root`: the two entries are
equal, and neither is the pair of a path of the listing. -/
theorem invalid_names_share_an_entry :
    listing_paths example_invalid_listing = [[[Char.ofNat 0xFE]], [[Char.ofNat 0xFF]]] ∧
      [] ∉ listing_paths example_invalid_listing ∧
      NoConflict (listing_paths example_invalid_listing) ∧
      flat_entries none "root".toList (tree_model_build_populate example_invalid_listing).1 =
        some [⟨REPLACEMENT_CHARACTER, "root".toList⟩, ⟨REPLACEMENT_CHARACTER, "root".toList⟩] ∧
      entry_of "root".toList [[Char.ofNat 0xFE]] = ⟨[Char.ofNat 0xFE], "root".toList⟩ ∧
      entry_of "root".toList [[Char.ofNat 0xFF]] = ⟨[Char.ofNat 0xFF], "root".toList⟩ := by
  decide

/-- C1, amended. For a listing in which every line has at least one segment,
no path is a proper initial part of another, and every path joined to the
root path is shorter than the 2048 bytes of the buffer: the walk yields, up
to their order, one entry for each distinct path whose display name is not
excluded, made of the display name of its last segment and of the display
form of the whole path cut at its last separator. When the root path and all
names are valid UTF-8, these are, without repetition, exactly the entries of
the paths of the listing whose last segment is not excluded. -/
theorem flat_index_exact (lines root_path : CStr) (quick_open_hide : Option GRegex)
    (hne : [] ∉ listing_paths lines) (hconf : NoConflict (listing_paths lines))
    (hfit : ∀ p ∈ listing_paths lines,
      root_path.length + 1 + (join_path p).length < 2048) :
    ∃ entries,
      flat_entries quick_open_hide root_path (tree_model_build_populate lines).1 =
        some entries ∧
      entries.Perm (((listing_paths lines).dedup.filter
        (fun p => !excluded quick_open_hide (g_filename_display_name (p.getLastD [])))).map
          (display_entry root_path)) ∧
      (g_utf8_validate root_path = true →
        (∀ p ∈ listing_paths lines, ∀ x ∈ p, g_utf8_validate x = true) →
        entries.Nodup ∧
          ∀ e, e ∈ entries ↔
            ∃ p ∈ listing_paths lines,
              excluded quick_open_hide (p.getLastD []) = false ∧ e = entry_of root_path p) := by
  have hlp := leaf_paths_populate_tree lines hne hconf
  have hnd := leaf_paths_populate_tree_nodup lines
  have hrun := flat_entries_of_fit quick_open_hide root_path (populate_tree lines)
    (fun q hq => hfit q ((hlp q).mp hq))
  have hperm := entries_perm quick_open_hide (populate_tree lines) root_path
  have hleaf : (leaf_paths (populate_tree lines)).Perm (listing_paths lines).dedup :=
    (List.perm_ext_iff_of_nodup hnd (List.nodup_dedup _)).mpr
      (fun q => by rw [hlp, List.mem_dedup])
  refine ⟨_, hrun, hperm.trans ((hleaf.filter _).map _), ?_⟩
  intro hroot hvalid
  have hf : (leaf_paths (populate_tree lines)).filter
        (fun p => !excluded quick_open_hide (g_filename_display_name (p.getLastD []))) =
      (leaf_paths (populate_tree lines)).filter
        (fun p => !excluded quick_open_hide (p.getLastD [])) :=
    List.filter_congr (fun q hq => by
      rw [(leaf_entry_of_valid lines root_path hroot hvalid hq).2])
  have hm : ((leaf_paths (populate_tree lines)).filter
        (fun p => !excluded quick_open_hide (p.getLastD []))).map (display_entry root_path) =
      ((leaf_paths (populate_tree lines)).filter
        (fun p => !excluded quick_open_hide (p.getLastD []))).map (entry_of root_path) :=
    List.map_congr_left (fun q hq =>
      (leaf_entry_of_valid lines root_path hroot hvalid (List.mem_filter.mp hq).1).1)
  rw [hf, hm] at hperm
  have hsep : ∀ q ∈ leaf_paths (populate_tree lines), ∀ x ∈ q, G_DIR_SEPARATOR ∉ x :=
    fun q hq => leaf_names_sep_free lines hq
  constructor
  · refine hperm.nodup_iff.mpr (List.Nodup.map_on ?_ (hnd.filter _))
    intro p hp q hq hpq
    have hp1 := (List.mem_filter.mp hp).1
    have hq1 := (List.mem_filter.mp hq).1
    exact entry_of_inj root_path p q (leaf_paths_ne_nil hp1) (leaf_paths_ne_nil hq1)
      (hsep p hp1) (hsep q hq1) hpq
  · intro e
    rw [hperm.mem_iff, List.mem_map]
    constructor
    · rintro ⟨p, hp, rfl⟩
      obtain ⟨hp1, hp2⟩ := List.mem_filter.mp hp
      exact ⟨p, (hlp p).mp hp1, by simpa using hp2, rfl⟩
    · rintro ⟨p, hp, hex, rfl⟩
      exact ⟨p, List.mem_filter.mpr ⟨(hlp p).mpr hp, by simp only [hex, Bool.not_false]⟩, rfl⟩

/-- Witness for the amended C1 on the listing `a/b.txt`, `a/c.txt`, `d.txt`
under `root`. -/
theorem flat_index_exact_witness :
    [] ∉ listing_paths "a/b.txt\na/c.txt\nd.txt\n".toList ∧
    NoConflict (listing_paths "a/b.txt\na/c.txt\nd.txt\n".toList) ∧
    g_utf8_validate "root".toList = true ∧
    flat_entries none "root".toList
        (tree_model_build_populate "a/b.txt\na/c.txt\nd.txt\n".toList).1 =
      some [⟨"b.txt".toList, "root/a".toList⟩, ⟨"c.txt".toList, "root/a".toList⟩,
        ⟨"d.txt".toList, "root".toList⟩] ∧
    (∀ p ∈ listing_paths "a/b.txt\na/c.txt\nd.txt\n".toList, ∀ x ∈ p,
      g_utf8_validate x = true) ∧
    ∃ entries,
      flat_entries none "root".toList
          (tree_model_build_populate "a/b.txt\na/c.txt\nd.txt\n".toList).1 = some entries ∧
      entries.Perm (((listing_paths "a/b.txt\na/c.txt\nd.txt\n".toList).dedup.filter
        (fun p => !excluded none (g_filename_display_name (p.getLastD [])))).map
          (display_entry "root".toList)) ∧
      (g_utf8_validate "root".toList = true →
        (∀ p ∈ listing_paths "a/b.txt\na/c.txt\nd.txt\n".toList, ∀ x ∈ p,
          g_utf8_validate x = true) →
        entries.Nodup ∧
          ∀ e, e ∈ entries ↔
            ∃ p ∈ listing_paths "a/b.txt\na/c.txt\nd.txt\n".toList,
              excluded none (p.getLastD []) = false ∧ e = entry_of "root".toList p) :=
  ⟨by decide, by decide, by decide, by decide, by decide,
    flat_index_exact "a/b.txt\na/c.txt\nd.txt\n".toList "root".toList none
      (by decide) (by decide) (by decide)⟩

set_option maxRecDepth 100000 in
/-- C2, counterexample. A row named with 127 bytes `a`: the query `b` hides
it; then, with a query of 128 bytes `a` in the entry, the run of the callback
that reaches the end of the store makes it visible, though the query is not
empty and does not occur in the name. -/
theorem long_query_shows_row_without_it :
    cb_open_quick_filter_idle 50 (fun _ => true)
        (evt_open_quick_entry_changed "b".toList example_long_start) =
      some (⟨[⟨List.replicate 127 'a', "root".toList, false⟩], "b".toList, 0, none⟩, false) ∧
    cb_open_quick_filter_idle 50 (fun _ => true)
        (evt_open_quick_entry_changed example_long_query
          ⟨[⟨List.replicate 127 'a', "root".toList, false⟩], "b".toList, 0, none⟩) =
      some (⟨[⟨List.replicate 127 'a', "root".toList, true⟩], List.replicate 127 'a', 0,
        none⟩, false) ∧
    Typed example_long_query
      ⟨[⟨List.replicate 127 'a', "root".toList, true⟩], List.replicate 127 'a', 0, none⟩ ∧
    example_long_query ≠ [] ∧ ¬ example_long_query <:+: List.replicate 127 'a' := by
  have h1 : cb_open_quick_filter_idle 50 (fun _ => true)
        (evt_open_quick_entry_changed "b".toList example_long_start) =
      some (⟨[⟨List.replicate 127 'a', "root".toList, false⟩], "b".toList, 0, none⟩, false) := by
    decide
  have h2 : cb_open_quick_filter_idle 50 (fun _ => true)
        (evt_open_quick_entry_changed example_long_query
          ⟨[⟨List.replicate 127 'a', "root".toList, false⟩], "b".toList, 0, none⟩) =
      some (⟨[⟨List.replicate 127 'a', "root".toList, true⟩], List.replicate 127 'a', 0,
        none⟩, false) := by
    decide
  refine ⟨h1, h2, ?_, by decide, fun h => absurd h.length_le (by decide)⟩
  have t1 : Typed "b".toList (evt_open_quick_entry_changed "b".toList example_long_start) :=
    Typed.changed _ _ _ (Typed.start _ _)
  have t2 := Typed.tick 50 (fun _ => true) _ _ _ false t1 (by decide) h1
  have t3 := Typed.changed example_long_query _ _ t2
  exact Typed.tick 50 (fun _ => true) _ _ _ false t3 (by decide) h2

/-- C2, amended. In any state that query changes and runs of the idle
callback lead to, with `query` the text of the entry: when a run of the
callback reaches the end of the store (it returns FALSE and clears
`filter_idle`), the stored text is the first 127 bytes of the query, and each
row is visible exactly when these bytes are empty or occur in its name; for a
query of at most 127 bytes, exactly when the query is empty or occurs in the
name. -/
theorem filter_done_consistent (query : CStr) (s : QuickOpenInfo) (hs : Typed query s)
    (hidle : s.filter_idle ≠ 0) (max_time : Int) (below : Nat → Bool) (t : QuickOpenInfo)
    (hdone : cb_open_quick_filter_idle max_time below s = some (t, false)) :
    t.filter_idle = 0 ∧ Typed query t ∧ t.filter_text = query.take 127 ∧
      (∀ r ∈ t.store,
        (r.visible = true ↔ (query.take 127 = [] ∨ query.take 127 <:+: r.name))) ∧
      (query.length ≤ 127 →
        ∀ r ∈ t.store, (r.visible = true ↔ (query = [] ∨ query <:+: r.name))) := by
  obtain ⟨c, hc, hlt, hsc⟩ := reachable_scanning (typed_reachable hs) hidle
  obtain ⟨t2, again2, h1, h2, _, h4, _⟩ := cb_spec max_time below s 0 c hc hlt hsc
  rw [hdone] at h1
  simp only [Option.some.injEq, Prod.mk.injEq] at h1
  obtain ⟨rfl, rfl⟩ := h1
  obtain ⟨k1, _, _, k4⟩ := h4 rfl
  have htyped := Typed.tick max_time below query s t false hs hidle hdone
  have htext := typed_filter_text htyped
  have hrows : ∀ r ∈ t.store,
      (r.visible = true ↔ (query.take 127 = [] ∨ query.take 127 <:+: r.name)) := by
    intro r hr
    obtain ⟨j, hj⟩ := List.mem_iff_getElem?.mp hr
    have hf : Filtered t.filter_text r :=
      k4 j r (Nat.zero_le _) (List.getElem?_eq_some.mp hj).1 hj
    unfold Filtered at hf
    rw [hf, strstr_isSome_iff, htext]
    constructor
    · exact fun h => Or.inr h
    · rintro (h | h)
      · rw [h]; exact List.nil_infix
      · exact h
  refine ⟨k1, htyped, htext, hrows, ?_⟩
  intro hlen r hr
  have := hrows r hr
  rwa [List.take_of_length_le hlen] at this

/-- Witness for the amended C2: the index of the example with the query `c`. -/
theorem filter_done_consistent_witness :
    Typed "c".toList example_scanning ∧ example_scanning.filter_idle ≠ 0 ∧
    cb_open_quick_filter_idle 50 (fun _ => true) example_scanning = some (example_done, false) ∧
    example_done.store.map (fun r => (r.name, r.visible)) =
      [("b.txt".toList, false), ("c.txt".toList, true), ("d.txt".toList, false)] ∧
    (∀ r ∈ example_done.store,
      (r.visible = true ↔ ("c".toList = [] ∨ "c".toList <:+: r.name))) :=
  ⟨Typed.changed "c".toList [] _ (Typed.start example_index none), by decide,
    by decide, by decide,
    (filter_done_consistent "c".toList example_scanning
      (Typed.changed "c".toList [] _ (Typed.start example_index none))
      (by decide) 50 (fun _ => true) example_done (by decide)).2.2.2.2 (by decide)⟩

/-- C3, counterexample. In the example, scanning with the iterator on the
first of three rows: a run of the callback with a budget of zero, whatever
the timer reads, and a run with a budget of 50 ms whose first test of the
budget fails, change nothing and ask to be run again; three runs with a
budget of zero do not reach the end. -/
theorem zero_budget_tick_stalls :
    example_scanning.filter_iter = some 0 ∧ example_scanning.filter_idle ≠ 0 ∧
      cb_open_quick_filter_idle 0 (fun _ => true) example_scanning =
        some (example_scanning, true) ∧
      cb_open_quick_filter_idle 50 (fun _ => false) example_scanning =
        some (example_scanning, true) ∧
      run_ticks 0 3 (fun _ _ => true) example_scanning = none := by
  decide

/-- C3, amended. With the iterator on a row: a run of the callback whose
first test of the budget fails (the budget is zero, or the timer does not
read below it) changes nothing and returns TRUE; a run whose first test
succeeds sets the flag of the row at the iterator and either moves the
iterator forward or reaches the end of the store; and when the first test of
every run succeeds, the end is reached after at most as many runs as there
are rows from the iterator on. -/
theorem tick_progress (max_time : Int) (s : QuickOpenInfo) (c : Nat)
    (hc : s.filter_iter = some c) (hlt : c < s.store.length) :
    (∀ below : Nat → Bool, ¬ within_budget max_time (below 0) →
        cb_open_quick_filter_idle max_time below s = some (s, true)) ∧
      (∀ below : Nat → Bool, within_budget max_time (below 0) →
        ∃ t again, cb_open_quick_filter_idle max_time below s = some (t, again) ∧
          (∃ r, t.store[c]? = some r ∧ Filtered s.filter_text r) ∧
          (again = true → ∃ c2, t.filter_iter = some c2 ∧ c < c2 ∧ c2 < t.store.length) ∧
          (again = false → t.filter_iter = none ∧ t.filter_idle = 0)) ∧
      (∀ below : Nat → Nat → Bool, (∀ k, within_budget max_time (below k 0)) →
        ∃ t k, run_ticks max_time (s.store.length - c) below s = some (t, k) ∧
          k ≤ s.store.length - c ∧ t.filter_idle = 0) := by
  refine ⟨?_, ?_, ?_⟩
  · intro below hnb
    obtain ⟨t, again, h1, _, _, h4, h5⟩ :=
      cb_spec max_time below s c c hc hlt (scanned_empty _ _ _)
    cases again with
    | false => exact absurd (h4 rfl).2.2.1 hnb
    | true =>
      obtain ⟨_, c2, _, _, _, _, _, e7⟩ := h5 rfl
      rw [h1, e7 hnb]
  · intro below hb
    obtain ⟨t, again, h1, h2, h3, h4, h5⟩ :=
      cb_spec max_time below s c c hc hlt (scanned_empty _ _ _)
    have hget : t.store[c]? = some t.store[c] := List.getElem?_eq_getElem (by omega)
    refine ⟨t, again, h1, ⟨t.store[c], hget, ?_⟩, ?_, ?_⟩
    · cases again with
      | false =>
        have := (h4 rfl).2.2.2 c _ (le_refl _) (by omega) hget
        rwa [h2] at this
      | true =>
        obtain ⟨_, c2, _, _, _, e4, e5, _⟩ := h5 rfl
        have := e4 c _ (le_refl _) (e5 hb) hget
        rwa [h2] at this
    · intro ha
      obtain ⟨_, c2, e1, _, e3, _, e5, _⟩ := h5 ha
      exact ⟨c2, e1, e5 hb, e3⟩
    · intro ha
      exact ⟨(h4 ha).2.1, (h4 ha).1⟩
  · intro below hb
    obtain ⟨t, k, h1, _, h3, h4, _⟩ :=
      run_ticks_done max_time (s.store.length - c) below s c hc hlt (le_refl _) hb
    exact ⟨t, k, h1, h3, h4⟩

/-- Witness for the amended C3: the example, with a budget of 50 ms. -/
theorem tick_progress_witness :
    example_scanning.filter_iter = some 0 ∧ 0 < example_scanning.store.length ∧
      ∃ t k, run_ticks 50 (example_scanning.store.length - 0) (fun _ _ => true)
          example_scanning = some (t, k) ∧
        k ≤ example_scanning.store.length - 0 ∧ t.filter_idle = 0 :=
  ⟨by decide, by decide,
    (tick_progress 50 example_scanning 0 (by decide) (by decide)).2.2 (fun _ _ => true)
      (fun _ => (by decide : budget_test 50 true = true))⟩

/-- C4. At every level, `tree_model_build_traverse` appends the children
that have children first, in sibling order and each followed at once by its
whole subtree, and then the childless children, in sibling order, whatever
the names are. On the listing `a/b.txt`, `a/c.txt`, `d.txt` the tree is `a`
(with `b.txt`, `c.txt`) and `d.txt`, appended as `a`, `b.txt`, `c.txt`,
`d.txt`; a directory `z` comes before a file `0.txt`. -/
theorem traverse_directories_first (t : GNode) :
    emitted (tree_model_build_traverse t).1 =
        ((siblings t).filter (fun c => decide (c.2 ≠ GNode.null))).flatMap
          (fun c => c.1 :: emitted (tree_model_build_traverse c.2).1) ++
        ((siblings t).filter (fun c => decide (c.2 = GNode.null))).map Prod.fst ∧
      populate_tree "a/b.txt\na/c.txt\nd.txt\n".toList =
        GNode.node "a".toList
          (GNode.node "b.txt".toList GNode.null
            (GNode.node "c.txt".toList GNode.null GNode.null))
          (GNode.node "d.txt".toList GNode.null GNode.null) ∧
      emitted (tree_model_build_populate "a/b.txt\na/c.txt\nd.txt\n".toList).1 =
        ["a".toList, "b.txt".toList, "c.txt".toList, "d.txt".toList] ∧
      emitted (tree_model_build_populate "0.txt\nz/y\n".toList).1 =
        ["z".toList, "y".toList, "0.txt".toList] := by
  refine ⟨?_, by decide, by decide, by decide⟩
  unfold tree_model_build_traverse
  rw [emitted_append, emitted_inner, emitted_leaves]
  rfl

/-- C5. `get_child` keeps the children of every node pairwise distinct and
in strictly ascending `strcmp` order, and so the tree has this property after
any number of lines of a listing, and after any number of segments of the
next line. -/
theorem build_keeps_children_ordered :
    (∀ (children : GNode) (text : CStr),
        Ordered children → Ordered (get_child children text).1) ∧
      (∀ (lines : CStr) (k : Nat), Ordered (populate_paths ((segments lines LF).take k))) ∧
      (∀ (lines line : CStr) (k j : Nat),
        Ordered (populate_dirs ((segments line G_DIR_SEPARATOR).take j)
          (populate_paths ((segments lines LF).take k)))) :=
  ⟨fun children text h => get_child_ordered children text h,
    fun _ _ => populate_paths_ordered _,
    fun _ _ _ _ => populate_dirs_ordered _ _ (populate_paths_ordered _)⟩

/-- Witness for C5: looking up `a` under a root that has the child `b`. -/
theorem build_keeps_children_ordered_witness :
    populate_paths ((segments "b\n".toList LF).take 1) =
        GNode.node "b".toList GNode.null GNode.null ∧
      (get_child (populate_paths ((segments "b\n".toList LF).take 1)) "a".toList).1 =
        GNode.node "a".toList GNode.null (GNode.node "b".toList GNode.null GNode.null) ∧
      Ordered (get_child (populate_paths ((segments "b\n".toList LF).take 1)) "a".toList).1 :=
  ⟨by decide, by decide,
    build_keeps_children_ordered.1 _ "a".toList
      (build_keeps_children_ordered.2.1 "b\n".toList 1)⟩

/-- C6. The file `f` under nine directories with names of 250 bytes is a file
of the tree, and `f` does not match the pattern; joined to the root path `/r`
its path has 2263 bytes, so the walk stores bytes past the end of the buffer
of 2048 bytes and yields no array. On the listing `x/y.tmp`, `f` the walk
yields the entry of `f` alone. -/
theorem overrun_leaves_no_entry :
    example_long_path ∈ leaf_paths (populate_tree example_long_listing) ∧
      example_long_path.getLastD [] = "f".toList ∧
      excluded (some re_dot_tmp) "f".toList = false ∧
      "/r".toList.length + 1 + (join_path example_long_path).length = 2263 ∧
      flat_entries (some re_dot_tmp) "/r".toList
        (tree_model_build_populate example_long_listing).1 = none ∧
      flat_entries (some re_dot_tmp) "/r".toList
        (tree_model_build_populate "x/y.tmp\nf\n".toList).1 =
          some [⟨"f".toList, "/r".toList⟩] :=
  ⟨(example_long_listing_leaves _).mpr (Or.inl rfl), by decide, by decide,
    by rw [example_long_path_length]; rfl,
    example_long_listing_overruns _, by decide⟩

/-- C7, counterexample. On an empty store a change of the entry leaves
`filter_idle` at zero and the iterator invalid; and of a text of 128 bytes
only the first 127 are stored. -/
theorem entry_changed_counterexample :
    (evt_open_quick_entry_changed "c".toList ⟨[], [], 0, none⟩).filter_idle = 0 ∧
      (evt_open_quick_entry_changed "c".toList ⟨[], [], 0, none⟩).filter_iter = none ∧
      (evt_open_quick_entry_changed (List.replicate 128 'a')
          ⟨example_index, [], 0, none⟩).filter_text ≠ List.replicate 128 'a' := by
  refine ⟨by decide, by decide, ?_⟩
  intro h
  have := congrArg List.length h
  simp [evt_open_quick_entry_changed, example_index, gtk_tree_model_get_iter_first,
    g_strlcpy] at this

/-- C7, amended. A change of the entry stores the first 127 bytes of the new
text (the whole text when it is no longer than that) and leaves the rows as
they are; on a store that is not empty it puts the iterator on the first row
and leaves `filter_idle` non-zero; on an empty store it leaves the iterator
invalid and `filter_idle` as it was. A run of the idle callback never moves
the iterator backwards. -/
theorem entry_changed_spec (entry_text : CStr) (qoi : QuickOpenInfo) :
    (evt_open_quick_entry_changed entry_text qoi).filter_text = entry_text.take 127 ∧
      (entry_text.length ≤ 127 →
        (evt_open_quick_entry_changed entry_text qoi).filter_text = entry_text) ∧
      (evt_open_quick_entry_changed entry_text qoi).store = qoi.store ∧
      (qoi.store ≠ [] →
        (evt_open_quick_entry_changed entry_text qoi).filter_iter = some 0 ∧
          (evt_open_quick_entry_changed entry_text qoi).filter_idle ≠ 0) ∧
      (qoi.store = [] →
        (evt_open_quick_entry_changed entry_text qoi).filter_iter = none ∧
          (evt_open_quick_entry_changed entry_text qoi).filter_idle = qoi.filter_idle) ∧
      (∀ (max_time : Int) (below : Nat → Bool) (c : Nat) (t : QuickOpenInfo) (again : Bool),
        qoi.filter_iter = some c →
        cb_open_quick_filter_idle max_time below qoi = some (t, again) →
        t.filter_iter = none ∨ ∃ c2, t.filter_iter = some c2 ∧ c ≤ c2) := by
  have htext : (evt_open_quick_entry_changed entry_text qoi).filter_text =
      entry_text.take 127 := by
    unfold evt_open_quick_entry_changed
    cases qoi.store <;> simp [gtk_tree_model_get_iter_first, g_strlcpy]
  refine ⟨htext, ?_, ?_, ?_, ?_, ?_⟩
  · intro hlen
    rw [htext]
    exact List.take_of_length_le hlen
  · unfold evt_open_quick_entry_changed
    cases qoi.store <;> simp [gtk_tree_model_get_iter_first]
  · intro hne
    unfold evt_open_quick_entry_changed
    cases hst : qoi.store with
    | nil => exact absurd hst hne
    | cons r rs =>
      simp only [gtk_tree_model_get_iter_first, true_and]
      split_ifs with h0
      · simp [g_idle_add]
      · exact h0
  · intro hst
    unfold evt_open_quick_entry_changed
    simp [hst, gtk_tree_model_get_iter_first]
  · intro max_time below c t again hc hcb
    unfold cb_open_quick_filter_idle at hcb
    rw [hc] at hcb
    split at hcb
    · exact absurd hcb (by simp)
    · rename_i store2 iter2 heq
      have := filter_loop_forward _ _ _ _ _ _ _ _ heq
      simp only [Option.some.injEq, Prod.mk.injEq] at hcb
      rw [← hcb.1]
      exact this
    · rename_i store2 iter2 heq
      have := filter_loop_forward _ _ _ _ _ _ _ _ heq
      simp only [Option.some.injEq, Prod.mk.injEq] at hcb
      rw [← hcb.1]
      exact this

/-- Witness for the amended C7: the query `c` typed over the example. -/
theorem entry_changed_spec_witness :
    example_index ≠ [] ∧
      (evt_open_quick_entry_changed "c".toList ⟨example_index, [], 0, none⟩).filter_text =
        "c".toList ∧
      (evt_open_quick_entry_changed "c".toList ⟨example_index, [], 0, none⟩).filter_iter =
        some 0 ∧
      (evt_open_quick_entry_changed "c".toList ⟨example_index, [], 0, none⟩).filter_idle ≠ 0 :=
  ⟨by decide,
    (entry_changed_spec "c".toList ⟨example_index, [], 0, none⟩).2.1 (by decide),
    (entry_changed_spec "c".toList ⟨example_index, [], 0, none⟩).2.2.2.1 (by decide)⟩

/-- C8. An empty line is not ignored: for the listing `a`, LF, LF the second
token is the empty string, and the build adds a childless node with the
empty name under the root, so two files are counted where the listing `a`, LF
gives one; a listing of one line-feed gives one file, the empty listing
none. -/
theorem empty_line_adds_a_node :
    segments "a\n\n".toList LF = ["a".toList, []] ∧
      populate_tree "a\n\n".toList =
        GNode.node [] GNode.null (GNode.node "a".toList GNode.null GNode.null) ∧
      (tree_model_build_populate "a\n\n".toList).2 = 2 ∧
      populate_tree "a\n".toList = GNode.node "a".toList GNode.null GNode.null ∧
      (tree_model_build_populate "a\n".toList).2 = 1 ∧
      (tree_model_build_populate "\n".toList).2 = 1 ∧
      (tree_model_build_populate []).2 = 0 := by
  decide

/-- C9. A text that ends in two separators, or consists of separators only,
yields an empty last segment: `a//` gives `a` and the empty string, `/` gives
the empty string, while `a/` gives `a` alone and `/a//b/` gives `a`, `b`. -/
theorem trailing_separators_give_empty_segment :
    segments "a//".toList G_DIR_SEPARATOR = ["a".toList, []] ∧
      segments "/".toList G_DIR_SEPARATOR = [[]] ∧
      tok_tokenize_next (some "/".toList) G_DIR_SEPARATOR = some ([], none) ∧
      segments "a/".toList G_DIR_SEPARATOR = ["a".toList] ∧
      segments "/a//b/".toList G_DIR_SEPARATOR = ["a".toList, "b".toList] := by
  decide

/-- C10. A text that starts with a line-feed yields an empty first line:
the text LF, `a`, LF read through a buffer of 16 bytes gives the empty line
and `a`, while `a`, LF, LF, `b`, LF gives `a`, `b`. A last line without a
line-feed is left without a terminating NUL: `abc`, LF, `d` reads as `abc`,
`dbc`. -/
theorem leading_line_feed_gives_empty_line :
    buffered_lines "\na\n".toList 16 = [[], "a".toList] ∧
      tok_tokenize_next_line (some "\na\n".toList) 16 = some ("a\n".toList, [NUL]) ∧
      buffered_lines "a\n\nb\n".toList 16 = ["a".toList, "b".toList] ∧
      buffered_lines "abc\nd".toList 16 = ["abc".toList, "dbc".toList] := by
  decide

/-- C11. A last line without a line-feed is copied but not terminated: the
call on `d` stores the byte `d` and no NUL, so a buffer that held `xyz` reads
`dyz`; with a line-feed the NUL is stored, and a line longer than the buffer
is cut and skipped. -/
theorem last_line_left_unterminated :
    tok_tokenize_next_line (some "d".toList) 16 = some ([], ['d']) ∧
      c_string (store_bytes ("xyz".toList ++ List.replicate 13 NUL) ['d']) = "dyz".toList ∧
      tok_tokenize_next_line (some "d\n".toList) 16 = some ([], ['d', NUL]) ∧
      tok_tokenize_next_line (some "abcdef\nx\n".toList) 4 =
        some ("x\n".toList, ['a', 'b', 'c', NUL]) := by
  decide

/-- C12. Under a consistent collation, `repository_to_list` puts rows into
the list store exactly when the flattener yields an array, and then the rows
are a permutation of that array, every two consecutive rows are in the order
of `cb_array_sort` (first the locations, then the names), and all are
visible; the array is the flattener's output for the rows of the repository
found, and there is one whenever every file of that repository, joined to the
root path, is shorter than the buffer. -/
theorem quick_open_rows_sorted (collate : CStr → CStr → Int) (hc : Collation collate)
    (quick_open_hide : Option GRegex) (root_path : CStr) (model : TreeModel) :
    (repository_to_list collate quick_open_hide root_path model = none ↔
      repository_array quick_open_hide root_path model = none) ∧
    (∀ array, repository_array quick_open_hide root_path model = some array →
      (∃ rows, repository_to_list collate quick_open_hide root_path model = some rows ∧
        (rows.map (fun r => (⟨r.name, r.path⟩ : QuickOpenPair))).Perm array ∧
        List.Chain' (fun r s => cb_array_sort collate ⟨r.name, r.path⟩ ⟨s.name, s.path⟩ ≤ 0)
          rows ∧
        ∀ r ∈ rows, r.visible = true) ∧
      (∀ repo, find_repository_row root_path model = some (some repo) →
        flat_entries quick_open_hide root_path repo.children = some array)) ∧
    (∀ a b, cb_array_sort collate a b =
      if collate a.path b.path ≠ 0 then collate a.path b.path
      else collate a.name b.name) ∧
    (∀ repo t, find_repository_row root_path model = some (some repo) →
      repo.children = (tree_model_build_traverse t).1 →
      (∀ q ∈ leaf_paths t, root_path.length + 1 + (join_path q).length < 2048) →
      ∃ array, repository_array quick_open_hide root_path model = some array) := by
  refine ⟨?_, ?_, ?_, ?_⟩
  · unfold repository_to_list
    cases repository_array quick_open_hide root_path model <;> simp
  · intro array h
    refine ⟨⟨(g_array_sort (cb_array_sort collate) array).map
      (fun pair => ⟨pair.name, pair.path, true⟩),
      by simp only [repository_to_list, h, Option.map_some'], ?_, ?_, ?_⟩, ?_⟩
    · rw [List.map_map]
      have : ((fun r => (⟨r.name, r.path⟩ : QuickOpenPair)) ∘
          fun pair : QuickOpenPair => (⟨pair.name, pair.path, true⟩ : StoreRow)) = id := by
        funext p; rfl
      rw [this, List.map_id]
      exact g_array_sort_perm _ _
    · have hs := g_array_sort_sorted hc array
      have hp : (List.map (fun pair : QuickOpenPair => (⟨pair.name, pair.path, true⟩ : StoreRow))
          (g_array_sort (cb_array_sort collate) array)).Pairwise
          (fun r s => cb_array_sort collate ⟨r.name, r.path⟩ ⟨s.name, s.path⟩ ≤ 0) :=
        List.pairwise_map.mpr hs
      exact hp.chain'
    · intro r hr
      obtain ⟨p, _, rfl⟩ := List.mem_map.mp hr
      rfl
    · intro repo hrepo
      unfold repository_array at h
      rw [hrepo] at h
      exact h
  · intro a b
    unfold cb_array_sort
    by_cases h0 : collate a.path b.path = 0
    · simp [h0]
    · simp [h0]
  · intro repo t hrepo hch hfit
    unfold repository_array
    rw [hrepo]
    simp only [hch]
    exact ⟨_, flat_entries_of_fit quick_open_hide root_path t hfit⟩

/-- Witness for C12: the example under the byte-wise collation. -/
theorem quick_open_rows_sorted_witness :
    Collation strcmp ∧
    repository_array none "root".toList example_sort_model = some example_array ∧
    repository_to_list strcmp none "root".toList example_sort_model =
      some [⟨"d.txt".toList, "root".toList, true⟩, ⟨"z.txt".toList, "root".toList, true⟩,
        ⟨"b.txt".toList, "root/a".toList, true⟩] ∧
    ∃ rows, repository_to_list strcmp none "root".toList example_sort_model = some rows ∧
      (rows.map (fun r => (⟨r.name, r.path⟩ : QuickOpenPair))).Perm example_array ∧
      List.Chain' (fun r s => cb_array_sort strcmp ⟨r.name, r.path⟩ ⟨s.name, s.path⟩ ≤ 0)
        rows ∧
      ∀ r ∈ rows, r.visible = true :=
  ⟨strcmp_collation, by decide, by decide,
    ((quick_open_rows_sorted strcmp strcmp_collation none "root".toList
      example_sort_model).2.1 example_array (by decide)).1⟩

/-- C13. Sorting again an array that `g_array_sort` has sorted with
`cb_array_sort` returns it entry for entry; and the same holds of any sort
that returns a sorted permutation of its input, when the collation tells
any two different strings apart. -/
theorem sort_idempotent (collate : CStr → CStr → Int) (hc : Collation collate)
    (array : List QuickOpenPair) :
    g_array_sort (cb_array_sort collate) (g_array_sort (cb_array_sort collate) array) =
        g_array_sort (cb_array_sort collate) array ∧
      ∀ sort : List QuickOpenPair → List QuickOpenPair,
        (∀ l, (sort l).Perm l ∧
          (sort l).Pairwise (fun a b => cb_array_sort collate a b ≤ 0)) →
        (∀ a b, collate a b = 0 → a = b) →
        sort (sort array) = sort array := by
  constructor
  · exact List.Sorted.insertionSort_eq (g_array_sort_sorted hc array)
  · intro sort hsort hanti
    haveI : IsAntisymm QuickOpenPair (fun a b => cb_array_sort collate a b ≤ 0) := by
      constructor
      intro a b h1 h2
      rw [cb_array_sort_le] at h1 h2
      have p1 := hc.1 a.path b.path
      have n1 := hc.1 a.name b.name
      have e1 : collate a.path b.path = 0 := by
        rcases h1 with h1 | ⟨h1, _⟩
        · rcases h2 with h2 | ⟨h2, _⟩ <;> omega
        · exact h1
      have e2 : collate a.name b.name = 0 := by
        rcases h1 with h1 | ⟨_, h1⟩
        · omega
        · rcases h2 with h2 | ⟨_, h2⟩
          · have := hc.1 b.path a.path
            omega
          · omega
      cases a; cases b
      simp only [QuickOpenPair.mk.injEq]
      exact ⟨hanti _ _ e2, hanti _ _ e1⟩
    exact List.eq_of_perm_of_sorted (hsort (sort array)).1 (hsort (sort array)).2
      (hsort array).2

/-- Witness for C13: the example under the byte-wise collation. -/
theorem sort_idempotent_witness :
    Collation strcmp ∧
    g_array_sort (cb_array_sort strcmp) example_array =
      [⟨"d.txt".toList, "root".toList⟩, ⟨"z.txt".toList, "root".toList⟩,
        ⟨"b.txt".toList, "root/a".toList⟩] ∧
    g_array_sort (cb_array_sort strcmp) (g_array_sort (cb_array_sort strcmp) example_array) =
      g_array_sort (cb_array_sort strcmp) example_array :=
  ⟨strcmp_collation, by decide, (sort_idempotent strcmp strcmp_collation example_array).1⟩

/-- C14, counterexample. Under the root path `/r/root/` the file `f` gets the
location `/r/root/`, which ends in a separator, and the file name opened is
`/r/root//f`; under the root path `/` the location is `/`. And for the file
`f` in the directory named by the byte 0xFF the location is `root/` followed
by U+FFFD, not the root path joined with the name of the directory. -/
theorem location_keeps_root_separator :
    flat_entries none "/r/root/".toList (tree_model_build_populate "f\n".toList).1 =
        some [⟨"f".toList, "/r/root/".toList⟩] ∧
      quick_open_filename "f".toList "/r/root/".toList = "/r/root//f".toList ∧
      flat_entries none "/".toList (tree_model_build_populate "f\n".toList).1 =
        some [⟨"f".toList, "/".toList⟩] ∧
      leaf_paths (populate_tree example_invalid_dir_listing) =
        [[[Char.ofNat 0xFF], "f".toList]] ∧
      flat_entries none "root".toList
          (tree_model_build_populate example_invalid_dir_listing).1 =
        some [⟨"f".toList, "root/".toList ++ REPLACEMENT_CHARACTER⟩] ∧
      join_path ["root".toList, [Char.ofNat 0xFF]] = "root/".toList ++ [Char.ofNat 0xFF] := by
  decide

/-- C14, amended. When the root path and all names are valid UTF-8 and every
file of the tree, joined to the root path, is shorter than the 2048 bytes of
the buffer: every entry that the walk yields belongs to a file of the tree,
reached through directories `dirs` and named `n`; its name is `n`, its
location is the root path followed by a separator and a directory name for
each directory, and the file name that `repository_open_quick` builds from it
is the root path, a separator, and the path of the file relative to the root.
The location ends in a separator only when there is no directory and the
root path ends in one. -/
theorem flat_entry_location (lines root_path : CStr) (quick_open_hide : Option GRegex)
    (hfit : ∀ q ∈ leaf_paths (populate_tree lines),
      root_path.length + 1 + (join_path q).length < 2048)
    (hroot : g_utf8_validate root_path = true)
    (hvalid : ∀ p ∈ listing_paths lines, ∀ x ∈ p, g_utf8_validate x = true) :
    ∃ entries,
      flat_entries quick_open_hide root_path (tree_model_build_populate lines).1 =
        some entries ∧
      ∀ e ∈ entries,
        ∃ dirs n, dirs ++ [n] ∈ leaf_paths (populate_tree lines) ∧
          e.name = n ∧
          e.path = root_path ++ (dirs.map (fun d => G_DIR_SEPARATOR :: d)).flatten ∧
          e.path = join_path (root_path :: dirs) ∧
          quick_open_filename e.name e.path =
            root_path ++ G_DIR_SEPARATOR :: join_path (dirs ++ [n]) ∧
          (e.path.getLast? = some G_DIR_SEPARATOR →
            dirs = [] ∧ root_path.getLast? = some G_DIR_SEPARATOR) := by
  have hrun := flat_entries_of_fit quick_open_hide root_path (populate_tree lines) hfit
  have hperm := entries_perm quick_open_hide (populate_tree lines) root_path
  refine ⟨_, hrun, ?_⟩
  intro e he
  rw [hperm.mem_iff, List.mem_map] at he
  obtain ⟨p, hp, rfl⟩ := he
  have hp1 := (List.mem_filter.mp hp).1
  have hne := leaf_paths_ne_nil hp1
  have hsplit := dropLast_append_getLastD p hne
  rw [(leaf_entry_of_valid lines root_path hroot hvalid hp1).1]
  refine ⟨p.dropLast, p.getLastD [], hsplit ▸ hp1, rfl, rfl, (join_path_cons _ _).symm, ?_, ?_⟩
  · have h2 : join_path (root_path :: (p.dropLast ++ [p.getLastD []])) =
        root_path ++ G_DIR_SEPARATOR :: join_path (p.dropLast ++ [p.getLastD []]) := by
      cases hd : p.dropLast ++ [p.getLastD []] with
      | nil => simp at hd
      | cons a l => rfl
    rw [← h2, join_path_cons]
    simp [quick_open_filename, entry_of]
  · intro hlast
    have hdirs : p.dropLast = [] := by
      by_contra hd
      have hsplit2 := dropLast_append_getLastD p.dropLast hd
      have hmem : p.dropLast.getLastD [] ∈ p.dropLast := getLastD_mem _ hd
      have hnn := leaf_dirs_ne_nil lines hp1 _ hmem
      have hsf := leaf_names_sep_free lines hp1 _ (List.mem_of_mem_dropLast hmem)
      have hend : (entry_of root_path p).path =
          (root_path ++ ((p.dropLast.dropLast.map (fun d => G_DIR_SEPARATOR :: d)).flatten ++
            [G_DIR_SEPARATOR])) ++ p.dropLast.getLastD [] := by
        simp only [entry_of]
        nth_rewrite 1 [hsplit2]
        simp
      rw [hend, List.getLast?_append_of_ne_nil _ hnn] at hlast
      have := List.mem_of_getLast?_eq_some hlast
      exact hsf this
    refine ⟨hdirs, ?_⟩
    simpa [entry_of, hdirs] using hlast

/-- Witness for the amended C14: the listing `a/b.txt`, `d.txt` under `root`. -/
theorem flat_entry_location_witness :
    g_utf8_validate "root".toList = true ∧
      (∀ p ∈ listing_paths "a/b.txt\nd.txt\n".toList, ∀ x ∈ p, g_utf8_validate x = true) ∧
      flat_entries none "root".toList (tree_model_build_populate "a/b.txt\nd.txt\n".toList).1 =
        some [⟨"b.txt".toList, "root/a".toList⟩, ⟨"d.txt".toList, "root".toList⟩] ∧
      quick_open_filename "b.txt".toList "root/a".toList = "root/a/b.txt".toList ∧
      ∃ entries,
        flat_entries none "root".toList
            (tree_model_build_populate "a/b.txt\nd.txt\n".toList).1 = some entries ∧
        ∀ e ∈ entries,
          ∃ dirs n, dirs ++ [n] ∈ leaf_paths (populate_tree "a/b.txt\nd.txt\n".toList) ∧
            e.name = n ∧
            e.path = "root".toList ++ (dirs.map (fun d => G_DIR_SEPARATOR :: d)).flatten ∧
            e.path = join_path ("root".toList :: dirs) ∧
            quick_open_filename e.name e.path =
              "root".toList ++ G_DIR_SEPARATOR :: join_path (dirs ++ [n]) ∧
            (e.path.getLast? = some G_DIR_SEPARATOR →
              dirs = [] ∧ "root".toList.getLast? = some G_DIR_SEPARATOR) :=
  ⟨by decide, by decide, by decide, by decide,
    flat_entry_location "a/b.txt\nd.txt\n".toList "root".toList none (by decide) (by decide)
      (by decide)⟩

/-- C15, counterexample. In the model of the repository `/r/root` with the
listing `a/b` and an empty line, the row with the empty name gives `/r/root`,
without a separator after the root path; and for the row `a`, which has a
child, `tree_model_get_document_path` returns FALSE and stores no path. -/
theorem empty_component_gets_no_separator :
    model_lookup example_path_model [0, 0, 1] =
        some ([none, some "/r/root".toList, some []], false) ∧
      tree_model_open_document example_path_model [0, 0, 1] =
        (true, some "/r/root".toList) ∧
      tree_model_get_document_path example_path_model [0, 0, 1] 1024 =
        some (true, some "/r/root".toList) ∧
      join_path ["/r/root".toList, []] = "/r/root/".toList ∧
      model_lookup example_path_model [0, 0, 0] =
        some ([none, some "/r/root".toList, some "a".toList], true) ∧
      tree_model_get_document_path example_path_model [0, 0, 0] 1024 = some (false, none) := by
  decide

/-- C15, amended. For a row whose column-1 values that are not NULL, from
the top-level row down, are `init` followed by `last`, with `last` not empty
unless it is the only one: `tree_model_open_document` opens these
components joined with one separator between consecutive ones;
`tree_model_get_document_path` stores the same path and returns TRUE when
the row has no child and the path is shorter than the buffer, and returns
FALSE when the row has a child. -/
theorem document_path_joined (model : TreeModel) (path : List Nat)
    (components : List (Option CStr)) (has_child : Bool)
    (hlookup : model_lookup model path = some (components, has_child))
    (init : List CStr) (last : CStr) (hcs : components.filterMap id = init ++ [last])
    (hlast : last ≠ [] ∨ init = []) :
    tree_model_open_document model path = (true, some (join_path (init ++ [last]))) ∧
      (has_child = false → ∀ buf_max, (join_path (init ++ [last])).length < buf_max →
        tree_model_get_document_path model path buf_max =
          some (true, some (join_path (init ++ [last])))) ∧
      (has_child = true → ∀ buf_max,
        tree_model_get_document_path model path buf_max = some (false, none)) := by
  have hw := walk_to_root_joined components init last hcs hlast
  refine ⟨?_, ?_, ?_⟩
  · simp only [tree_model_open_document, hlookup, hw]
  · intro hc buf_max hlen
    have h0 : buf_max ≠ 0 := by omega
    simp only [tree_model_get_document_path, hlookup, hc, hw, Bool.false_eq_true, if_false,
      hlen, decide_True, g_strlcpy, h0]
    rw [List.take_of_length_le (by omega)]
  · intro hc buf_max
    simp only [tree_model_get_document_path, hlookup, hc, if_true]

/-- Witness for the amended C15: the file `a/b` of the example. -/
theorem document_path_joined_witness :
    model_lookup example_path_model [0, 0, 0, 0] =
        some ([none, some "/r/root".toList, some "a".toList, some "b".toList], false) ∧
      tree_model_open_document example_path_model [0, 0, 0, 0] =
        (true, some "/r/root/a/b".toList) ∧
      tree_model_open_document example_path_model [0, 0, 0, 0] =
        (true, some (join_path (["/r/root".toList, "a".toList] ++ ["b".toList]))) :=
  ⟨by decide, by decide,
    (document_path_joined example_path_model [0, 0, 0, 0]
      [none, some "/r/root".toList, some "a".toList, some "b".toList] false (by decide)
      ["/r/root".toList, "a".toList] "b".toList (by decide) (Or.inl (by decide))).1⟩

/-- C16. When a path of the listing is a proper initial part of another
one, whichever comes first: the children of every node stay distinct, the
shorter path is a node of the tree with a child and not a file, and the count
returned is the number of files. Every entry of an array that the walk
yields is made for a file of the tree, none for the shorter path; the array
holds one entry for each file that is not excluded; and when the root path
and all names are valid UTF-8 no entry equals the one that the shorter path
would have as a file. The files of the tree are the looked-up paths that are
not a proper initial part of another one, which depends on the set of paths
alone. -/
theorem file_and_directory_conflict (lines : CStr) (p q : List CStr)
    (hp : p ∈ listing_paths lines) (hq : q ∈ listing_paths lines) (hne : p ≠ [])
    (hpq : p <+: q) (hneq : p ≠ q) :
    Ordered (populate_tree lines) ∧
      p ∈ node_paths (populate_tree lines) ∧
      (∃ x, p ++ [x] ∈ node_paths (populate_tree lines)) ∧
      p ∉ leaf_paths (populate_tree lines) ∧
      (tree_model_build_populate lines).2 = (leaf_paths (populate_tree lines)).length ∧
      (∀ (quick_open_hide : Option GRegex) (root_path : CStr) (entries : List QuickOpenPair),
        flat_entries quick_open_hide root_path (tree_model_build_populate lines).1 =
          some entries →
        (∀ e ∈ entries, ∃ r ∈ leaf_paths (populate_tree lines),
          r ≠ p ∧ e = display_entry root_path r) ∧
        (root_path.length + 1 < 2048 →
          entries.Perm (((leaf_paths (populate_tree lines)).filter
            (fun r => !excluded quick_open_hide (g_filename_display_name (r.getLastD [])))).map
              (display_entry root_path))) ∧
        (g_utf8_validate root_path = true →
          (∀ p2 ∈ listing_paths lines, ∀ x ∈ p2, g_utf8_validate x = true) →
          entry_of root_path p ∉ entries)) ∧
      (∀ r, r ∈ leaf_paths (populate_tree lines) ↔
        r ∈ inserted_paths lines ∧ ∀ p2 ∈ inserted_paths lines, r <+: p2 → r = p2) ∧
      (∀ lines2, (∀ r, r ∈ inserted_paths lines ↔ r ∈ inserted_paths lines2) →
        ∀ r, r ∈ leaf_paths (populate_tree lines) ↔ r ∈ leaf_paths (populate_tree lines2)) := by
  have hqne : q ≠ [] := by
    rintro rfl
    exact hne (List.prefix_nil.mp hpq)
  have hpi := listing_path_inserted hp hne
  have hqi := listing_path_inserted hq hqne
  have hleaf : p ∉ leaf_paths (populate_tree lines) := by
    intro h
    exact hneq (((leaf_paths_populate_tree_iff lines p).mp h).2 q hqi hpq)
  obtain ⟨x, hx⟩ := prefix_extend hpq hneq
  refine ⟨populate_paths_ordered _, ?_, ?_, hleaf, traverse_count _, ?_,
    leaf_paths_populate_tree_iff lines, ?_⟩
  · exact (node_paths_populate_tree lines p).mpr ⟨hne, p, hpi, List.prefix_refl p⟩
  · exact ⟨x, (node_paths_populate_tree lines _).mpr ⟨by simp, q, hqi, hx⟩⟩
  · intro hide root_path entries hrun
    have hperm := entries_perm hide (populate_tree lines) root_path
    have hfrom : ∀ e ∈ entries, ∃ r ∈ leaf_paths (populate_tree lines),
        r ≠ p ∧ e = display_entry root_path r := by
      intro e he
      rcases flat_entries_some hrun with ⟨_, _, rfl⟩ | ⟨_, rfl⟩
      · rw [hperm.mem_iff, List.mem_map] at he
        obtain ⟨r, hr, rfl⟩ := he
        have hr1 := (List.mem_filter.mp hr).1
        exact ⟨r, hr1, fun h => hleaf (h ▸ hr1), rfl⟩
      · simp at he
    refine ⟨hfrom, ?_, ?_⟩
    · intro hroot
      rcases flat_entries_some hrun with ⟨_, _, rfl⟩ | ⟨h, _⟩
      · exact hperm
      · exact absurd hroot h
    · intro hroot hvalid hmem
      obtain ⟨r, hr, hrp, heq⟩ := hfrom _ hmem
      rw [(leaf_entry_of_valid lines root_path hroot hvalid hr).1] at heq
      have hps : ∀ x ∈ p, G_DIR_SEPARATOR ∉ x := by
        obtain ⟨line, _, rfl⟩ := List.mem_map.mp hp
        exact segments_sep_free line G_DIR_SEPARATOR
      exact hrp (entry_of_inj root_path r p (leaf_paths_ne_nil hr) hne
        (leaf_names_sep_free lines hr) hps heq.symm)
  · intro lines2 hsame r
    rw [leaf_paths_populate_tree_iff, leaf_paths_populate_tree_iff]
    constructor
    · rintro ⟨h1, h2⟩
      exact ⟨(hsame r).mp h1, fun p2 hp2 h => h2 p2 ((hsame p2).mpr hp2) h⟩
    · rintro ⟨h1, h2⟩
      exact ⟨(hsame r).mpr h1, fun p2 hp2 h => h2 p2 ((hsame p2).mp hp2) h⟩

/-- Witness for C16: the listings `a`, `a/b` and `a/b`, `a` give the same
tree, `a` with the child `b`, one file, and the one entry `b` in `root/a`. -/
theorem file_and_directory_conflict_witness :
    populate_tree "a\na/b\n".toList =
        GNode.node "a".toList (GNode.node "b".toList GNode.null GNode.null) GNode.null ∧
      populate_tree "a/b\na\n".toList = populate_tree "a\na/b\n".toList ∧
      (tree_model_build_populate "a\na/b\n".toList).2 = 1 ∧
      flat_entries none "root".toList (tree_model_build_populate "a\na/b\n".toList).1 =
        some [⟨"b".toList, "root/a".toList⟩] ∧
      ["a".toList] ∉ leaf_paths (populate_tree "a\na/b\n".toList) ∧
      entry_of "root".toList ["a".toList] ∉
        [(⟨"b".toList, "root/a".toList⟩ : QuickOpenPair)] :=
  ⟨by decide, by decide, by decide, by decide,
    (file_and_directory_conflict "a\na/b\n".toList ["a".toList] ["a".toList, "b".toList]
      (by decide) (by decide) (by decide) ⟨["b".toList], rfl⟩ (by decide)).2.2.2.1,
    ((file_and_directory_conflict "a\na/b\n".toList ["a".toList] ["a".toList, "b".toList]
      (by decide) (by decide) (by decide) ⟨["b".toList], rfl⟩ (by decide)).2.2.2.2.2.1
        none "root".toList [⟨"b".toList, "root/a".toList⟩] (by decide)).2.2
        (by decide) (by decide)⟩

/-- C17, counterexample. A lister that was spawned, wrote `a` and a
line-feed and ended with exit status 1: the node `a` is added under the
node of the repository. -/
theorem failed_lister_output_is_used :
    tree_model_build_repository [] "/r/root".toList ⟨true, 1, "a\n".toList⟩ =
      [⟨"root".toList, some "/r/root".toList,
        TreeRow.row "a".toList "a".toList TreeRow.null TreeRow.null⟩] := by
  decide

/-- C17, amended. When the lister cannot be spawned, the row of the
repository is appended with no row under it; when it is spawned, the rows
built from its output are put under the row of the repository whatever the
exit status; with an empty output there is none. The rows of the other
repositories are left as they are. -/
theorem build_repository_on_failure (model : TreeModel) (root_path : CStr)
    (lister : ListerResult) :
    (lister.spawned = false →
        tree_model_build_repository model root_path lister =
          model ++ [⟨after_last root_path G_DIR_SEPARATOR, some root_path, TreeRow.null⟩]) ∧
      (lister.spawned = true →
        tree_model_build_repository model root_path lister =
          model ++ [⟨after_last root_path G_DIR_SEPARATOR, some root_path,
            (tree_model_build_populate lister.output).1⟩]) ∧
      (lister.output = [] →
        tree_model_build_repository model root_path lister =
          model ++ [⟨after_last root_path G_DIR_SEPARATOR, some root_path, TreeRow.null⟩]) := by
  refine ⟨?_, ?_, ?_⟩
  · intro h
    simp [tree_model_build_repository, subprocess_run, h]
  · intro h
    simp [tree_model_build_repository, subprocess_run, h]
  · intro h
    unfold tree_model_build_repository subprocess_run
    rw [h]
    cases lister.spawned
    · rfl
    · rfl

/-- Witness for the amended C17: the lister cannot be spawned. -/
theorem build_repository_on_failure_witness :
    tree_model_build_repository [] "/r/root".toList ⟨false, 0, "a\n".toList⟩ =
      [] ++ [⟨after_last "/r/root".toList G_DIR_SEPARATOR, some "/r/root".toList,
        TreeRow.null⟩] :=
  (build_repository_on_failure [] "/r/root".toList ⟨false, 0, "a\n".toList⟩).1 rfl

/-- C18. With the repositories `/r/a` and `/r/b` in the model, in this
order, the search for `/r/a` returns FALSE: the loop goes on after the row
that matches, and the row `/r/b` sets `found` again; the search for `/r/b`
returns TRUE. -/
theorem find_repository_misses_earlier_row :
    example_model.map RepositoryRow.col1 = [some "/r/a".toList, some "/r/b".toList] ∧
      tree_model_find_repository "/r/a".toList example_model false = false ∧
      tree_model_find_repository "/r/b".toList example_model false = true := by
  decide

/-- C19. With the single repository `/a/b`, the path `/a/bc/f` is given
this repository: `strstr` finds the root path at the start of the path. -/
theorem find_by_path_takes_sibling_directory :
    repository_find_by_path "/a/bc/f".toList ["/a/b".toList] = some "/a/b".toList ∧
      strstr "/a/bc/f".toList "/a/b".toList = some "/a/bc/f".toList ∧
      repository_find_by_path "/a/b/f".toList ["/a/b".toList] = some "/a/b".toList ∧
      repository_find_by_path "/a/c".toList ["/a/b".toList] = none := by
  decide

/-- C20. On children in strictly ascending order `get_child` returns a
child named `text`. A child of that name that is there already is the one
returned, and the children are left as they are; otherwise one childless
node named `text` is put in, at the only position that keeps the names in
strictly ascending order, and the other children keep their subtrees and
their order. A second call with the same text returns the same child and
adds nothing. -/
theorem get_child_spec (children : GNode) (text : CStr)
    (hasc : StrictlyAscending (sibling_names children)) :
    (∃ sub, (siblings (get_child children text).1)[(get_child children text).2]? =
        some (text, sub)) ∧
      (text ∈ sibling_names children → (get_child children text).1 = children) ∧
      (text ∉ sibling_names children →
        siblings (get_child children text).1 =
          (siblings children).take (get_child children text).2 ++
            (text, GNode.null) :: (siblings children).drop (get_child children text).2) ∧
      StrictlyAscending (sibling_names (get_child children text).1) ∧
      (text ∉ sibling_names children → ∀ j, j ≤ (sibling_names children).length →
        StrictlyAscending
          ((sibling_names children).take j ++ text :: (sibling_names children).drop j) →
        j = (get_child children text).2) ∧
      get_child (get_child children text).1 text = get_child children text := by
  obtain ⟨sub, hsub⟩ := get_child_returns children text
  have hasc2 := get_child_ascending children text hasc
  refine ⟨⟨sub, hsub⟩, ?_, ?_, hasc2, ?_, ?_⟩
  · intro hmem
    rw [sibling_names_eq] at hmem
    obtain ⟨⟨n, s⟩, hp, hn⟩ := List.mem_map.mp hmem
    simp only at hn
    subst hn
    obtain ⟨i, hi⟩ := List.mem_iff_getElem?.mp hp
    rw [get_child_found children n i s hasc hi]
  · intro hnew
    exact (get_child_new children text hnew).1
  · intro hnew j hj hjasc
    obtain ⟨e1, e2⟩ := get_child_new children text hnew
    have hiasc : StrictlyAscending
        ((sibling_names children).take (get_child children text).2 ++
          text :: (sibling_names children).drop (get_child children text).2) := by
      have := hasc2
      rw [sibling_names_eq, e1] at this
      simpa [sibling_names_eq, List.map_take, List.map_drop] using this
    have e3 : (get_child children text).2 ≤ (sibling_names children).length := by
      rw [sibling_names_eq, List.length_map]; exact e2
    rcases Nat.lt_trichotomy j (get_child children text).2 with h | h | h
    · exact absurd (insert_position_lt _ text _ _ h e3 hjasc hiasc) id
    · exact h
    · exact absurd (insert_position_lt _ text _ _ h hj hiasc hjasc) id
  · have := get_child_found (get_child children text).1 text _ sub hasc2 hsub
    rw [this]

/-- Witness for C20: looking up `b` among the children `a`, `c`, and then
once more. -/
theorem get_child_spec_witness :
    StrictlyAscending (sibling_names (populate_tree "c\na\n".toList)) ∧
      get_child (populate_tree "c\na\n".toList) "b".toList =
        (GNode.node "a".toList GNode.null (GNode.node "b".toList GNode.null
          (GNode.node "c".toList GNode.null GNode.null)), 1) ∧
      get_child (get_child (populate_tree "c\na\n".toList) "b".toList).1 "b".toList =
        get_child (populate_tree "c\na\n".toList) "b".toList :=
  ⟨(ordered_names (populate_paths_ordered _)).1, by decide,
    (get_child_spec (populate_tree "c\na\n".toList) "b".toList
      (ordered_names (populate_paths_ordered _)).1).2.2.2.2.2⟩

/-- C21. The listings `a`, LF and `a`, LF, LF have the same path, but the
second gives the tokens `a` and the empty string, a tree with a second node
of the empty name, and the count 2 instead of 1; a line-feed before `a`
changes nothing. -/
theorem empty_line_changes_the_tree :
    segments "a\n".toList LF = ["a".toList] ∧
      segments "a\n\n".toList LF = ["a".toList, []] ∧
      segments "\na\n".toList LF = ["a".toList] ∧
      populate_tree "a\n".toList = GNode.node "a".toList GNode.null GNode.null ∧
      populate_tree "a\n\n".toList =
        GNode.node [] GNode.null (GNode.node "a".toList GNode.null GNode.null) ∧
      populate_tree "\na\n".toList = populate_tree "a\n".toList ∧
      (tree_model_build_populate "a\n".toList).2 = 1 ∧
      (tree_model_build_populate "a\n\n".toList).2 = 2 := by
  decide

/-- C22. For the listing of `f` under nine directories with names of 250
bytes, and of `g`, the count returned is 2, the files being these two; under
the root path `/r` the path of `f` has 2263 bytes, and the walk, which stores
bytes past the end of the buffer of 2048 bytes, yields no array. -/
theorem count_without_entries :
    (tree_model_build_populate example_long_listing).2 = 2 ∧
      (∀ q, q ∈ leaf_paths (populate_tree example_long_listing) ↔
        q = example_long_path ∨ q = ["g".toList]) ∧
      (join_path ("/r".toList :: example_long_path)).length = 2263 ∧
      flat_entries none "/r".toList (tree_model_build_populate example_long_listing).1 = none :=
  ⟨example_long_listing_count, example_long_listing_leaves, by
    have e : example_long_path =
        example_dir :: (List.replicate 8 example_dir ++ ["f".toList]) := rfl
    have h := example_long_path_length
    rw [e] at h ⊢
    rw [join_path_length_cons _ _ (by simp), h]
    rfl, example_long_listing_overruns none⟩

/-- C23. A change of the entry stores the first 127 bytes of the text, which
is the whole text when it has at most 127 bytes. Each turn of the loop of
the idle callback sets the flag of its row to whether these 127 bytes occur
in the name; when the runs of the callback that follow the change reach the
end of the store every row carries that flag, and they do reach it on a
store that is not empty when each run starts within the budget. -/
theorem query_cut_at_127_bytes (entry_text : CStr) (qoi : QuickOpenInfo) :
    (evt_open_quick_entry_changed entry_text qoi).filter_text = entry_text.take 127 ∧
      (entry_text.length ≤ 127 →
        (evt_open_quick_entry_changed entry_text qoi).filter_text = entry_text) ∧
      (∀ (store : List StoreRow) (iter : Nat) (r : StoreRow), store[iter]? = some r →
        ∃ r2, (filter_row (evt_open_quick_entry_changed entry_text qoi).filter_text
            store iter r)[iter]? = some r2 ∧
          (r2.visible = true ↔ entry_text.take 127 <:+: r2.name)) ∧
      (∀ (max_time : Int) (n : Nat) (below : Nat → Nat → Bool) (t : QuickOpenInfo) (k : Nat),
        run_ticks max_time n below (evt_open_quick_entry_changed entry_text qoi) =
          some (t, k) →
        t.filter_text = entry_text.take 127 ∧
          ∀ r ∈ t.store, (r.visible = true ↔ entry_text.take 127 <:+: r.name)) ∧
      (qoi.store ≠ [] → ∀ (max_time : Int) (below : Nat → Nat → Bool),
        (∀ k, within_budget max_time (below k 0)) →
        ∃ t k, run_ticks max_time qoi.store.length below
          (evt_open_quick_entry_changed entry_text qoi) = some (t, k)) := by
  have htext : (evt_open_quick_entry_changed entry_text qoi).filter_text =
      entry_text.take 127 := by
    unfold evt_open_quick_entry_changed
    cases qoi.store <;> simp [gtk_tree_model_get_iter_first, g_strlcpy]
  have hstore : (evt_open_quick_entry_changed entry_text qoi).store = qoi.store := by
    unfold evt_open_quick_entry_changed
    cases qoi.store <;> simp [gtk_tree_model_get_iter_first]
  have hiter : qoi.store ≠ [] →
      (evt_open_quick_entry_changed entry_text qoi).filter_iter = some 0 := by
    intro hne
    unfold evt_open_quick_entry_changed
    cases hst : qoi.store with
    | nil => exact absurd hst hne
    | cons r rs => simp [gtk_tree_model_get_iter_first]
  have hiter2 : qoi.store = [] →
      (evt_open_quick_entry_changed entry_text qoi).filter_iter = none := by
    intro hst
    unfold evt_open_quick_entry_changed
    simp [hst, gtk_tree_model_get_iter_first]
  refine ⟨htext, ?_, ?_, ?_, ?_⟩
  · intro hlen
    rw [htext]
    exact List.take_of_length_le hlen
  · intro store iter r hr
    obtain ⟨r2, h1, h2⟩ := filter_row_here
      (evt_open_quick_entry_changed entry_text qoi).filter_text store iter r hr
    refine ⟨r2, h1, ?_⟩
    unfold Filtered at h2
    rw [h2, strstr_isSome_iff, htext]
  · intro max_time n below t k hrun
    by_cases hne : qoi.store = []
    · rw [run_ticks_invalid max_time n below _ (hiter2 hne)] at hrun
      exact absurd hrun (by simp)
    · have hlt : 0 < (evt_open_quick_entry_changed entry_text qoi).store.length := by
        rw [hstore]
        exact List.length_pos.mpr hne
      obtain ⟨r1, r2, _, r4⟩ := run_ticks_spec max_time n below _ 0 0 (hiter hne) hlt
        (scanned_empty _ _ _) t k hrun
      refine ⟨r1.trans htext, ?_⟩
      intro r hr
      obtain ⟨j, hj⟩ := List.mem_iff_getElem?.mp hr
      have hf := r4 j r (Nat.zero_le _) (List.getElem?_eq_some.mp hj).1 hj
      unfold Filtered at hf
      rw [hf, strstr_isSome_iff, htext]
  · intro hne max_time below hb
    have hlt : 0 < (evt_open_quick_entry_changed entry_text qoi).store.length := by
      rw [hstore]
      exact List.length_pos.mpr hne
    obtain ⟨t, k, h1, _⟩ := run_ticks_done max_time qoi.store.length below _ 0 (hiter hne) hlt
      (by rw [hstore]; omega) hb
    exact ⟨t, k, h1⟩

set_option maxRecDepth 100000 in
/-- Witness for C23: a query of 128 bytes `a` makes the row named with 127
bytes `a` visible, though the name does not contain the query; the query `c`
is stored whole. -/
theorem query_cut_at_127_bytes_witness :
    example_long_query.length = 128 ∧
      ¬ example_long_query <:+: List.replicate 127 'a' ∧
      run_ticks 50 1 (fun _ _ => true)
          (evt_open_quick_entry_changed example_long_query example_long_state) =
        some (⟨[⟨List.replicate 127 'a', "root".toList, true⟩], List.replicate 127 'a', 0,
          none⟩, 1) ∧
      (∀ r ∈ [(⟨List.replicate 127 'a', "root".toList, true⟩ : StoreRow)],
        (r.visible = true ↔ example_long_query.take 127 <:+: r.name)) ∧
      (evt_open_quick_entry_changed "c".toList example_long_state).filter_text = "c".toList :=
  ⟨by decide, fun h => absurd h.length_le (by decide), by decide,
    ((query_cut_at_127_bytes example_long_query example_long_state).2.2.2.1 50 1
      (fun _ _ => true)
      ⟨[⟨List.replicate 127 'a', "root".toList, true⟩], List.replicate 127 'a', 0, none⟩ 1
      (by decide)).2,
    (query_cut_at_127_bytes "c".toList example_long_state).2.1 (by decide)⟩

/-- C24. With `buf_size` 0 the decrement wraps around and the whole line is
copied: for the text `ab`, LF, `cd`, LF three bytes are written (`a`, `b`,
NUL), and two for the text `ab`. With `buf_size` 1 only the NUL is written,
with `buf_size` 2 one byte and the NUL. -/
theorem zero_size_copies_whole_line :
    tok_tokenize_next_line (some "ab\ncd\n".toList) 0 =
        some ("cd\n".toList, ['a', 'b', NUL]) ∧
      tok_tokenize_next_line (some "ab".toList) 0 = some ([], ['a', 'b']) ∧
      tok_tokenize_next_line (some "ab\ncd\n".toList) 1 = some ("cd\n".toList, [NUL]) ∧
      tok_tokenize_next_line (some "ab\ncd\n".toList) 2 = some ("cd\n".toList, ['a', NUL]) := by
  decide

end GitBrowser
